import Mathlib

/-!
Verification of the Zarr-backed hdmf IO backend (`src/hdmf_zarr/backend.py`).

This file shallowly embeds the write engine (`write_builder`, `write_group`,
`write_dataset`, `write_link`, `write_attributes`), the reference machinery
(`__get_ref`, `resolve_ref`, `__get_path`), the dtype machinery (`__dtypes`,
`get_type`) and the read engine (`__read_group`, `__read_dataset`,
`__read_attrs`, `__read_links`, `__get_built`/`__set_built`) as executable
Lean functions over an explicit store/state model, and proves the spec claims
about them.

Modelling conventions:
* the Zarr store is a finite tree of groups and arrays carrying JSON-style
  attributes; store mutation is functional update threaded through a state;
* Python object identity for builders is an explicit `Nat` id; the builder
  graph is a partial map from ids to records (so parent pointers and sharing
  are represented faithfully);
* OS/path functions that touch the real filesystem (`os.path.abspath`,
  `os.path.relpath`, `os.path.isdir`, `os.path.normpath`∘`join`) are opaque
  parameters of a `Session` record: the code under proof only pipes their
  results around;
* machine-level numpy layout decisions (chunk shapes, codecs, fixed-width
  strings) do not affect any claim and are not represented; the *structure*
  of every branch (which nodes/attributes are created, what is recorded as
  written, what is queued) is kept;
* unbounded recursion (over the builder graph and over link chains in the
  store) gets an explicit fuel argument and returns `none` when fuel runs
  out, mirroring a Python `RecursionError`.
-/

namespace HZ

/-- Name of the root builder for read/write (`ROOT_NAME = 'root'`). -/
def rootName : String := "root"

/-- Scalar values appearing in builder data and attributes.
`bs` is a Python `bytes` payload (carried as its decoded text). -/
inductive SVal where
  | s (v : String)
  | bs (v : String)
  | i (v : Int)
  | b (v : Bool)
  deriving DecidableEq, Repr

/-- `ZarrReference` wire record.
Modelled from the spec: the `ZarrReference` class lives in `utils.py`, which
is not part of the provided sources; §6 of the spec fixes the wire shape
`{source: string, path: string, object_id: string|null,
source_object_id: string|null}`.  `source`/`path` are `Option` here because
`resolve_ref` defensively reads them with `.get(..., None)`. -/
structure ZarrRef where
  source : Option String
  path : Option String
  objectId : Option String
  sourceObjectId : Option String
  deriving DecidableEq, Repr

/-- One entry of the reserved `zarr_link` attribute:
`{'source': ..., 'path': ..., 'name': ...}` (see `__add_link__`). -/
structure LinkEntry where
  source : String
  path : String
  name : String
  deriving DecidableEq, Repr

/-- JSON-style attribute values as stored in the Zarr store. -/
inductive AVal where
  | s (v : String)
  | i (v : Int)
  | b (v : Bool)
  | tup (vs : List SVal)
  | refObj (typeTag : String) (r : ZarrRef)
  | links (ls : List LinkEntry)
  | fields (fs : List (String × String))
  deriving DecidableEq, Repr

/-- One stored array cell: a plain scalar or a serialized reference. -/
inductive ArrCell where
  | sv (x : SVal)
  | rv (x : ZarrRef)
  deriving DecidableEq, Repr

/-- Array payload: materialized rows of cells, or a pending chunk-iterator
placeholder (the node exists with its declared shape/dtype but its data has
not been produced yet; `pid` identifies the producer handed to the queue). -/
inductive ArrData where
  | cells (rows : List (List ArrCell))
  | unmat (pid : Nat)
  deriving DecidableEq, Repr

/-- A node of the Zarr store: a group or an array, each carrying attributes. -/
inductive ZNode where
  | group (attrs : List (String × AVal)) (children : List (String × ZNode))
  | array (attrs : List (String × AVal)) (dtype : String) (data : ArrData)

/-- Model of the concrete Python/numpy types appearing as `__dtypes` values
and as results of `type(data)` in `get_type`. -/
inductive PType where
  | float32 | float64 | int8 | int16 | int32 | int64
  | uint8 | uint16 | uint32 | uint64
  | boolT | strT | bytesT
  | pyInt | pyBool
  | zarrRefT
  deriving DecidableEq, Repr

/-- The `ZarrIO.__dtypes` table, transcribed entry by entry. -/
def dtypes : String → Option PType
  | "float" => some .float32
  | "float32" => some .float32
  | "double" => some .float64
  | "float64" => some .float64
  | "long" => some .int64
  | "int64" => some .int64
  | "uint64" => some .uint64
  | "int" => some .int32
  | "int32" => some .int32
  | "int16" => some .int16
  | "int8" => some .int8
  | "bool" => some .boolT
  | "bool_" => some .boolT
  | "text" => some .strT
  | "utf" => some .strT
  | "utf8" => some .strT
  | "utf-8" => some .strT
  | "ascii" => some .bytesT
  | "bytes" => some .bytesT
  | "str" => some .strT
  | "isodatetime" => some .strT
  | "string_" => some .bytesT
  | "uint32" => some .uint32
  | "uint16" => some .uint16
  | "uint8" => some .uint8
  | "ref" => some .zarrRefT
  | "reference" => some .zarrRefT
  | "object" => some .zarrRefT
  | "region" => some .zarrRefT
  | _ => none

/-- Python data values fed to `ZarrIO.get_type` (strings, bytes, scalars,
sequences). -/
inductive PyData where
  | s (v : String)
  | bs (v : String)
  | i (v : Int)
  | b (v : Bool)
  | seq (xs : List PyData)

/-- `ZarrIO.get_type`: classify `data` when no dtype was declared.
Strings and bytes hit the `__dtypes` table; other scalars (no `__len__`)
return their native Python type; sequences recurse on their first element;
an empty sequence raises `ValueError('cannot determine type for empty
data')`. -/
def getType : PyData → Except String (Option PType)
  | .s _ => .ok (dtypes "str")
  | .bs _ => .ok (dtypes "bytes")
  | .i _ => .ok (some .pyInt)
  | .b _ => .ok (some .pyBool)
  | .seq [] => .error "cannot determine type for empty data"
  | .seq (x :: _) => getType x

/-- Builder dtype descriptors (`builder.dtype`): unset, a concrete type, a
symbolic name, a `{'target_type': ..., 'reftype': ...}` dict, a `RefSpec`,
or a compound field list. -/
inductive BDtype where
  | unset
  | ty (t : PType)
  | nm (s : String)
  | rdict (reftype : String)
  | refSpecC (targetType : String) (reftype : String)
  | cmpd (fs : List (String × BDtype))

/-- `ZarrIO.__is_ref`: `RefSpec` instances are references; concrete
types/np.dtypes are not; otherwise compare against the string tags
`'object'`/`'region'`.  (The `DtypeSpec` unwrapping happens at call sites,
which always pass the field's dtype.) -/
def isRefD : BDtype → Bool
  | .refSpecC _ _ => true
  | .ty _ => false
  | .nm s => s == "object" || s == "region"
  | .rdict _ => false
  | .cmpd _ => false
  | .unset => false

/-- `type.__name__` / `np.dtype(...).type.__name__` for `__serial_dtype__`. -/
def ptypeName : PType → String
  | .float32 => "float32"
  | .float64 => "float64"
  | .int8 => "int8"
  | .int16 => "int16"
  | .int32 => "int32"
  | .int64 => "int64"
  | .uint8 => "uint8"
  | .uint16 => "uint16"
  | .uint32 => "uint32"
  | .uint64 => "uint64"
  | .boolT => "bool_"
  | .strT => "str"
  | .bytesT => "bytes"
  | .pyInt => "int"
  | .pyBool => "bool"
  | .zarrRefT => "object"

/-- Builder attribute values: scalars, sequences, or references to other
builders (the `Container`/`Builder`/`ReferenceBuilder` case of
`write_attributes`, normalized to the referenced builder's id). -/
inductive BAttr where
  | sc (x : SVal)
  | tp (xs : List SVal)
  | rf (bid : Nat)
  deriving DecidableEq, Repr

/-- A compound-data cell on the builder side: a plain value or a reference
to a builder. -/
inductive Cell where
  | v (x : SVal)
  | r (bid : Nat)
  deriving DecidableEq, Repr

/-- Builder dataset payloads, one constructor per `write_dataset` dispatch
case that the model covers: a handle to an existing Zarr array, a single
`ReferenceBuilder`, a sequence of builders/containers, compound rows, a
scalar, a plain sequence, or a data-chunk iterator. -/
inductive BData where
  | zarr (file : String) (apath : String)
  | refOne (bid : Nat)
  | refList (bids : List Nat)
  | rows (rs : List (List Cell))
  | sv (x : SVal)
  | lst (xs : List SVal)
  | dci (pid : Nat) (shape : List Nat) (dt : String)

/-- Kind-specific part of a builder record. -/
inductive BKind where
  | group (subgroups : List Nat) (datasets : List Nat) (links : List Nat)
  | dataset (data : BData) (dtype : BDtype)
  | link (target : Nat)

/-- One builder object.  `parent`, `location`, `source`, `object_id` mirror
the hdmf `Builder` accessors used by the backend. -/
structure BRec where
  name : String
  parent : Option Nat
  location : Option String
  source : Option String
  objectId : Option String
  attributes : List (String × BAttr)
  kind : BKind

/-- The builder graph: Python object identity becomes an explicit id. -/
def BEnv := Nat → Option BRec

/-- Map of openable store locations to store trees (what `zarr.open` /
`__open_file_consolidated` can return for a location string). -/
def Files := String → Option ZNode

/-- Ambient IO-session facts: `self.source`, `self.abspath`, `str(self.path)`,
remoteness, the openable files, the chunk producers, and the opaque OS path
helpers used by the backend. -/
structure Session where
  source : String
  sabspath : String
  pathStr : String
  isRemote : Bool
  files : Files
  prod : Nat → List (List ArrCell)
  isDir : String → Bool
  relpath : String → String → String
  abspathF : String → String
  normJoin : String → String → String
  absJoin : String → String → String

/-! ### `__get_path` and the parent walks of `__get_ref` -/

/-- The name-collecting loop of `__get_path`:
`while curr is not None and curr.name != ROOT_NAME: names.append(curr.name);
curr = curr.parent`.  Fuel bounds the parent chain. -/
def walkNames (env : BEnv) : Nat → Option Nat → Option (List String)
  | _, none => some []
  | 0, some _ => none
  | fuel + 1, some bid =>
    match env bid with
    | none => none
    | some b =>
      if b.name = rootName then some []
      else (walkNames env fuel b.parent).map (fun rest => b.name :: rest)

/-- `ZarrIO.__get_path`: an explicit `location` is joined with the name;
otherwise the path is assembled from the parent chain up to the sentinel
root and joined with `/` after reversal. -/
def getPathB (env : BEnv) (sess : Session) (fuel : Nat) (bid : Nat) :
    Option String :=
  match env bid with
  | none => none
  | some b =>
    match b.location with
    | some loc => some (sess.normJoin loc b.name)
    | none =>
      (walkNames env fuel (some bid)).map
        (fun names => "/" ++ String.intercalate "/" names.reverse)

/-- The root-finding loop of `__get_ref`:
`curr = builder; while curr is not None and curr.name != ROOT_NAME:
curr = curr.parent`.  Returns the root ancestor's id if one was found. -/
def findRoot (env : BEnv) : Nat → Option Nat → Option (Option Nat)
  | _, none => some none
  | 0, some _ => none
  | fuel + 1, some bid =>
    match env bid with
    | none => none
    | some b =>
      if b.name = rootName then some (some bid) else findRoot env fuel b.parent

/-- The argument universe of `__get_ref`: a `Builder` (possibly a
`LinkBuilder`, unwrapped one level) or a `ReferenceBuilder` wrapping one. -/
inductive RefTarget where
  | builder (bid : Nat)
  | refBuilder (bid : Nat)

/-- `ZarrIO.__get_ref`: normalize to the underlying builder, compute its
in-store path and object id, find the owning root's object id by walking
parents (null, plus a warning, when there is no root ancestor), pick the
`source` (the builder's own source if it is a store directory, else this
session's), and finally either force `source = '.'` when `export_source`
was supplied or relativize against this session's file. -/
def getRef (env : BEnv) (sess : Session) (fuel : Nat) (tgt : RefTarget)
    (exportSource : Option String) : Option ZarrRef :=
  let bid0 :=
    match tgt with
    | .builder b => b
    | .refBuilder b => b
  match env bid0 with
  | none => none
  | some b0 =>
    let bid :=
      match tgt, b0.kind with
      | .builder _, .link t => t
      | _, _ => bid0
    match env bid with
    | none => none
    | some b =>
      match getPathB env sess fuel bid with
      | none => none
      | some path =>
        match findRoot env fuel (some bid) with
        | none => none
        | some rootRes =>
          let sourceObjectId :=
            rootRes.bind (fun rid => (env rid).bind (·.objectId))
          let src0 :=
            match b.source with
            | some s => if sess.isDir s then s else sess.source
            | none => sess.source
          let src :=
            match exportSource with
            | some _ => "."
            | none => sess.relpath (sess.abspathF src0) sess.sabspath
          some { source := some src, path := some path,
                 objectId := b.objectId, sourceObjectId := sourceObjectId }

/-! ### `resolve_ref` -/

/-- `str.rstrip('/')`. -/
def rstripSlash (s : String) : String :=
  ⟨(s.toList.reverse.dropWhile (fun c => c = '/')).reverse⟩

/-- `str.lstrip('.')`. -/
def lstripDot (s : String) : String :=
  ⟨s.toList.dropWhile (fun c => c = '.')⟩

/-- Component splitter for in-store paths: split on `/` and drop empty
components (Zarr's storage path normalization).  Implemented by structural
recursion over the characters. -/
def splitPathAux : List Char → List Char → List String
  | [], cur => if cur = [] then [] else [⟨cur.reverse⟩]
  | c :: rest, cur =>
    if c = '/' then
      if cur = [] then splitPathAux rest []
      else (⟨cur.reverse⟩ : String) :: splitPathAux rest []
    else splitPathAux rest (c :: cur)

/-- Split an in-store path on `/`, dropping empty components. -/
def splitPath (p : String) : List String :=
  splitPathAux p.toList []

/-- `os.path.basename`: the characters after the last `/`. -/
def basename (p : String) : String :=
  ⟨(p.toList.reverse.takeWhile (fun c => c ≠ '/')).reverse⟩

/-- Assoc-list lookup (Python dict read). -/
def lookupA {α : Type} : List (String × α) → String → Option α
  | [], _ => none
  | (k', v) :: rest, k => if k' = k then some v else lookupA rest k

/-- Descend from a store node along path components (Zarr `group[path]`). -/
def descend : ZNode → List String → Option ZNode
  | n, [] => some n
  | .group _ ch, x :: rest => (lookupA ch x).bind (fun c => descend c rest)
  | .array _ _ _, _ :: _ => none

/-- Errors surfaced by `resolve_ref`. -/
inductive RefErr where
  | badLink (objectPath : String) (sourceFile : String)
  | openFail (sourceFile : String)
  deriving DecidableEq, Repr

/-- The source-location resolution of `resolve_ref`: take `source` (falling
back to `path`), then join it to this session's file — directory-style for
local stores, string concatenation with `/`-rstrip and `.`-lstrip for
remote stores. -/
def sourceFileOf (sess : Session) (r : ZarrRef) : String :=
  let sf :=
    match r.source with
    | none => r.path.getD ""
    | some s => s
  if sess.isRemote then rstripSlash sess.pathStr ++ lstripDot sf
  else sess.absJoin sess.source sf

/-- `ZarrIO.resolve_ref`: open the resolved source file, pick the target
name (`basename(path)` when `path` is truthy, the sentinel root name
otherwise), and descend to `path` when it is present, raising
`ValueError('Found bad link to object ...')` when the descent fails.
Returns the target name together with the resolved (file, path-components)
key of the target node. -/
def resolveRef (sess : Session) (files : Files) (r : ZarrRef) :
    Except RefErr (String × String × List String) :=
  let sf := sourceFileOf sess r
  let targetName :=
    match r.path with
    | some p => if p ≠ "" then basename p else rootName
    | none => rootName
  match files sf with
  | none => .error (.openFail sf)
  | some root =>
    match r.path with
    | none => .ok (targetName, sf, [])
    | some p =>
      match descend root (splitPath p) with
      | some _ => .ok (targetName, sf, splitPath p)
      | none => .error (.badLink p sf)

/-- Node addressed by a resolved (file, path) key. -/
def nodeOfKey (files : Files) (k : String × List String) : Option ZNode :=
  (files k.1).bind (fun root => descend root k.2)

/-! ### Store update primitives (functional model of Zarr mutation) -/

/-- Attributes of a node. -/
def attrsOf : ZNode → List (String × AVal)
  | .group a _ => a
  | .array a _ _ => a

/-- Replace a node's attributes. -/
def withAttrs : ZNode → List (String × AVal) → ZNode
  | .group _ ch, a => .group a ch
  | .array _ dt d, a => .array a dt d

/-- Assoc-list write (Python dict assignment): replace in place or append. -/
def setA {α : Type} : List (String × α) → String → α → List (String × α)
  | [], k, v => [(k, v)]
  | (k', v') :: rest, k, v =>
    if k' = k then (k, v) :: rest else (k', v') :: setA rest k v

/-- Update the node at a path with a partial transformer, rebuilding the
spine; fails if the path does not lead to a node or the transformer
rejects. -/
def updateAt (f : ZNode → Option ZNode) : ZNode → List String → Option ZNode
  | n, [] => f n
  | .group a ch, x :: rest =>
    match lookupA ch x with
    | none => none
    | some c => (updateAt f c rest).map (fun c' => .group a (setA ch x c'))
  | .array _ _ _, _ :: _ => none

/-- Read an attribute of the node at a path. -/
def attrAt (root : ZNode) (p : List String) (k : String) : Option AVal :=
  (descend root p).bind (fun n => lookupA (attrsOf n) k)

/-- `obj.attrs[k] = v` at a path. -/
def setAttrP (root : ZNode) (p : List String) (k : String) (v : AVal) :
    Option ZNode :=
  updateAt (fun n => some (withAttrs n (setA (attrsOf n) k v))) root p

/-- `parent.require_group(name)`: reuse an existing child group, create a
fresh empty one, fail if the name is taken by an array (Zarr raises). -/
def requireGroupP (root : ZNode) (p : List String) (name : String) :
    Option ZNode :=
  updateAt
    (fun n =>
      match n with
      | .group a ch =>
        match lookupA ch name with
        | some (.group _ _) => some (.group a ch)
        | some (.array _ _ _) => none
        | none => some (.group a (ch ++ [(name, .group [] [])]))
      | .array _ _ _ => none)
    root p

/-- `parent.require_dataset(name, shape, dtype, ...)`: reuse a compatible
existing array (the model compares the storage dtype), create a fresh one,
fail on kind/dtype clashes. -/
def requireArrayP (root : ZNode) (p : List String) (name : String)
    (dt : String) (init : ArrData) : Option ZNode :=
  updateAt
    (fun n =>
      match n with
      | .group a ch =>
        match lookupA ch name with
        | some (.array _ dt' _) => if dt' = dt then some (.group a ch) else none
        | some (.group _ _) => none
        | none => some (.group a (ch ++ [(name, .array [] dt init)]))
      | .array _ _ _ => none)
    root p

/-- `parent.create_dataset(name, ...)`: create, failing if the name exists. -/
def createArrayP (root : ZNode) (p : List String) (name : String)
    (dt : String) (init : ArrData) : Option ZNode :=
  updateAt
    (fun n =>
      match n with
      | .group a ch =>
        match lookupA ch name with
        | some _ => none
        | none => some (.group a (ch ++ [(name, .array [] dt init)]))
      | .array _ _ _ => none)
    root p

/-- `zarr.copy(src, parent, name)`: insert a copied node, failing if the
name exists (Zarr's default `if_exists='raise'`). -/
def insertChildP (root : ZNode) (p : List String) (name : String)
    (node : ZNode) : Option ZNode :=
  updateAt
    (fun n =>
      match n with
      | .group a ch =>
        match lookupA ch name with
        | some _ => none
        | none => some (.group a (ch ++ [(name, node)]))
      | .array _ _ _ => none)
    root p

/-- `dset[...] = data` at an array path. -/
def setDataP (root : ZNode) (p : List String) (d : ArrData) : Option ZNode :=
  updateAt
    (fun n =>
      match n with
      | .array a dt _ => some (.array a dt d)
      | .group _ _ => none)
    root p

/-! ### Write-session state -/

/-- Mutable state of a write session: the open store tree, the
`WriteStatusTracker` contents (builder ids), the `ZarrIODataChunkIteratorQueue`
contents, and whether metadata consolidation was requested.
Modelled from the spec: the queue class lives in `utils.py` (not among the
provided sources); §5 fixes its contract to exactly `enqueue` and `drain`. -/
structure WState where
  root : ZNode
  written : List Nat
  queue : List (List String × Nat)
  consolidated : Bool

/-- `self.get_written(builder)` (identity-keyed). -/
def getWritten (st : WState) (bid : Nat) : Bool :=
  st.written.contains bid

/-- `self._written_builders.set_written(builder)` (idempotent insert). -/
def setWritten (st : WState) (bid : Nat) : WState :=
  if st.written.contains bid then st else { st with written := bid :: st.written }

/-- Drain the chunk-iterator queue (`exhaust_queue`): every queued node is
materialized from its producer's output, and the queue empties.
Modelled from the spec: §5 — "`drain` guarantees all enqueued nodes are
fully materialized and safely readable afterward". -/
def drainQueue (sess : Session) (st : WState) : WState :=
  { st with
    root := st.queue.foldl
      (fun r e => (setDataP r e.1 (.cells (sess.prod e.2))).getD r) st.root,
    queue := [] }

/-! ### `write_attributes` -/

/-- The elementwise retry conversion of `write_attributes`: bytes become
utf-8 text, everything else in the model's universe is already JSON-safe. -/
def decodeSV : SVal → SVal
  | .bs v => .s v
  | x => x

/-- Stored form of a scalar attribute (bytes go through the decode retry). -/
def scalarAVal : SVal → AVal
  | .s v => .s v
  | .bs v => .s v
  | .i v => .i v
  | .b v => .b v

/-- The value stored for one builder attribute by `write_attributes`:
sequences normalize to a tuple, references become
`{'zarr_dtype': 'object', 'value': ref}`, scalars are stored directly
(with the bytes-decode retry). -/
def attrAssignVal (env : BEnv) (sess : Session) (fuel : Nat)
    (es : Option String) : BAttr → Option AVal
  | .sc x => some (scalarAVal x)
  | .tp xs => some (.tup (xs.map decodeSV))
  | .rf bid =>
    (getRef env sess fuel (.builder bid) es).map (fun r => .refObj "object" r)

/-- `ZarrIO.write_attributes`: assign each attribute of the dict in order
onto the node at `p`. -/
def writeAttributes (env : BEnv) (sess : Session) (fuel : Nat)
    (es : Option String) : WState → List String → List (String × BAttr) →
    Option WState
  | st, _, [] => some st
  | st, p, (k, a) :: rest =>
    match attrAssignVal env sess fuel es a with
    | none => none
    | some v =>
      match setAttrP st.root p k v with
      | none => none
      | some root' =>
        writeAttributes env sess fuel es { st with root := root' } p rest

/-! ### `write_link` -/

/-- `ZarrIO.__add_link__`: append `{'source': src, 'path': pth, 'name': nm}`
to the parent's `zarr_link` attribute (created as `[]` when absent). -/
def addLink (st : WState) (pp : List String) (src pth nm : String) :
    Option WState :=
  let cur :=
    match attrAt st.root pp "zarr_link" with
    | some (.links ls) => ls
    | _ => []
  match setAttrP st.root pp "zarr_link" (.links (cur ++ [⟨src, pth, nm⟩])) with
  | none => none
  | some root' => some { st with root := root' }

/-- `ZarrIO.write_link`: no-op when the builder is already written; else
build a reference to the target (forcing `source = '.'` when link and
target share a source file), append it to the parent's link list, and mark
the builder written. -/
def writeLink (env : BEnv) (sess : Session) (fuel : Nat) (st : WState)
    (pp : List String) (bid : Nat) : Option WState :=
  if getWritten st bid then some st
  else
    match env bid with
    | none => none
    | some b =>
      match b.kind with
      | .link tbid =>
        (match env tbid with
        | none => none
        | some tb =>
          match getRef env sess fuel (.builder tbid) none with
          | none => none
          | some zr0 =>
            let zr := if b.source = tb.source then
              { zr0 with source := some "." } else zr0
            match addLink st pp (zr.source.getD "") (zr.path.getD "")
              b.name with
            | none => none
            | some st' => some (setWritten st' bid))
      | _ => none

/-! ### `write_dataset` and its fill helpers -/

/-- Concrete storage types as produced by `__resolve_dtype_helper__`:
a primitive or a compound record of resolved fields. -/
inductive RType where
  | prim (t : PType)
  | cmp (fs : List (String × Option PType))
  deriving DecidableEq, Repr

/-- `__resolve_dtype_helper__` on a single (non-list) dtype descriptor.
`some none` is Python `None` (triggering data-based inference); unknown
symbolic names also yield `None` via `dict.get`. -/
def resolveDtypeHelperF : BDtype → Option (Option PType)
  | .unset => some none
  | .ty t => some (some t)
  | .nm s => some (dtypes s)
  | .rdict r => some (dtypes r)
  | .refSpecC _ rt => some (dtypes rt)
  | .cmpd _ => none

/-- `__resolve_dtype_helper__`: lists become compound records of resolved
fields; everything else is a single resolved type. -/
def resolveDtypeHelperM : BDtype → Option (Option RType)
  | .cmpd fs =>
    (fs.mapM (fun f => (resolveDtypeHelperF f.2).map (fun t => (f.1, t)))).map
      (fun l => some (.cmp l))
  | d => (resolveDtypeHelperF d).map (fun o => o.map .prim)

/-- View of builder data as a Python value for `get_type` inference. -/
def svToPy : SVal → PyData
  | .s v => .s v
  | .bs v => .bs v
  | .i v => .i v
  | .b v => .b v

/-- Data argument as seen by `get_type` (only scalar/sequence payloads are
inferable in the model's universe). -/
def pyDataOfBData : BData → Option PyData
  | .sv x => some (svToPy x)
  | .lst xs => some (.seq (xs.map svToPy))
  | _ => none

/-- `ZarrIO.__resolve_dtype__`: resolve the declared dtype, falling back to
`get_type(data)` when resolution yields `None`. -/
def resolveDtype (dtype : BDtype) (data : BData) : Option RType :=
  (resolveDtypeHelperM dtype).bind fun o =>
    match o with
    | some t => some t
    | none =>
      (pyDataOfBData data).bind fun pd =>
        match getType pd with
        | .ok (some t) => some (.prim t)
        | .ok none => none
        | .error _ => none

/-- `__serial_dtype__` of a resolved type, as the attribute value written
into `zarr_dtype`. -/
def serialDtype : RType → AVal
  | .prim t => .s (ptypeName t)
  | .cmp fs => .fields (fs.map (fun f => (f.1, (f.2.map ptypeName).getD "None")))

/-- Storage-dtype string recorded on the model's array node. -/
def rtypeDtStr : RType → String
  | .prim t => ptypeName t
  | .cmp _ => "compound"

/-- `ZarrIO.__list_fill__` over the model's universe: resolve the dtype
(declared or inferred), require the dataset, record `zarr_dtype`, write the
payload.  (Numpy shape/codec mechanics do not change the resulting store
shape of this model and are elided.) -/
def listFill (st : WState) (pp : List String) (name : String) (data : BData)
    (dtype : BDtype) : Option (List String × WState) :=
  match resolveDtype dtype data with
  | none => none
  | some rt =>
    match (match data with
      | .lst xs => some (xs.map (fun x => [ArrCell.sv x]))
      | .rows rs =>
        rs.mapM (fun row => row.mapM (fun c =>
          match c with
          | .v x => some (ArrCell.sv x)
          | .r _ => none))
      | _ => none) with
    | none => none
    | some rows =>
      match requireArrayP st.root pp name (rtypeDtStr rt) (.cells rows) with
      | none => none
      | some root1 =>
        match setAttrP root1 (pp ++ [name]) "zarr_dtype" (serialDtype rt) with
        | none => none
        | some root2 =>
          match setDataP root2 (pp ++ [name]) (.cells rows) with
          | none => none
          | some root3 => some (pp ++ [name], { st with root := root3 })

/-- `ZarrIO.__scalar_fill__`: resolve the dtype, require a `(1,)` dataset,
write the value, record `zarr_dtype = 'scalar'`. -/
def scalarFill (st : WState) (pp : List String) (name : String) (data : BData)
    (dtype : BDtype) : Option (List String × WState) :=
  match resolveDtype dtype data with
  | none => none
  | some rt =>
    match (match data with
      | .sv x => some (ArrCell.sv x)
      | _ => none) with
    | none => none
    | some cell =>
      match requireArrayP st.root pp name (rtypeDtStr rt) (.cells [[cell]]) with
      | none => none
      | some root1 =>
        match setDataP root1 (pp ++ [name]) (.cells [[cell]]) with
        | none => none
        | some root2 =>
          match setAttrP root2 (pp ++ [name]) "zarr_dtype" (.s "scalar") with
          | none => none
          | some root3 => some (pp ++ [name], { st with root := root3 })

/-- Dtype string recorded by `__setup_chunked_dataset__` (string dtypes go
through the `__dtypes` table, declared types win over the iterator's). -/
def chunkDtStr (dtype : BDtype) (dciDt : String) : String :=
  match dtype with
  | .unset => dciDt
  | .nm s => ((dtypes s).map ptypeName).getD "None"
  | .ty t => ptypeName t
  | _ => dciDt

/-- The per-field serialization loop of the compound branch of
`write_dataset`: reference fields record `{'name': ..., 'dtype': 'object'}`
(probing `data[0]` for the reference), other fields serialize their resolved
type.  Returns the `type_str` entries together with the reference field
indexes. -/
def compoundFieldInfo (env : BEnv) (sess : Session) (fuel : Nat)
    (es : Option String) (rs : List (List Cell)) :
    List (Nat × String × BDtype) → Option (List (String × String) × List Nat)
  | [] => some ([], [])
  | (i, fn, fd) :: rest =>
    match compoundFieldInfo env sess fuel es rs rest with
    | none => none
    | some (tailStr, tailRefs) =>
      if isRefD fd then
        match rs.head? with
        | none => none
        | some row0 =>
          match row0.get? i with
          | none => none
          | some (.v _) => none
          | some (.r rbid) =>
            match getRef env sess fuel (.builder rbid) es with
            | none => none
            | some _ => some ((fn, "object") :: tailStr, i :: tailRefs)
      else
        match resolveDtypeHelperF fd with
        | none => none
        | some tf =>
          some ((fn, (tf.map ptypeName).getD "None") :: tailStr, tailRefs)

/-- Substitute the reference fields of one compound row by their
`ZarrReference`s (`new_item[i] = self.__get_ref(item[i], export_source)`). -/
def compoundRow (env : BEnv) (sess : Session) (fuel : Nat)
    (es : Option String) (refs : List Nat) (row : List Cell) :
    Option (List ArrCell) :=
  (row.enum.mapM fun ci =>
    if ci.1 ∈ refs then
      match ci.2 with
      | .r t => (getRef env sess fuel (.builder t) es).map ArrCell.rv
      | .v _ => none
    else
      match ci.2 with
      | .v x => some (ArrCell.sv x)
      | .r _ => none)

/-- The dispatch table of `write_dataset` (the `elif` chain selecting a
storage strategy from the shape of the data and dtype).  Returns the
created node path, whether the data was linked rather than stored, and the
updated state. -/
def writeDatasetDispatch (env : BEnv) (sess : Session) (fuel : Nat)
    (st : WState) (pp : List String) (name : String) (data : BData)
    (dtype : BDtype) (linkData : Bool) (es : Option String) (bid : Nat) :
    Option (Option (List String) × Bool × WState) :=
  match data, dtype with
  | .zarr f ap, _ =>
    if linkData then
      match addLink st pp f ap name with
      | none => none
      | some st' => some ((none : Option (List String)), true, st')
    else
      match nodeOfKey sess.files (f, splitPath ap) with
      | none => none
      | some (.group _ _) => none
      | some (.array a dt d) =>
        match insertChildP st.root pp name (.array a dt d) with
        | none => none
        | some root' =>
          some (some (pp ++ [name]), false, { st with root := root' })
  | _, .cmpd fs =>
    (match data with
    | .rows rs =>
      (match compoundFieldInfo env sess fuel es rs fs.enum with
      | none => none
      | some (typeStr, refs) =>
        if refs ≠ [] then
          let st := setWritten st bid
          match rs.mapM (compoundRow env sess fuel es refs) with
          | none => none
          | some newRows =>
            match requireArrayP st.root pp name "compound" (.cells newRows) with
            | none => none
            | some root1 =>
              match setAttrP root1 (pp ++ [name]) "zarr_dtype"
                (.fields typeStr) with
              | none => none
              | some root2 =>
                match setDataP root2 (pp ++ [name]) (.cells newRows) with
                | none => none
                | some root3 =>
                  some (some (pp ++ [name]), false, { st with root := root3 })
        else
          match listFill st pp name data dtype with
          | none => none
          | some (dp, st') => some (some dp, false, st'))
    | _ => none)
  | _, _ =>
    if isRefD dtype then
      match (match data with
        | .refOne rb =>
          (getRef env sess fuel (.builder rb) es).map
            (fun r => [[ArrCell.rv r]])
        | .refList bids =>
          bids.mapM (fun t =>
            (getRef env sess fuel (.builder t) es).map
              (fun r => [ArrCell.rv r]))
        | _ => none) with
      | none => none
      | some rows =>
        match requireArrayP st.root pp name "object" (.cells rows) with
        | none => none
        | some root1 =>
          let st := setWritten { st with root := root1 } bid
          match setAttrP st.root (pp ++ [name]) "zarr_dtype" (.s "object") with
          | none => none
          | some root2 =>
            match setDataP root2 (pp ++ [name]) (.cells rows) with
            | none => none
            | some root3 =>
              some (some (pp ++ [name]), false, { st with root := root3 })
    else
      match data with
      | .sv (.s v) =>
        (scalarFill st pp name (.sv (.s v)) dtype).map
          (fun r => (some r.1, false, r.2))
      | .sv (.bs v) =>
        (scalarFill st pp name (.sv (.bs v)) dtype).map
          (fun r => (some r.1, false, r.2))
      | .dci pid _shape dt =>
        (match createArrayP st.root pp name (chunkDtStr dtype dt)
          (.unmat pid) with
        | none => none
        | some root1 =>
          match setAttrP root1 (pp ++ [name]) "zarr_dtype"
            (.s (chunkDtStr dtype dt)) with
          | none => none
          | some root2 =>
            some (some (pp ++ [name]), false,
              { st with root := root2,
                        queue := st.queue ++ [(pp ++ [name], pid)] }))
      | .lst xs =>
        (listFill st pp name (.lst xs) dtype).map
          (fun r => (some r.1, false, r.2))
      | .rows rs =>
        (listFill st pp name (.rows rs) dtype).map
          (fun r => (some r.1, false, r.2))
      | .sv x =>
        (scalarFill st pp name (.sv x) dtype).map
          (fun r => (some r.1, false, r.2))
      | _ => none

/-- `ZarrIO.write_dataset`: early-return `None` for already-written
builders, then dispatch on the shape of the data/dtype exactly as the
source does — existing Zarr array (link or copy), compound dtype (with or
without reference fields), reference dtype (single reference or sequence of
them), and the generic scalar/iterator/sequence cases — finally writing
attributes (except for pure links), marking the builder written, and
draining the queue when eager exhaustion was requested.
(The `h5py`/`HDMFDataset`/`ZarrDataIO` input wrappers are cross-backend
adapters outside the model's data universe.) -/
def writeDataset (env : BEnv) (sess : Session) (fuel : Nat) (st : WState)
    (pp : List String) (bid : Nat) (linkData exhaustDci : Bool)
    (es : Option String) (forceData : Option BData) :
    Option (Option (List String) × WState) :=
  if getWritten st bid then some (none, st)
  else
    match env bid with
    | none => none
    | some b =>
      match b.kind with
      | .dataset data0 dtype =>
        (match writeDatasetDispatch env sess fuel st pp b.name
          (forceData.getD data0) dtype linkData es bid with
        | none => none
        | some (dset, linked, st1) =>
          match (if linked then some st1
            else
              match dset with
              | some dp => writeAttributes env sess fuel none st1 dp
                  b.attributes
              | none => none) with
          | none => none
          | some st2 =>
            let st3 := setWritten st2 bid
            let st4 := if exhaustDci then drainQueue sess st3 else st3
            some (dset, st4))
      | _ => none

/-! ### `write_group` and `write_builder` -/

/-- The dataset loop of `write_group`/`write_builder` (`export_source` is
forwarded). -/
def writeDatasetList (env : BEnv) (sess : Session) (fuel : Nat) :
    WState → List String → List Nat → Bool → Bool → Option String →
    Option WState
  | st, _, [], _, _, _ => some st
  | st, gp, bid :: rest, linkData, exhaustDci, es =>
    match writeDataset env sess fuel st gp bid linkData exhaustDci es none with
    | none => none
    | some (_, st') =>
      writeDatasetList env sess fuel st' gp rest linkData exhaustDci es

/-- The link loop of `write_group`. -/
def writeLinkList (env : BEnv) (sess : Session) (fuel : Nat) :
    WState → List String → List Nat → Option WState
  | st, _, [] => some st
  | st, gp, bid :: rest =>
    match writeLink env sess fuel st gp bid with
    | none => none
    | some st' => writeLinkList env sess fuel st' gp rest

mutual

/-- `ZarrIO.write_group`: reuse the existing child node when the builder is
already written, else `require_group` it; then recurse into subgroups (the
source drops `export_source` here), datasets, links; write the attributes;
mark written. -/
def writeGroup (env : BEnv) (sess : Session) :
    Nat → WState → List String → Nat → Bool → Bool → Option String →
    Option WState
  | 0, _, _, _, _, _, _ => none
  | fuel + 1, st, pp, bid, linkData, exhaustDci, es =>
    match env bid with
    | none => none
    | some b =>
      match b.kind with
      | .group sg ds ls =>
        match (if getWritten st bid then
            match descend st.root (pp ++ [b.name]) with
            | some _ => some st.root
            | none => none
          else requireGroupP st.root pp b.name) with
        | none => none
        | some root0 =>
          match writeGroupList env sess fuel { st with root := root0 }
            (pp ++ [b.name]) sg linkData exhaustDci with
          | none => none
          | some st1 =>
            match writeDatasetList env sess fuel st1 (pp ++ [b.name]) ds
              linkData exhaustDci es with
            | none => none
            | some st2 =>
              match writeLinkList env sess fuel st2 (pp ++ [b.name]) ls with
              | none => none
              | some st3 =>
                match writeAttributes env sess fuel none st3 (pp ++ [b.name])
                  b.attributes with
                | none => none
                | some st4 => some (setWritten st4 bid)
      | _ => none
  termination_by fuel _ _ _ _ _ _ => (fuel, 0)

/-- The subgroup loop of `write_group` (`export_source` is not forwarded,
as in the source). -/
def writeGroupList (env : BEnv) (sess : Session) :
    Nat → WState → List String → List Nat → Bool → Bool → Option WState
  | _, st, _, [], _, _ => some st
  | fuel, st, gp, bid :: rest, linkData, exhaustDci =>
    match writeGroup env sess fuel st gp bid linkData exhaustDci none with
    | none => none
    | some st' => writeGroupList env sess fuel st' gp rest linkData exhaustDci
  termination_by fuel _ _ bids _ _ => (fuel, bids.length + 1)

end

/-- The root-group loop of `write_builder` (here `export_source` *is*
forwarded to each top-level `write_group`). -/
def writeBuilderGroups (env : BEnv) (sess : Session) (fuel : Nat) :
    WState → List Nat → Bool → Bool → Option String → Option WState
  | st, [], _, _, _ => some st
  | st, bid :: rest, linkData, exhaustDci, es =>
    match writeGroup env sess fuel st [] bid linkData exhaustDci es with
    | none => none
    | some st' => writeBuilderGroups env sess fuel st' rest linkData exhaustDci es

/-- `ZarrIO.write_builder`: write the root builder's groups, then its
datasets, then its attributes, drain the chunk-iterator queue, mark the
root written, and consolidate metadata when requested.  The root builder's
own links are never visited (there is no loop over `f_builder.links` in the
source). -/
def writeBuilder (env : BEnv) (sess : Session) (fuel : Nat) (st : WState)
    (rootBid : Nat) (linkData exhaustDci : Bool) (es : Option String)
    (consolidateMetadata : Bool) : Option WState :=
  match env rootBid with
  | none => none
  | some b =>
    match b.kind with
    | .group sg ds _ =>
      match writeBuilderGroups env sess fuel st sg linkData exhaustDci es with
      | none => none
      | some st1 =>
        match writeDatasetList env sess fuel st1 [] ds linkData exhaustDci
          es with
        | none => none
        | some st2 =>
          match writeAttributes env sess fuel none st2 [] b.attributes with
          | none => none
          | some st3 =>
            let st4 := setWritten (drainQueue sess st3) rootBid
            some (if consolidateMetadata then { st4 with consolidated := true }
              else st4)
    | _ => none

/-! ### Read engine: builders reconstructed from the store -/

/-- Dtype tag on a read dataset builder: the `zarr_dtype` attribute value
(a plain string, or the compound field list). -/
inductive RDtype where
  | str (s : String)
  | cmp (fs : List (String × String))
  deriving DecidableEq, Repr

/-- Data of a read dataset builder: the lazy node itself, an eagerly
dereferenced scalar, a lazy reference-resolving view
(`BuilderZarrReferenceDataset`), or a lazy row-resolving table view
(`BuilderZarrTableDataset`). -/
inductive RData where
  | lazy (k : String × List String)
  | scalarV (c : Option ArrCell)
  | refView (k : String × List String)
  | tableView (k : String × List String) (dts : List String)
  deriving DecidableEq, Repr

mutual
/-- Attribute value on a rebuilt builder: plain, or a resolved target
builder (reference-tagged attributes). -/
inductive RAttrV where
  | v (x : AVal)
  | bld (b : RBuilder)

/-- A rebuilt `LinkBuilder`. -/
inductive RLink where
  | mk (serial : Nat) (name : String) (location : String) (target : RBuilder)

/-- A rebuilt `GroupBuilder`/`DatasetBuilder`.  `serial` is the Python
object identity of the constructed builder (fresh per construction). -/
inductive RBuilder where
  | group (serial : Nat) (name : String) (location : String)
      (attrs : List (String × RAttrV)) (subgroups : List RBuilder)
      (datasets : List RBuilder) (links : List RLink)
  | dataset (serial : Nat) (name : String) (location : String)
      (attrs : List (String × RAttrV)) (dtype : RDtype) (data : RData)
end

/-- Object identity of a rebuilt builder. -/
def RBuilder.serial : RBuilder → Nat
  | .group s _ _ _ _ _ _ => s
  | .dataset s _ _ _ _ _ => s

/-- Attribute dictionary of a rebuilt builder. -/
def RBuilder.rattrs : RBuilder → List (String × RAttrV)
  | .group _ _ _ a _ _ _ => a
  | .dataset _ _ _ a _ _ => a

/-- Dtype of a rebuilt dataset builder (`none` for groups). -/
def RBuilder.rdtype : RBuilder → Option RDtype
  | .group _ _ _ _ _ _ _ => none
  | .dataset _ _ _ _ dt _ => some dt

/-- State of a read session: the `self.__built` cache keyed by
(store path, in-store path), the write-status tracker (builder serials),
the warnings issued so far, and the fresh-identity counter. -/
structure RState where
  built : List ((String × List String) × RBuilder)
  rwritten : List Nat
  warningsLog : List String
  counter : Nat

/-- Cache lookup keyed by (store path, in-store path). -/
def lookupK : List ((String × List String) × RBuilder) →
    (String × List String) → Option RBuilder
  | [], _ => none
  | (k', b) :: rest, k => if k' = k then some b else lookupK rest k

/-- `ZarrIO.__get_built`. -/
def getBuilt (st : RState) (k : String × List String) : Option RBuilder :=
  lookupK st.built k

/-- `ZarrIO.__set_built` (a `dict.setdefault`). -/
def setBuilt (st : RState) (k : String × List String) (b : RBuilder) : RState :=
  { st with built :=
      if (lookupK st.built k).isSome then st.built else st.built ++ [(k, b)] }

/-- `set_written` on the read side (builder serials). -/
def markWrittenR (st : RState) (n : Nat) : RState :=
  if st.rwritten.contains n then st else { st with rwritten := n :: st.rwritten }

/-- `os.path.basename(zarr_obj.name)`: last path component. -/
def basenameKey (k : String × List String) : String :=
  (k.2.getLast?).getD ""

/-- `ZarrIO.get_zarr_parent_path` for a node inside the open store. -/
def parentLoc (k : String × List String) : String :=
  "/" ++ String.intercalate "/" k.2.dropLast

/-- `os.path.join` for link locations. -/
def joinPath (l n : String) : String :=
  if l = "" then n
  else if l.toList.getLast? = some '/' then l ++ n
  else l ++ "/" ++ n

/-- Store key of a named child of a node. -/
def childKey (k : String × List String) (n : String) : String × List String :=
  (k.1, k.2 ++ [n])

/-- Names of child groups (`zarr_obj.groups()`). -/
def groupsOf (ch : List (String × ZNode)) : List String :=
  (ch.filter (fun c =>
    match c.2 with
    | .group _ _ => true
    | _ => false)).map (·.1)

/-- Names of child arrays (`zarr_obj.arrays()`). -/
def arraysOf (ch : List (String × ZNode)) : List String :=
  (ch.filter (fun c =>
    match c.2 with
    | .array _ _ _ => true
    | _ => false)).map (·.1)

/-- The parsed `zarr_link` attribute of a node ([] when absent). -/
def linkEntriesOf (attrs : List (String × AVal)) : List LinkEntry :=
  match lookupA attrs "zarr_link" with
  | some (.links ls) => ls
  | _ => []

/-- The `zarr_dtype` attribute value as a dtype tag. -/
def avalToRDtype : AVal → Option RDtype
  | .s s => some (.str s)
  | .fields fs => some (.cmp fs)
  | _ => none

/-- `ZarrIO.__reserve_attribute`. -/
def reservedAttrs : List String := ["zarr_dtype", "zarr_link"]

/-- First stored cell of an array (`zarr_obj[()]` on a scalar dataset). -/
def firstCell : ArrData → Option ArrCell
  | .cells (r :: _) => r.head?
  | _ => none

mutual

/-- `ZarrIO.__read_group`: return the cached builder when the node was
already built; otherwise read attributes, recurse into child groups and
arrays, read links, construct the `GroupBuilder`, mark it written, and
register it in the built cache. -/
def readGroupK (sess : Session) : Nat → RState → (String × List String) →
    Option String → Option (RBuilder × RState)
  | 0, _, _, _ => none
  | fuel + 1, st, k, nm =>
    match getBuilt st k with
    | some b => some (b, st)
    | none =>
      match nodeOfKey sess.files k with
      | none => none
      | some (.array _ _ _) => none
      | some (.group gattrs ch) =>
        match readAttrList sess fuel st gattrs with
        | none => none
        | some (rattrs, st1) =>
          match readGroupChildren sess fuel st1 k (groupsOf ch) with
          | none => none
          | some (subs, st2) =>
            match readArrayChildren sess fuel st2 k (arraysOf ch) with
            | none => none
            | some (dsets, st3) =>
              match readLinkList sess fuel st3 (linkEntriesOf gattrs)
                  (joinPath (parentLoc k) (nm.getD (basenameKey k))) with
              | none => none
              | some (lnks, st4) =>
                let ret := RBuilder.group st4.counter
                  (nm.getD (basenameKey k)) (parentLoc k) rattrs subs dsets
                  lnks
                some (ret, setBuilt (markWrittenR
                  { st4 with counter := st4.counter + 1 } st4.counter) k ret)

/-- `ZarrIO.__read_dataset`: cached-builder short-circuit; then the dtype
tag (falling back to the storage dtype with a warning when `zarr_dtype` is
absent); then attributes, the dtype-directed data view, construction,
written-marking, cache registration. -/
def readDatasetK (sess : Session) : Nat → RState → (String × List String) →
    Option String → Option (RBuilder × RState)
  | 0, _, _, _ => none
  | fuel + 1, st, k, nm =>
    match getBuilt st k with
    | some b => some (b, st)
    | none =>
      match nodeOfKey sess.files k with
      | none => none
      | some (.group _ _) => none
      | some (.array aattrs dt adata) =>
        match (match lookupA aattrs "zarr_dtype" with
          | some v => (avalToRDtype v).map (fun d => (d, st))
          | none =>
            some (RDtype.str dt,
              { st with warningsLog := st.warningsLog ++
                  ["Inferred dtype from zarr type. Dataset missing zarr_dtype: "
                    ++ nm.getD (basenameKey k)] })) with
        | none => none
        | some (zdt, st0) =>
          match readAttrList sess fuel st0 aattrs with
          | none => none
          | some (rattrs, st1) =>
            let data1 := if zdt = RDtype.str "scalar" then
                RData.scalarV (firstCell adata)
              else RData.lazy k
            let data2 :=
              match zdt with
              | .cmp fs =>
                if fs.any (fun f => f.2 = "object" || f.2 = "region") then
                  RData.tableView k (fs.map (·.2))
                else data1
              | .str s => if s = "object" then RData.refView k else data1
            let ret := RBuilder.dataset st1.counter (nm.getD (basenameKey k))
              (parentLoc k) rattrs zdt data2
            some (ret, setBuilt (markWrittenR
              { st1 with counter := st1.counter + 1 } st1.counter) k ret)

/-- `ZarrIO.__read_attrs`: skip the reserved keys; resolve
`{'zarr_dtype': 'object', 'value': ...}` attributes through `resolve_ref`
and a recursive read; region-tagged attributes raise. -/
def readAttrList (sess : Session) : Nat → RState → List (String × AVal) →
    Option (List (String × RAttrV) × RState)
  | 0, _, _ => none
  | _ + 1, st, [] => some ([], st)
  | fuel + 1, st, (k, v) :: rest =>
    if k ∈ reservedAttrs then readAttrList sess fuel st rest
    else
      match v with
      | .refObj tag r =>
        if tag = "object" then
          match (resolveRef sess sess.files r).toOption with
          | none => none
          | some (tname, sf, tpath) =>
            match nodeOfKey sess.files (sf, tpath) with
            | none => none
            | some node =>
              match (match node with
                | .group _ _ =>
                  readGroupK sess fuel st (sf, tpath) (some tname)
                | .array _ _ _ =>
                  readDatasetK sess fuel st (sf, tpath) (some tname)) with
              | none => none
              | some (tb, st1) =>
                match readAttrList sess fuel st1 rest with
                | none => none
                | some (restR, st2) => some ((k, .bld tb) :: restR, st2)
        else none
      | _ =>
        match readAttrList sess fuel st rest with
        | none => none
        | some (restR, st2) => some ((k, .v v) :: restR, st2)

/-- The child-group loop of `__read_group`. -/
def readGroupChildren (sess : Session) : Nat → RState →
    (String × List String) → List String → Option (List RBuilder × RState)
  | 0, _, _, _ => none
  | _ + 1, st, _, [] => some ([], st)
  | fuel + 1, st, k, n :: rest =>
    match readGroupK sess fuel st (childKey k n) (some n) with
    | none => none
    | some (b, st1) =>
      match readGroupChildren sess fuel st1 k rest with
      | none => none
      | some (bs, st2) => some (b :: bs, st2)

/-- The child-array loop of `__read_group`. -/
def readArrayChildren (sess : Session) : Nat → RState →
    (String × List String) → List String → Option (List RBuilder × RState)
  | 0, _, _, _ => none
  | _ + 1, st, _, [] => some ([], st)
  | fuel + 1, st, k, n :: rest =>
    match readDatasetK sess fuel st (childKey k n) (some n) with
    | none => none
    | some (b, st1) =>
      match readArrayChildren sess fuel st1 k rest with
      | none => none
      | some (bs, st2) => some (b :: bs, st2)

/-- `ZarrIO.__read_links`: resolve each `zarr_link` entry, read the target
(as a group or dataset), wrap it in a `LinkBuilder` located at the parent,
mark it written. -/
def readLinkList (sess : Session) : Nat → RState → List LinkEntry → String →
    Option (List RLink × RState)
  | 0, _, _, _ => none
  | _ + 1, st, [], _ => some ([], st)
  | fuel + 1, st, e :: rest, lloc =>
    match (resolveRef sess sess.files
        { source := some e.source, path := some e.path,
          objectId := none, sourceObjectId := none }).toOption with
    | none => none
    | some (tname, sf, tpath) =>
      match nodeOfKey sess.files (sf, tpath) with
      | none => none
      | some node =>
        match (match node with
          | .group _ _ => readGroupK sess fuel st (sf, tpath) (some tname)
          | .array _ _ _ =>
            readDatasetK sess fuel st (sf, tpath) (some tname)) with
        | none => none
        | some (tb, st1) =>
          match readLinkList sess fuel
              (markWrittenR { st1 with counter := st1.counter + 1 }
                st1.counter) rest lloc with
          | none => none
          | some (restL, st3) =>
            some (RLink.mk st1.counter e.name lloc tb :: restL, st3)

end

/-! ### Reachability over the store (for the built-cache claims) -/

/-- Resolved targets of the reference-tagged attributes of a node. -/
def attrRefTargets (sess : Session) (attrs : List (String × AVal)) :
    List (String × List String) :=
  attrs.filterMap (fun kv =>
    match kv.2 with
    | .refObj _ r =>
      ((resolveRef sess sess.files r).toOption).map (fun t => (t.2.1, t.2.2))
    | _ => none)

/-- Resolved targets of the `zarr_link` entries of a node. -/
def linkTargets (sess : Session) (attrs : List (String × AVal)) :
    List (String × List String) :=
  (linkEntriesOf attrs).filterMap (fun e =>
    ((resolveRef sess sess.files
      { source := some e.source, path := some e.path,
        objectId := none, sourceObjectId := none }).toOption).map
      (fun t => (t.2.1, t.2.2)))

/-- Resolved targets of an explicit list of link entries. -/
def entryTargets (sess : Session) (es : List LinkEntry) :
    List (String × List String) :=
  es.filterMap (fun e =>
    ((resolveRef sess sess.files
      { source := some e.source, path := some e.path,
        objectId := none, sourceObjectId := none }).toOption).map
      (fun t => (t.2.1, t.2.2)))

/-- Direct successors of a store key during reading: child nodes,
reference-attribute targets and link targets. -/
def succs (sess : Session) (k : String × List String) :
    List (String × List String) :=
  match nodeOfKey sess.files k with
  | some (.group a ch) =>
    (ch.map (fun c => (k.1, k.2 ++ [c.1]))) ++ attrRefTargets sess a
      ++ linkTargets sess a
  | some (.array a _ _) => attrRefTargets sess a
  | none => []

/-- Keys reachable from `k` in at most `fuel` successor steps. -/
def reachableL (sess : Session) : Nat → (String × List String) →
    List (String × List String)
  | 0, k => [k]
  | fuel + 1, k => k :: (succs sess k).flatMap (reachableL sess fuel)

/-- No key reachable from `k` within `fuel` steps lies on a cycle of length
at most `fuel + 1`: the store region a read of `k` can visit is acyclic.
(Links reaching a node twice through different *paths* are fine; this only
excludes a link chain from a node back into itself.) -/
def NoCycle (sess : Session) (fuel : Nat) (k : String × List String) : Prop :=
  ∀ k' ∈ reachableL sess fuel k,
    k' ∉ (succs sess k').flatMap (reachableL sess fuel)

/-! ### Write-side verification predicates -/

/-- Is the node at `p` a group? -/
def isGroupAt (root : ZNode) (p : List String) : Bool :=
  match descend root p with
  | some (.group _ _) => true
  | _ => false

/-- Does a node exist at `p`? -/
def existsAt (root : ZNode) (p : List String) : Bool :=
  (descend root p).isSome

/-- All elements distinct (boolean `Nodup`). -/
def distinctB : List String → Bool
  | [] => true
  | x :: xs => (!xs.contains x) && distinctB xs

/-- Well-formedness of a group-builder subtree as hdmf guarantees it:
child names are pairwise distinct within a group (they are dict keys in
hdmf, jointly unique across subgroups/datasets/links), attribute keys are
distinct, and subgroups are recursively well-formed groups. -/
def nameOf (env : BEnv) (i : Nat) : String :=
  match env i with
  | some c => c.name
  | none => ""

/-- Well-formedness (see `nameOf` above): distinct child names, distinct
attribute keys, recursively for subgroups. -/
def WFB (env : BEnv) : Nat → Nat → Bool
  | 0, _ => false
  | fuel + 1, bid =>
    match env bid with
    | none => false
    | some b =>
      match b.kind with
      | .group sg ds ls =>
        distinctB ((sg ++ ds ++ ls).map (nameOf env)) &&
        distinctB (b.attributes.map (·.1)) &&
        sg.all (WFB env fuel)
      | _ => false

/-- Replay invariant: the builder subtree rooted at `bid` has been fully
written into the state.  The builder and all its dataset/link children are
marked written, its store node exists, every attribute already holds its
computed value, and its subgroups recursively satisfy the same. -/
def DoneG (env : BEnv) (sess : Session) : Nat → WState → List String → Nat →
    Prop
  | 0, _, _, _ => False
  | fuel + 1, st, pp, bid =>
    ∃ b sg ds ls, env bid = some b ∧ b.kind = .group sg ds ls ∧
      getWritten st bid = true ∧
      existsAt st.root (pp ++ [b.name]) = true ∧
      (∀ d ∈ ds, getWritten st d = true) ∧
      (∀ l ∈ ls, getWritten st l = true) ∧
      (∀ g ∈ sg, DoneG env sess fuel st (pp ++ [b.name]) g) ∧
      (∀ k a, (k, a) ∈ b.attributes →
        ∃ v, attrAssignVal env sess fuel none a = some v ∧
          attrAt st.root (pp ++ [b.name]) k = some v)

/-- Builder ids a `write_group` call can possibly mark written. -/
def touchedW (env : BEnv) : Nat → Nat → List Nat
  | 0, bid => [bid]
  | fuel + 1, bid =>
    match env bid with
    | none => [bid]
    | some b =>
      match b.kind with
      | .group sg ds ls => bid :: (sg.flatMap (touchedW env fuel) ++ ds ++ ls)
      | _ => [bid]


/-- No reserved bookkeeping key appears in a rebuilt attribute dict. -/
def CA (l : List (String × RAttrV)) : Prop :=
  ∀ kv ∈ l, kv.1 ∉ reservedAttrs

/-- The builder's own attribute dict is reserved-free. -/
def CB (b : RBuilder) : Prop := CA b.rattrs

/-- Every builder in the read cache has a reserved-free attribute dict. -/
def CS (st : RState) : Prop := ∀ e ∈ st.built, CB e.2

/-! ### Concrete instances used to witness the theorems -/

/-- A small concrete builder graph: a root with one subgroup, one dataset
and one link (the link targets the dataset). -/
def wEnv : BEnv := fun i =>
  if i = 0 then
    some { name := rootName, parent := none, location := none,
           source := some "/f", objectId := some "rootid",
           attributes := [("ra", .sc (.i 1))], kind := .group [3] [1] [2] }
  else if i = 1 then
    some { name := "d", parent := some 0, location := none,
           source := some "/f", objectId := some "oid1",
           attributes := [("da", .sc (.s "x"))],
           kind := .dataset (.sv (.i 7)) .unset }
  else if i = 2 then
    some { name := "l", parent := some 0, location := none,
           source := some "/f", objectId := none,
           attributes := [], kind := .link 1 }
  else if i = 3 then
    some { name := "g", parent := some 0, location := none,
           source := some "/f", objectId := some "oid3",
           attributes := [("ga", .sc (.b true))], kind := .group [] [] [] }
  else none

/-- A concrete session with trivially computable OS helpers. -/
def wSess : Session :=
  { source := "/f", sabspath := "/f", pathStr := "/f", isRemote := false,
    files := fun _ => none, prod := fun _ => [],
    isDir := fun _ => false, relpath := fun _ _ => "rel",
    abspathF := fun s => s, normJoin := fun a b => a ++ "/" ++ b,
    absJoin := fun a b => a ++ "/" ++ b }

/-- Fresh write state over an empty store. -/
def wSt0 : WState :=
  { root := .group [] [], written := [], queue := [], consolidated := false }

/-- A state in which builder 9 is already recorded as written. -/
def wStW : WState :=
  { root := .group [] [], written := [9], queue := [], consolidated := false }

/-- The state produced by writing the leaf group builder 3 into `wSt0`
(computed by evaluation; certified below in the C1 witness). -/
def wStG : WState :=
  { root := .group [] [("g", .group [("ga", .b true)] [])], written := [3],
    queue := [], consolidated := false }

/-- The state produced by `writeBuilder` on the root builder 0 of `wEnv`
(computed by evaluation; certified in the C3 theorems). -/
def wStB : WState :=
  { root := .group [("ra", .i 1)]
      [("g", .group [("ga", .b true)] []),
       ("d", .array [("zarr_dtype", .s "scalar"), ("da", .s "x")] "int"
          (.cells [[.sv (.i 7)]]))],
    written := [0, 1, 3], queue := [], consolidated := true }

/-- The reference record `__get_ref` produces for builder 1 in `wEnv`. -/
def wRef1 : ZarrRef :=
  { source := some "rel", path := some "/d", objectId := some "oid1",
    sourceObjectId := some "rootid" }

/-- State after writing the single reference-valued attribute `a` of the
`c4` scenario. -/
def wStC4 : WState :=
  { root := .group [("a", .refObj "object" wRef1)] [], written := [],
    queue := [], consolidated := false }

/-- A concrete two-child store for the `resolve_ref` witnesses. -/
def wStore : ZNode :=
  .group [] [("a", .group [] []),
             ("d", .array [] "int32" (.cells [[.sv (.i 1)]]))]

/-- Session whose only openable location is `FILE`, holding `wStore`. -/
def wSessF : Session :=
  { source := "/f", sabspath := "/f", pathStr := "/f", isRemote := false,
    files := fun f => if f = "FILE" then some wStore else none,
    prod := fun _ => [],
    isDir := fun _ => false, relpath := fun _ _ => "rel",
    abspathF := fun s => s, normJoin := fun a b => a ++ "/" ++ b,
    absJoin := fun _ _ => "FILE" }

/-- A reference record whose path points at the subgroup `a` of `wStore`. -/
def wRefC6 : ZarrRef :=
  { source := some "x", path := some "/a", objectId := none,
    sourceObjectId := none }

/-- Empty read-session state. -/
def wRSt0 : RState :=
  { built := [], rwritten := [], warningsLog := [], counter := 0 }

/-- Builders and states produced by reading `wStore` (computed by
evaluation; certified in the C2/C9 witnesses). -/
def wBD : RBuilder :=
  .dataset 0 "d" "/" [] (.str "int32") (.lazy ("FILE", ["d"]))

def wRStD : RState :=
  { built := [(("FILE", ["d"]), wBD)], rwritten := [0],
    warningsLog :=
      ["Inferred dtype from zarr type. Dataset missing zarr_dtype: d"],
    counter := 1 }

def wBGa : RBuilder := .group 0 "a" "/" [] [] [] []

def wBDd : RBuilder :=
  .dataset 1 "d" "/" [] (.str "int32") (.lazy ("FILE", ["d"]))

def wBRoot : RBuilder := .group 2 "" "/" [] [wBGa] [wBDd] []

def wRStRoot : RState :=
  { built := [(("FILE", ["a"]), wBGa), (("FILE", ["d"]), wBDd),
      (("FILE", []), wBRoot)],
    rwritten := [2, 1, 0],
    warningsLog :=
      ["Inferred dtype from zarr type. Dataset missing zarr_dtype: d"],
    counter := 3 }

/-! ## Lemmas about the store primitives -/

theorem lookupA_setA_self {α : Type} (l : List (String × α)) (k : String)
    (v : α) : lookupA (setA l k v) k = some v := by
  induction l with
  | nil => simp [setA, lookupA]
  | cons hd tl ih =>
    by_cases h : hd.1 = k
    · simp [setA, h, lookupA]
    · simp [setA, h, lookupA, ih]

theorem lookupA_setA_other {α : Type} (l : List (String × α)) (k k' : String)
    (v : α) (h : k' ≠ k) : lookupA (setA l k v) k' = lookupA l k' := by
  induction l with
  | nil => simp [setA, lookupA, Ne.symm h]
  | cons hd tl ih =>
    by_cases hh : hd.1 = k
    · subst hh
      simp [setA, lookupA, Ne.symm h]
    · by_cases hk : hd.1 = k'
      · simp [setA, hh, lookupA, hk, h]
      · simp [setA, hh, lookupA, hk, ih]

theorem setA_id {α : Type} {l : List (String × α)} {k : String} {v : α}
    (h : lookupA l k = some v) : setA l k v = l := by
  induction l with
  | nil => simp [lookupA] at h
  | cons hd tl ih =>
    by_cases hh : hd.1 = k
    · simp only [lookupA, hh, if_pos] at h
      subst hh
      obtain rfl := Option.some.inj h
      simp [setA]
    · simp only [lookupA, hh, if_neg, not_false_iff] at h
      simp [setA, hh, ih h]

theorem lookupA_append {α : Type} (l₁ l₂ : List (String × α)) (k : String) :
    lookupA (l₁ ++ l₂) k =
      match lookupA l₁ k with
      | some v => some v
      | none => lookupA l₂ k := by
  induction l₁ with
  | nil => simp [lookupA]
  | cons hd tl ih =>
    by_cases hh : hd.1 = k
    · simp [lookupA, hh]
    · simp [lookupA, hh, ih]

theorem descend_append (root : ZNode) (p q : List String) :
    descend root (p ++ q) = (descend root p).bind (fun n => descend n q) := by
  induction p generalizing root with
  | nil => simp [descend]
  | cons x rest ih =>
    cases root with
    | group a ch =>
      simp only [List.cons_append, descend]
      cases lookupA ch x with
      | none => simp
      | some c => simp [ih]
    | array a dt d => simp [descend]

theorem descend_withAttrs_cons (n : ZNode) (a : List (String × AVal))
    (x : String) (r : List String) :
    descend (withAttrs n a) (x :: r) = descend n (x :: r) := by
  cases n <;> simp [withAttrs, descend]

theorem attrsOf_withAttrs (n : ZNode) (a : List (String × AVal)) :
    attrsOf (withAttrs n a) = a := by
  cases n <;> simp [withAttrs, attrsOf]

/-- A successful `updateAt` found a node, transformed it, and the result
holds the transformed node at the path. -/
theorem updateAt_descend {f : ZNode → Option ZNode} {root root' : ZNode}
    {p : List String} (h : updateAt f root p = some root') :
    ∃ n n', descend root p = some n ∧ f n = some n' ∧
      descend root' p = some n' := by
  induction p generalizing root root' with
  | nil =>
    simp only [updateAt] at h
    exact ⟨root, root', by simp [descend], h, by simp [descend]⟩
  | cons x rest ih =>
    cases root with
    | array a dt d => simp [updateAt] at h
    | group a ch =>
      simp only [updateAt] at h
      cases hc : lookupA ch x with
      | none => simp [hc] at h
      | some c =>
        simp only [hc, Option.map_eq_some'] at h
        obtain ⟨c', hc', rfl⟩ := h
        obtain ⟨n, n', hd, hf, hd'⟩ := ih hc'
        exact ⟨n, n', by simp [descend, hc, hd], hf,
          by simp [descend, lookupA_setA_self, hd']⟩

/-- `updateAt` with an identity transformation leaves the tree unchanged. -/
theorem updateAt_id {f : ZNode → Option ZNode} {root : ZNode}
    {p : List String} {n : ZNode} (hd : descend root p = some n)
    (hf : f n = some n) : updateAt f root p = some root := by
  induction p generalizing root with
  | nil =>
    simp [descend] at hd
    subst hd
    simpa [updateAt] using hf
  | cons x rest ih =>
    cases root with
    | array a dt d => simp [descend] at hd
    | group a ch =>
      simp only [descend] at hd
      cases hc : lookupA ch x with
      | none => simp [hc] at hd
      | some c =>
        simp only [hc, Option.some_bind] at hd
        simp [updateAt, hc, ih hd, setA_id hc]

/-- Outside the subtree of the updated path, every node observation is
unchanged — attributes of every node not below `p` are untouched. -/
theorem updateAt_frame_attr {f : ZNode → Option ZNode} {root root' : ZNode}
    {p : List String} (h : updateAt f root p = some root') :
    ∀ q k, ¬ p <+: q → attrAt root' q k = attrAt root q k := by
  induction p generalizing root root' with
  | nil => intro q k hq; exact absurd (List.nil_prefix) hq
  | cons x rest ih =>
    intro q k hq
    cases root with
    | array a dt d => simp [updateAt] at h
    | group a ch =>
      simp only [updateAt] at h
      cases hc : lookupA ch x with
      | none => simp [hc] at h
      | some c =>
        simp only [hc, Option.map_eq_some'] at h
        obtain ⟨c', hc', rfl⟩ := h
        cases q with
        | nil => simp [attrAt, descend, attrsOf]
        | cons y qr =>
          by_cases hyx : y = x
          · subst hyx
            have hq' : ¬ rest <+: qr := by
              intro hpre
              exact hq (List.cons_prefix_cons.mpr ⟨rfl, hpre⟩)
            simp only [attrAt, descend, hc, lookupA_setA_self,
              Option.some_bind]
            exact ih hc' qr k hq'
          · simp [attrAt, descend, lookupA_setA_other ch x y c' hyx]

/-- Outside the subtree of the updated path, groupness is unchanged. -/
theorem updateAt_frame_group {f : ZNode → Option ZNode} {root root' : ZNode}
    {p : List String} (h : updateAt f root p = some root') :
    ∀ q, ¬ p <+: q → isGroupAt root' q = isGroupAt root q := by
  induction p generalizing root root' with
  | nil => intro q hq; exact absurd (List.nil_prefix) hq
  | cons x rest ih =>
    intro q hq
    cases root with
    | array a dt d => simp [updateAt] at h
    | group a ch =>
      simp only [updateAt] at h
      cases hc : lookupA ch x with
      | none => simp [hc] at h
      | some c =>
        simp only [hc, Option.map_eq_some'] at h
        obtain ⟨c', hc', rfl⟩ := h
        cases q with
        | nil => simp [isGroupAt, descend]
        | cons y qr =>
          by_cases hyx : y = x
          · subst hyx
            have hq' : ¬ rest <+: qr := by
              intro hpre
              exact hq (List.cons_prefix_cons.mpr ⟨rfl, hpre⟩)
            simp only [isGroupAt, descend, hc, lookupA_setA_self,
              Option.some_bind]
            exact ih hc' qr hq'
          · simp [isGroupAt, descend, lookupA_setA_other ch x y c' hyx]

theorem withAttrs_attrsOf (n : ZNode) : withAttrs n (attrsOf n) = n := by
  cases n <;> simp [withAttrs, attrsOf]

theorem isGroup_withAttrs (n : ZNode) (a : List (String × AVal)) :
    (match withAttrs n a with
      | ZNode.group _ _ => true
      | _ => false) =
    (match n with
      | ZNode.group _ _ => true
      | _ => false) := by
  cases n <;> simp [withAttrs]

/-! ### `setAttrP` characterization -/

theorem setAttrP_attr_self {root root' : ZNode} {p : List String} {k : String}
    {v : AVal} (h : setAttrP root p k v = some root') :
    attrAt root' p k = some v := by
  obtain ⟨n, n', _, hfn, hdn'⟩ := updateAt_descend h
  simp only [Option.some_inj] at hfn
  simp [attrAt, hdn', ← hfn, attrsOf_withAttrs, lookupA_setA_self]

theorem setAttrP_attr_self_other {root root' : ZNode} {p : List String}
    {k : String} {v : AVal} (h : setAttrP root p k v = some root')
    (k' : String) (hk : k' ≠ k) : attrAt root' p k' = attrAt root p k' := by
  obtain ⟨n, n', hdn, hfn, hdn'⟩ := updateAt_descend h
  simp only [Option.some_inj] at hfn
  simp [attrAt, hdn, hdn', ← hfn, attrsOf_withAttrs,
    lookupA_setA_other _ _ _ _ hk]

theorem setAttrP_attr_other {root root' : ZNode} {p : List String}
    {k : String} {v : AVal} (h : setAttrP root p k v = some root')
    (q : List String) (hq : q ≠ p) (k' : String) :
    attrAt root' q k' = attrAt root q k' := by
  by_cases hpre : p <+: q
  · obtain ⟨r, rfl⟩ := hpre
    obtain ⟨n, n', hdn, hfn, hdn'⟩ := updateAt_descend h
    simp only [Option.some_inj] at hfn
    cases r with
    | nil => simp at hq
    | cons y r' =>
      simp [attrAt, descend_append, hdn, hdn', ← hfn, descend_withAttrs_cons]
  · exact updateAt_frame_attr h q k' hpre

theorem setAttrP_group {root root' : ZNode} {p : List String} {k : String}
    {v : AVal} (h : setAttrP root p k v = some root') (q : List String) :
    isGroupAt root' q = isGroupAt root q := by
  by_cases hpre : p <+: q
  · obtain ⟨r, rfl⟩ := hpre
    obtain ⟨n, n', hdn, hfn, hdn'⟩ := updateAt_descend h
    simp only [Option.some_inj] at hfn
    cases r with
    | nil =>
      simp only [List.append_nil]
      simp only [isGroupAt, hdn, hdn', ← hfn]
      cases n <;> simp [withAttrs]
    | cons y r' =>
      simp [isGroupAt, descend_append, hdn, hdn', ← hfn,
        descend_withAttrs_cons]
  · exact updateAt_frame_group h q hpre

/-- Re-assigning an attribute to its current value leaves the tree equal. -/
theorem setAttrP_of_already {root : ZNode} {p : List String} {k : String}
    {v : AVal} (h : attrAt root p k = some v) :
    setAttrP root p k v = some root := by
  simp only [attrAt, Option.bind_eq_some] at h
  obtain ⟨n, hdn, hl⟩ := h
  exact updateAt_id hdn (by simp [setA_id hl, withAttrs_attrsOf])

/-! ### `requireGroupP` characterization -/

theorem requireGroupP_cases {root root' : ZNode} {p : List String}
    {name : String} (h : requireGroupP root p name = some root') :
    (root' = root ∧ isGroupAt root (p ++ [name]) = true) ∨
    (∃ a ch, descend root p = some (.group a ch) ∧ lookupA ch name = none ∧
      descend root' p = some (.group a (ch ++ [(name, .group [] [])]))) := by
  obtain ⟨n, n', hdn, hfn, hdn'⟩ := updateAt_descend h
  cases n with
  | array a dt d => simp [requireGroupP] at hfn
  | group a ch =>
    cases hc : lookupA ch name with
    | some c =>
      cases c with
      | group a' ch' =>
        left
        have h2 : requireGroupP root p name = some root := by
          unfold requireGroupP
          exact updateAt_id hdn (by simp [hc])
        rw [h2] at h
        refine ⟨(Option.some.inj h).symm, ?_⟩
        simp [isGroupAt, descend_append, hdn, descend, hc]
      | array a' dt' d' => simp [hc] at hfn
    | none =>
      right
      simp only [hc, Option.some_inj] at hfn
      rw [← hfn] at hdn'
      exact ⟨a, ch, hdn, hc, hdn'⟩

theorem requireGroupP_attr {root root' : ZNode} {p : List String}
    {name : String} (h : requireGroupP root p name = some root')
    (q : List String) (k : String) : attrAt root' q k = attrAt root q k := by
  rcases requireGroupP_cases h with ⟨rfl, _⟩ | ⟨a, ch, hdn, hc, hdn'⟩
  · rfl
  · by_cases hpre : p <+: q
    · obtain ⟨r, rfl⟩ := hpre
      cases r with
      | nil => simp [attrAt, hdn, hdn', attrsOf]
      | cons y r' =>
        by_cases hyn : y = name
        · subst hyn
          simp only [attrAt, descend_append, hdn, hdn', Option.some_bind,
            descend, lookupA_append, hc, lookupA]
          cases r' with
          | nil => simp [descend, attrsOf, lookupA]
          | cons z r'' => simp [descend, lookupA]
        · simp only [attrAt, descend_append, hdn, hdn', Option.some_bind,
            descend, lookupA_append, hc]
          have : lookupA ([(name, ZNode.group [] [])]) y = none := by
            simp [lookupA, Ne.symm hyn]
          rw [this]
          cases hcy : lookupA ch y <;> simp
    · exact updateAt_frame_attr h q k hpre

theorem requireGroupP_group_other {root root' : ZNode} {p : List String}
    {name : String} (h : requireGroupP root p name = some root')
    (q : List String) (hq : q ≠ p ++ [name]) :
    isGroupAt root' q = isGroupAt root q := by
  rcases requireGroupP_cases h with ⟨rfl, _⟩ | ⟨a, ch, hdn, hc, hdn'⟩
  · rfl
  · by_cases hpre : p <+: q
    · obtain ⟨r, rfl⟩ := hpre
      cases r with
      | nil => simp [isGroupAt, hdn, hdn']
      | cons y r' =>
        by_cases hyn : y = name
        · subst hyn
          cases r' with
          | nil => exact absurd (by simp) hq
          | cons z r'' =>
            simp only [isGroupAt, descend_append, hdn, hdn', Option.some_bind,
              descend, lookupA_append, hc, lookupA]
            simp [descend, lookupA]
        · simp only [isGroupAt, descend_append, hdn, hdn', Option.some_bind,
            descend, lookupA_append, hc]
          have : lookupA ([(name, ZNode.group [] [])]) y = none := by
            simp [lookupA, Ne.symm hyn]
          rw [this]
          cases hcy : lookupA ch y <;> simp
    · exact updateAt_frame_group h q hpre

theorem requireGroupP_group_self {root root' : ZNode} {p : List String}
    {name : String} (h : requireGroupP root p name = some root') :
    isGroupAt root' (p ++ [name]) = true := by
  rcases requireGroupP_cases h with ⟨rfl, hg⟩ | ⟨a, ch, hdn, hc, hdn'⟩
  · exact hg
  · simp [isGroupAt, descend_append, hdn', descend, lookupA_append, hc,
      lookupA]

/-! ### `requireArrayP` / `createArrayP` / `insertChildP` / `setDataP` -/

theorem requireArrayP_cases {root root' : ZNode} {p : List String}
    {name dt : String} {init : ArrData}
    (h : requireArrayP root p name dt init = some root') :
    root' = root ∨
    (∃ a ch, descend root p = some (.group a ch) ∧ lookupA ch name = none ∧
      descend root' p = some (.group a (ch ++ [(name, .array [] dt init)]))) := by
  obtain ⟨n, n', hdn, hfn, hdn'⟩ := updateAt_descend h
  cases n with
  | array a dtn d => simp [requireArrayP] at hfn
  | group a ch =>
    cases hc : lookupA ch name with
    | some c =>
      cases c with
      | group a' ch' => simp [hc] at hfn
      | array a' dt' d' =>
        left
        simp only [hc] at hfn
        by_cases hdt : dt' = dt
        · have h2 : requireArrayP root p name dt init = some root := by
            unfold requireArrayP
            exact updateAt_id hdn (by simp [hc, hdt])
          rw [h2] at h
          exact (Option.some.inj h).symm
        · simp [hdt] at hfn
    | none =>
      right
      simp only [hc, Option.some_inj] at hfn
      rw [← hfn] at hdn'
      exact ⟨a, ch, hdn, hc, hdn'⟩

theorem freshChild_attr {root root' : ZNode} {p : List String} {name : String}
    {nw : ZNode} {a : List (String × AVal)} {ch : List (String × ZNode)}
    (hdn : descend root p = some (.group a ch)) (hc : lookupA ch name = none)
    (hdn' : descend root' p = some (.group a (ch ++ [(name, nw)])))
    (hframe : ∀ q k, ¬ p <+: q → attrAt root' q k = attrAt root q k)
    (hnw : attrsOf nw = [] ∧ ∀ y r, descend nw (y :: r) = none) :
    ∀ q k, attrAt root' q k = attrAt root q k := by
  intro q k
  by_cases hpre : p <+: q
  · obtain ⟨r, rfl⟩ := hpre
    cases r with
    | nil => simp [attrAt, hdn, hdn', attrsOf]
    | cons y r' =>
      by_cases hyn : y = name
      · subst hyn
        simp only [attrAt, descend_append, hdn, hdn', Option.some_bind,
          descend, lookupA_append, hc, lookupA]
        cases r' with
        | nil => simp [descend, hnw.1, lookupA]
        | cons z r'' => simp [descend, hnw.2]
      · simp only [attrAt, descend_append, hdn, hdn', Option.some_bind,
          descend, lookupA_append, hc]
        have : lookupA ([(name, nw)]) y = none := by
          simp [lookupA, Ne.symm hyn]
        rw [this]
        cases hcy : lookupA ch y <;> simp
  · exact hframe q k hpre

theorem freshChild_group {root root' : ZNode} {p : List String}
    {name : String} {nw : ZNode} {a : List (String × AVal)}
    {ch : List (String × ZNode)}
    (hdn : descend root p = some (.group a ch)) (hc : lookupA ch name = none)
    (hdn' : descend root' p = some (.group a (ch ++ [(name, nw)])))
    (hframe : ∀ q, ¬ p <+: q → isGroupAt root' q = isGroupAt root q)
    (hnotg : (match nw with
      | ZNode.group _ _ => true
      | _ => false) = false)
    (hnw : ∀ y r, descend nw (y :: r) = none) :
    ∀ q, isGroupAt root' q = isGroupAt root q := by
  intro q
  by_cases hpre : p <+: q
  · obtain ⟨r, rfl⟩ := hpre
    cases r with
    | nil => simp [isGroupAt, hdn, hdn']
    | cons y r' =>
      by_cases hyn : y = name
      · subst hyn
        simp only [isGroupAt, descend_append, hdn, hdn', Option.some_bind,
          descend, lookupA_append, hc, lookupA]
        cases r' with
        | nil =>
          simp only [if_pos rfl, descend]
          cases nw <;> simp_all
        | cons z r'' => simp [descend, hnw]
      · simp only [isGroupAt, descend_append, hdn, hdn', Option.some_bind,
          descend, lookupA_append, hc]
        have : lookupA ([(name, nw)]) y = none := by
          simp [lookupA, Ne.symm hyn]
        rw [this]
        cases hcy : lookupA ch y <;> simp
  · exact hframe q hpre

theorem requireArrayP_attr {root root' : ZNode} {p : List String}
    {name dt : String} {init : ArrData}
    (h : requireArrayP root p name dt init = some root') :
    ∀ q k, attrAt root' q k = attrAt root q k := by
  rcases requireArrayP_cases h with rfl | ⟨a, ch, hdn, hc, hdn'⟩
  · intro q k; rfl
  · exact freshChild_attr hdn hc hdn' (fun q k => updateAt_frame_attr h q k)
      ⟨by simp [attrsOf], fun y r => by simp [descend]⟩

theorem requireArrayP_group {root root' : ZNode} {p : List String}
    {name dt : String} {init : ArrData}
    (h : requireArrayP root p name dt init = some root') :
    ∀ q, isGroupAt root' q = isGroupAt root q := by
  rcases requireArrayP_cases h with rfl | ⟨a, ch, hdn, hc, hdn'⟩
  · intro q; rfl
  · exact freshChild_group hdn hc hdn' (fun q => updateAt_frame_group h q)
      (by simp) (fun y r => by simp [descend])

theorem createArrayP_cases {root root' : ZNode} {p : List String}
    {name dt : String} {init : ArrData}
    (h : createArrayP root p name dt init = some root') :
    ∃ a ch, descend root p = some (.group a ch) ∧ lookupA ch name = none ∧
      descend root' p = some (.group a (ch ++ [(name, .array [] dt init)])) := by
  obtain ⟨n, n', hdn, hfn, hdn'⟩ := updateAt_descend h
  cases n with
  | array a dtn d => simp [createArrayP] at hfn
  | group a ch =>
    cases hc : lookupA ch name with
    | some c => simp [hc] at hfn
    | none =>
      simp only [hc, Option.some_inj] at hfn
      rw [← hfn] at hdn'
      exact ⟨a, ch, hdn, hc, hdn'⟩

theorem createArrayP_attr {root root' : ZNode} {p : List String}
    {name dt : String} {init : ArrData}
    (h : createArrayP root p name dt init = some root') :
    ∀ q k, attrAt root' q k = attrAt root q k := by
  obtain ⟨a, ch, hdn, hc, hdn'⟩ := createArrayP_cases h
  exact freshChild_attr hdn hc hdn' (fun q k => updateAt_frame_attr h q k)
    ⟨by simp [attrsOf], fun y r => by simp [descend]⟩

theorem createArrayP_group {root root' : ZNode} {p : List String}
    {name dt : String} {init : ArrData}
    (h : createArrayP root p name dt init = some root') :
    ∀ q, isGroupAt root' q = isGroupAt root q := by
  obtain ⟨a, ch, hdn, hc, hdn'⟩ := createArrayP_cases h
  exact freshChild_group hdn hc hdn' (fun q => updateAt_frame_group h q)
    (by simp) (fun y r => by simp [descend])

theorem insertChildP_cases {root root' : ZNode} {p : List String}
    {name : String} {nw : ZNode} (h : insertChildP root p name nw = some root') :
    ∃ a ch, descend root p = some (.group a ch) ∧ lookupA ch name = none ∧
      descend root' p = some (.group a (ch ++ [(name, nw)])) := by
  obtain ⟨n, n', hdn, hfn, hdn'⟩ := updateAt_descend h
  cases n with
  | array a dtn d => simp [insertChildP] at hfn
  | group a ch =>
    cases hc : lookupA ch name with
    | some c => simp [hc] at hfn
    | none =>
      simp only [hc, Option.some_inj] at hfn
      rw [← hfn] at hdn'
      exact ⟨a, ch, hdn, hc, hdn'⟩

theorem insertChildP_attr {root root' : ZNode} {p : List String}
    {name : String} {nw : ZNode} (h : insertChildP root p name nw = some root') :
    ∀ q k, ¬ (p ++ [name]) <+: q → attrAt root' q k = attrAt root q k := by
  obtain ⟨a, ch, hdn, hc, hdn'⟩ := insertChildP_cases h
  intro q k hq
  by_cases hpre : p <+: q
  · obtain ⟨r, rfl⟩ := hpre
    cases r with
    | nil => simp [attrAt, hdn, hdn', attrsOf]
    | cons y r' =>
      by_cases hyn : y = name
      · subst hyn
        exact absurd ⟨r', by simp⟩ hq
      · simp only [attrAt, descend_append, hdn, hdn', Option.some_bind,
          descend, lookupA_append, hc]
        have : lookupA ([(name, nw)]) y = none := by
          simp [lookupA, Ne.symm hyn]
        rw [this]
        cases hcy : lookupA ch y <;> simp
  · exact updateAt_frame_attr h q k hpre

theorem insertChildP_group {root root' : ZNode} {p : List String}
    {name : String} {nw : ZNode} (h : insertChildP root p name nw = some root') :
    ∀ q, ¬ (p ++ [name]) <+: q → isGroupAt root' q = isGroupAt root q := by
  obtain ⟨a, ch, hdn, hc, hdn'⟩ := insertChildP_cases h
  intro q hq
  by_cases hpre : p <+: q
  · obtain ⟨r, rfl⟩ := hpre
    cases r with
    | nil => simp [isGroupAt, hdn, hdn']
    | cons y r' =>
      by_cases hyn : y = name
      · subst hyn
        exact absurd ⟨r', by simp⟩ hq
      · simp only [isGroupAt, descend_append, hdn, hdn', Option.some_bind,
          descend, lookupA_append, hc]
        have : lookupA ([(name, nw)]) y = none := by
          simp [lookupA, Ne.symm hyn]
        rw [this]
        cases hcy : lookupA ch y <;> simp
  · exact updateAt_frame_group h q hpre

theorem setDataP_cases {root root' : ZNode} {p : List String} {d : ArrData}
    (h : setDataP root p d = some root') :
    ∃ a dt d0, descend root p = some (.array a dt d0) ∧
      descend root' p = some (.array a dt d) := by
  obtain ⟨n, n', hdn, hfn, hdn'⟩ := updateAt_descend h
  cases n with
  | group a ch => simp [setDataP] at hfn
  | array a dt d0 =>
    simp only [Option.some_inj] at hfn
    rw [← hfn] at hdn'
    exact ⟨a, dt, d0, hdn, hdn'⟩

theorem setDataP_attr {root root' : ZNode} {p : List String} {d : ArrData}
    (h : setDataP root p d = some root') :
    ∀ q k, attrAt root' q k = attrAt root q k := by
  obtain ⟨a, dt, d0, hdn, hdn'⟩ := setDataP_cases h
  intro q k
  by_cases hpre : p <+: q
  · obtain ⟨r, rfl⟩ := hpre
    cases r with
    | nil => simp [attrAt, hdn, hdn', attrsOf]
    | cons y r' => simp [attrAt, descend_append, hdn, hdn', descend]
  · exact updateAt_frame_attr h q k hpre

theorem setDataP_group {root root' : ZNode} {p : List String} {d : ArrData}
    (h : setDataP root p d = some root') :
    ∀ q, isGroupAt root' q = isGroupAt root q := by
  obtain ⟨a, dt, d0, hdn, hdn'⟩ := setDataP_cases h
  intro q
  by_cases hpre : p <+: q
  · obtain ⟨r, rfl⟩ := hpre
    cases r with
    | nil => simp [isGroupAt, hdn, hdn']
    | cons y r' => simp [isGroupAt, descend_append, hdn, hdn', descend]
  · exact updateAt_frame_group h q hpre

/-! ### Queue drain leaves attributes and structure alone -/

theorem drainFold_attr (sess : Session) (queue : List (List String × Nat)) :
    ∀ (r : ZNode) (q : List String) (k : String),
      attrAt (queue.foldl
        (fun r e => (setDataP r e.1 (.cells (sess.prod e.2))).getD r) r) q k
        = attrAt r q k := by
  induction queue with
  | nil => intro r q k; rfl
  | cons e rest ih =>
    intro r q k
    simp only [List.foldl_cons]
    rw [ih]
    cases hsd : setDataP r e.1 (.cells (sess.prod e.2)) with
    | none => simp
    | some r2 => simp [setDataP_attr hsd]

theorem drainFold_group (sess : Session) (queue : List (List String × Nat)) :
    ∀ (r : ZNode) (q : List String),
      isGroupAt (queue.foldl
        (fun r e => (setDataP r e.1 (.cells (sess.prod e.2))).getD r) r) q
        = isGroupAt r q := by
  induction queue with
  | nil => intro r q; rfl
  | cons e rest ih =>
    intro r q
    simp only [List.foldl_cons]
    rw [ih]
    cases hsd : setDataP r e.1 (.cells (sess.prod e.2)) with
    | none => simp
    | some r2 => simp [setDataP_group hsd]

theorem drainQueue_attr (sess : Session) (st : WState) (q : List String)
    (k : String) : attrAt (drainQueue sess st).root q k = attrAt st.root q k :=
  drainFold_attr sess st.queue st.root q k

theorem drainQueue_group (sess : Session) (st : WState) (q : List String) :
    isGroupAt (drainQueue sess st).root q = isGroupAt st.root q :=
  drainFold_group sess st.queue st.root q

theorem drainQueue_written (sess : Session) (st : WState) :
    (drainQueue sess st).written = st.written := rfl



/-! ### `existsAt` frame lemmas -/

theorem updateAt_frame_exi {f : ZNode → Option ZNode} {root root' : ZNode}
    {p : List String} (h : updateAt f root p = some root') :
    ∀ q, ¬ p <+: q → existsAt root' q = existsAt root q := by
  induction p generalizing root root' with
  | nil => intro q hq; exact absurd (List.nil_prefix) hq
  | cons x rest ih =>
    intro q hq
    cases root with
    | array a dt d => simp [updateAt] at h
    | group a ch =>
      simp only [updateAt] at h
      cases hc : lookupA ch x with
      | none => simp [hc] at h
      | some c =>
        simp only [hc, Option.map_eq_some'] at h
        obtain ⟨c', hc', rfl⟩ := h
        cases q with
        | nil => simp [existsAt, descend]
        | cons y qr =>
          by_cases hyx : y = x
          · subst hyx
            have hq' : ¬ rest <+: qr := by
              intro hpre
              exact hq (List.cons_prefix_cons.mpr ⟨rfl, hpre⟩)
            simp only [existsAt, descend, hc, lookupA_setA_self,
              Option.some_bind]
            exact ih hc' qr hq'
          · simp [existsAt, descend, lookupA_setA_other ch x y c' hyx]

theorem setAttrP_exi {root root' : ZNode} {p : List String} {k : String}
    {v : AVal} (h : setAttrP root p k v = some root') (q : List String) :
    existsAt root' q = existsAt root q := by
  by_cases hpre : p <+: q
  · obtain ⟨r, rfl⟩ := hpre
    obtain ⟨n, n', hdn, hfn, hdn'⟩ := updateAt_descend h
    simp only [Option.some_inj] at hfn
    cases r with
    | nil => simp [existsAt, hdn, hdn']
    | cons y r' =>
      simp [existsAt, descend_append, hdn, hdn', ← hfn, descend_withAttrs_cons]
  · exact updateAt_frame_exi h q hpre

theorem freshChild_exi {root root' : ZNode} {p : List String} {name : String}
    {nw : ZNode} {a : List (String × AVal)} {ch : List (String × ZNode)}
    (hdn : descend root p = some (.group a ch)) (hc : lookupA ch name = none)
    (hdn' : descend root' p = some (.group a (ch ++ [(name, nw)])))
    (hframe : ∀ q, ¬ p <+: q → existsAt root' q = existsAt root q) :
    ∀ q, ¬ (p ++ [name]) <+: q → existsAt root' q = existsAt root q := by
  intro q hq
  by_cases hpre : p <+: q
  · obtain ⟨r, rfl⟩ := hpre
    cases r with
    | nil => simp [existsAt, hdn, hdn']
    | cons y r' =>
      by_cases hyn : y = name
      · subst hyn
        exact absurd ⟨r', by simp⟩ hq
      · simp only [existsAt, descend_append, hdn, hdn', Option.some_bind,
          descend, lookupA_append, hc]
        have : lookupA ([(name, nw)]) y = none := by
          simp [lookupA, Ne.symm hyn]
        rw [this]
        cases hcy : lookupA ch y <;> simp
  · exact hframe q hpre

theorem requireGroupP_exi {root root' : ZNode} {p : List String}
    {name : String} (h : requireGroupP root p name = some root')
    (q : List String) (hq : q ≠ p ++ [name]) :
    existsAt root' q = existsAt root q := by
  rcases requireGroupP_cases h with ⟨rfl, _⟩ | ⟨a, ch, hdn, hc, hdn'⟩
  · rfl
  · by_cases hpq : (p ++ [name]) <+: q
    · obtain ⟨r, rfl⟩ := hpq
      cases r with
      | nil => exact absurd (by simp) hq
      | cons z r'' =>
        have h1 : existsAt root' (p ++ [name] ++ (z :: r'')) = false := by
          simp only [existsAt, List.append_assoc, descend_append, hdn',
            Option.some_bind, descend, lookupA_append, hc, lookupA]
          simp [descend, lookupA]
        have h2 : existsAt root (p ++ [name] ++ (z :: r'')) = false := by
          simp only [existsAt, List.append_assoc, descend_append, hdn,
            Option.some_bind, descend, hc]
          simp
        rw [h1, h2]
    · exact freshChild_exi hdn hc hdn'
        (fun q hx => updateAt_frame_exi h q hx) q hpq

theorem requireGroupP_exi_self {root root' : ZNode} {p : List String}
    {name : String} (h : requireGroupP root p name = some root') :
    existsAt root' (p ++ [name]) = true := by
  have := requireGroupP_group_self h
  unfold isGroupAt at this
  unfold existsAt
  cases hd : descend root' (p ++ [name]) with
  | none => rw [hd] at this; simp at this
  | some n => simp

theorem requireArrayP_exi {root root' : ZNode} {p : List String}
    {name dt : String} {init : ArrData}
    (h : requireArrayP root p name dt init = some root') :
    ∀ q, q ≠ p ++ [name] → existsAt root' q = existsAt root q := by
  rcases requireArrayP_cases h with rfl | ⟨a, ch, hdn, hc, hdn'⟩
  · intro q _; rfl
  · intro q hq
    by_cases hpq : (p ++ [name]) <+: q
    · obtain ⟨r, rfl⟩ := hpq
      cases r with
      | nil => exact absurd (by simp) hq
      | cons z r'' =>
        have h1 : existsAt root' (p ++ [name] ++ (z :: r'')) = false := by
          simp only [existsAt, List.append_assoc, descend_append, hdn',
            Option.some_bind, descend, lookupA_append, hc, lookupA]
          simp [descend]
        have h2 : existsAt root (p ++ [name] ++ (z :: r'')) = false := by
          simp only [existsAt, List.append_assoc, descend_append, hdn,
            Option.some_bind, descend, hc]
          simp
        rw [h1, h2]
    · exact freshChild_exi hdn hc hdn'
        (fun q hx => updateAt_frame_exi h q hx) q hpq

theorem createArrayP_exi {root root' : ZNode} {p : List String}
    {name dt : String} {init : ArrData}
    (h : createArrayP root p name dt init = some root') :
    ∀ q, q ≠ p ++ [name] → existsAt root' q = existsAt root q := by
  obtain ⟨a, ch, hdn, hc, hdn'⟩ := createArrayP_cases h
  intro q hq
  by_cases hpq : (p ++ [name]) <+: q
  · obtain ⟨r, rfl⟩ := hpq
    cases r with
    | nil => exact absurd (by simp) hq
    | cons z r'' =>
      have h1 : existsAt root' (p ++ [name] ++ (z :: r'')) = false := by
        simp only [existsAt, List.append_assoc, descend_append, hdn',
          Option.some_bind, descend, lookupA_append, hc, lookupA]
        simp [descend]
      have h2 : existsAt root (p ++ [name] ++ (z :: r'')) = false := by
        simp only [existsAt, List.append_assoc, descend_append, hdn,
          Option.some_bind, descend, hc]
        simp
      rw [h1, h2]
  · exact freshChild_exi hdn hc hdn'
      (fun q hx => updateAt_frame_exi h q hx) q hpq

theorem insertChildP_exi {root root' : ZNode} {p : List String}
    {name : String} {a0 : List (String × AVal)} {dt0 : String} {d0 : ArrData}
    (h : insertChildP root p name (.array a0 dt0 d0) = some root') :
    ∀ q, q ≠ p ++ [name] → existsAt root' q = existsAt root q := by
  obtain ⟨a, ch, hdn, hc, hdn'⟩ := insertChildP_cases h
  intro q hq
  by_cases hpq : (p ++ [name]) <+: q
  · obtain ⟨r, rfl⟩ := hpq
    cases r with
    | nil => exact absurd (by simp) hq
    | cons z r'' =>
      have h1 : existsAt root' (p ++ [name] ++ (z :: r'')) = false := by
        simp only [existsAt, List.append_assoc, descend_append, hdn',
          Option.some_bind, descend, lookupA_append, hc, lookupA]
        simp [descend]
      have h2 : existsAt root (p ++ [name] ++ (z :: r'')) = false := by
        simp only [existsAt, List.append_assoc, descend_append, hdn,
          Option.some_bind, descend, hc]
        simp
      rw [h1, h2]
  · exact freshChild_exi hdn hc hdn'
      (fun q hx => updateAt_frame_exi h q hx) q hpq

theorem setDataP_exi {root root' : ZNode} {p : List String} {d : ArrData}
    (h : setDataP root p d = some root') :
    ∀ q, existsAt root' q = existsAt root q := by
  obtain ⟨a, dt, d0, hdn, hdn'⟩ := setDataP_cases h
  intro q
  by_cases hpre : p <+: q
  · obtain ⟨r, rfl⟩ := hpre
    cases r with
    | nil => simp [existsAt, hdn, hdn']
    | cons y r' => simp [existsAt, descend_append, hdn, hdn', descend]
  · exact updateAt_frame_exi h q hpre

theorem drainFold_exi (sess : Session) (queue : List (List String × Nat)) :
    ∀ (r : ZNode) (q : List String),
      existsAt (queue.foldl
        (fun r e => (setDataP r e.1 (.cells (sess.prod e.2))).getD r) r) q
        = existsAt r q := by
  induction queue with
  | nil => intro r q; rfl
  | cons e rest ih =>
    intro r q
    simp only [List.foldl_cons]
    rw [ih]
    cases hsd : setDataP r e.1 (.cells (sess.prod e.2)) with
    | none => simp
    | some r2 => simp [setDataP_exi hsd]

theorem drainQueue_exi (sess : Session) (st : WState) (q : List String) :
    existsAt (drainQueue sess st).root q = existsAt st.root q :=
  drainFold_exi sess st.queue st.root q

/-! ### `write_attributes` lemmas -/

/-- Inversion of one `write_attributes` step. -/
theorem wa_cons_inv {env : BEnv} {sess : Session} {fuel : Nat}
    {es : Option String} {st st' : WState} {p : List String} {k : String}
    {a : BAttr} {rest : List (String × BAttr)}
    (h : writeAttributes env sess fuel es st p ((k, a) :: rest) = some st') :
    ∃ v root', attrAssignVal env sess fuel es a = some v ∧
      setAttrP st.root p k v = some root' ∧
      writeAttributes env sess fuel es { st with root := root' } p rest
        = some st' := by
  simp only [writeAttributes] at h
  split at h
  · exact absurd h (by simp)
  · next v hv =>
    split at h
    · exact absurd h (by simp)
    · next root' hr => exact ⟨v, root', hv, hr, h⟩

theorem wa_state {env : BEnv} {sess : Session} {fuel : Nat} {es : Option String}
    {st st' : WState} {p : List String} {attrs : List (String × BAttr)}
    (h : writeAttributes env sess fuel es st p attrs = some st') :
    st'.written = st.written ∧ st'.queue = st.queue ∧
      st'.consolidated = st.consolidated := by
  induction attrs generalizing st with
  | nil =>
    simp only [writeAttributes, Option.some_inj] at h
    simp [← h]
  | cons ka rest ih =>
    obtain ⟨k, a⟩ := ka
    obtain ⟨v, root', hv, hr, h'⟩ := wa_cons_inv h
    simpa using ih h'

theorem wa_frame_path {env : BEnv} {sess : Session} {fuel : Nat}
    {es : Option String} {st st' : WState} {p : List String}
    {attrs : List (String × BAttr)}
    (h : writeAttributes env sess fuel es st p attrs = some st') :
    ∀ q k, q ≠ p → attrAt st'.root q k = attrAt st.root q k := by
  induction attrs generalizing st with
  | nil =>
    simp only [writeAttributes, Option.some_inj] at h
    simp [← h]
  | cons ka rest ih =>
    obtain ⟨k0, a0⟩ := ka
    obtain ⟨v, root', hv, hr, h'⟩ := wa_cons_inv h
    intro q k hq
    rw [ih h' q k hq]
    exact setAttrP_attr_other hr q hq k

theorem wa_frame_key {env : BEnv} {sess : Session} {fuel : Nat}
    {es : Option String} {st st' : WState} {p : List String}
    {attrs : List (String × BAttr)}
    (h : writeAttributes env sess fuel es st p attrs = some st') :
    ∀ k, k ∉ attrs.map Prod.fst → attrAt st'.root p k = attrAt st.root p k := by
  induction attrs generalizing st with
  | nil =>
    simp only [writeAttributes, Option.some_inj] at h
    simp [← h]
  | cons ka rest ih =>
    obtain ⟨k0, a0⟩ := ka
    obtain ⟨v, root', hv, hr, h'⟩ := wa_cons_inv h
    intro k hk
    simp only [List.map_cons, List.mem_cons, not_or] at hk
    rw [ih h' k (by simpa using hk.2)]
    exact setAttrP_attr_self_other hr k hk.1

theorem wa_group {env : BEnv} {sess : Session} {fuel : Nat}
    {es : Option String} {st st' : WState} {p : List String}
    {attrs : List (String × BAttr)}
    (h : writeAttributes env sess fuel es st p attrs = some st') :
    ∀ q, isGroupAt st'.root q = isGroupAt st.root q := by
  induction attrs generalizing st with
  | nil =>
    simp only [writeAttributes, Option.some_inj] at h
    simp [← h]
  | cons ka rest ih =>
    obtain ⟨k0, a0⟩ := ka
    obtain ⟨v, root', hv, hr, h'⟩ := wa_cons_inv h
    intro q
    rw [ih h' q]
    exact setAttrP_group hr q

/-- After `write_attributes` with distinct keys, every attribute of the dict
is present at the node with its computed value. -/
theorem wa_post {env : BEnv} {sess : Session} {fuel : Nat}
    {es : Option String} {st st' : WState} {p : List String}
    {attrs : List (String × BAttr)}
    (h : writeAttributes env sess fuel es st p attrs = some st')
    (hnd : (attrs.map Prod.fst).Nodup) :
    ∀ k a, (k, a) ∈ attrs →
      ∃ v, attrAssignVal env sess fuel es a = some v ∧
        attrAt st'.root p k = some v := by
  induction attrs generalizing st with
  | nil => intro k a hka; simp at hka
  | cons ka rest ih =>
    obtain ⟨k0, a0⟩ := ka
    obtain ⟨v, root', hv, hr, h'⟩ := wa_cons_inv h
    simp only [List.map_cons, List.nodup_cons] at hnd
    intro k a hka
    rcases List.mem_cons.mp hka with heq | hmem
    · obtain ⟨rfl, rfl⟩ := Prod.mk.injEq .. ▸ heq
      refine ⟨v, hv, ?_⟩
      have hfk : attrAt st'.root p k = attrAt ({ st with root := root' } :
          WState).root p k := by
        refine wa_frame_key h' k ?_
        simpa using hnd.1
      rw [hfk]
      exact setAttrP_attr_self hr
    · exact ih h' hnd.2 k a hmem

/-- Re-running `write_attributes` when every attribute already holds its
computed value leaves the state unchanged. -/
theorem wa_noop {env : BEnv} {sess : Session} {fuel : Nat}
    {es : Option String} {st : WState} {p : List String}
    {attrs : List (String × BAttr)}
    (h : ∀ k a, (k, a) ∈ attrs →
      ∃ v, attrAssignVal env sess fuel es a = some v ∧
        attrAt st.root p k = some v) :
    writeAttributes env sess fuel es st p attrs = some st := by
  induction attrs with
  | nil => simp [writeAttributes]
  | cons ka rest ih =>
    obtain ⟨k0, a0⟩ := ka
    obtain ⟨v, hv, hattr⟩ := h k0 a0 (List.mem_cons_self _ _)
    have hset : setAttrP st.root p k0 v = some st.root :=
      setAttrP_of_already hattr
    have ht : writeAttributes env sess fuel es st p rest = some st :=
      ih (fun k a hka => h k a (List.mem_cons_of_mem _ hka))
    simp only [writeAttributes, hv, hset]
    exact ht

/-! ### `setWritten` and `write_link` lemmas -/

theorem getWritten_setWritten (st : WState) (bid i : Nat) :
    getWritten (setWritten st bid) i = (getWritten st i || decide (i = bid)) := by
  unfold getWritten setWritten
  by_cases hc : st.written.contains bid = true
  · rw [if_pos hc]
    by_cases hib : i = bid
    · subst hib
      simp_all
    · simp [hib]
  · rw [if_neg hc]
    by_cases hib : i = bid
    · subst hib
      simp
    · simp [hib]

theorem getWritten_setWritten_self (st : WState) (bid : Nat) :
    getWritten (setWritten st bid) bid = true := by
  simp [getWritten_setWritten]

theorem setWritten_root (st : WState) (bid : Nat) :
    (setWritten st bid).root = st.root := by
  unfold setWritten
  split <;> rfl

theorem setWritten_queue (st : WState) (bid : Nat) :
    (setWritten st bid).queue = st.queue := by
  unfold setWritten
  split <;> rfl

theorem setWritten_consolidated (st : WState) (bid : Nat) :
    (setWritten st bid).consolidated = st.consolidated := by
  unfold setWritten
  split <;> rfl

theorem setWritten_of_written {st : WState} {bid : Nat}
    (h : getWritten st bid = true) : setWritten st bid = st := by
  unfold getWritten at h
  unfold setWritten
  rw [if_pos h]

theorem addLink_state {st st' : WState} {pp : List String} {src pth nm : String}
    (h : addLink st pp src pth nm = some st') :
    st'.written = st.written ∧ st'.queue = st.queue ∧
      st'.consolidated = st.consolidated ∧
      (∀ q k, ¬ (q = pp ∧ k = "zarr_link") →
        attrAt st'.root q k = attrAt st.root q k) ∧
      (∀ q, existsAt st'.root q = existsAt st.root q) := by
  simp only [addLink] at h
  split at h
  · exact absurd h (by simp)
  · next root' hr =>
    obtain rfl := Option.some.inj h
    refine ⟨rfl, rfl, rfl, ?_, fun q => setAttrP_exi hr q⟩
    intro q k hqk
    by_cases hq : q = pp
    · subst hq
      have hk : k ≠ "zarr_link" := fun hk => hqk ⟨rfl, hk⟩
      exact setAttrP_attr_self_other hr k hk
    · exact setAttrP_attr_other hr q hq k

/-- `write_link` on an already-written builder is the identity. -/
theorem writeLink_noop {env : BEnv} {sess : Session} {fuel : Nat} {st : WState}
    {pp : List String} {bid : Nat} (h : getWritten st bid = true) :
    writeLink env sess fuel st pp bid = some st := by
  simp [writeLink, h]

theorem writeLinkFinish_state {st st' : WState} {pp : List String}
    {src pth nm : String} {bid : Nat}
    (h : (match addLink st pp src pth nm with
          | none => none
          | some st1 => some (setWritten st1 bid)) = some st') :
    getWritten st' bid = true ∧
      (∀ i, getWritten st i = true → getWritten st' i = true) ∧
      (∀ i, getWritten st' i = true → getWritten st i = true ∨ i = bid) ∧
      st'.queue = st.queue ∧ st'.consolidated = st.consolidated ∧
      (∀ q k, ¬ (q = pp ∧ k = "zarr_link") →
        attrAt st'.root q k = attrAt st.root q k) ∧
      (∀ q, existsAt st'.root q = existsAt st.root q) := by
  split at h
  · exact absurd h (by simp)
  · next st1 hst1 =>
    obtain rfl := Option.some.inj h
    obtain ⟨hw1, hq1, hc1, hattr1, hgrp1⟩ := addLink_state hst1
    refine ⟨getWritten_setWritten_self _ _, ?_, ?_, ?_, ?_, ?_, ?_⟩
    · intro i hi
      rw [getWritten_setWritten]
      refine Bool.or_eq_true_iff.mpr (Or.inl ?_)
      unfold getWritten at hi ⊢
      rw [hw1]
      exact hi
    · intro i hi
      rw [getWritten_setWritten] at hi
      rcases Bool.or_eq_true_iff.mp hi with hi | hi
      · left
        unfold getWritten at hi ⊢
        rw [hw1] at hi
        exact hi
      · right
        exact of_decide_eq_true hi
    · rw [setWritten_queue, hq1]
    · rw [setWritten_consolidated, hc1]
    · intro q k hqk
      rw [setWritten_root]
      exact hattr1 q k hqk
    · intro q
      rw [setWritten_root]
      exact hgrp1 q

theorem writeLink_state {env : BEnv} {sess : Session} {fuel : Nat}
    {st st' : WState} {pp : List String} {bid : Nat}
    (h : writeLink env sess fuel st pp bid = some st') :
    getWritten st' bid = true ∧
      (∀ i, getWritten st i = true → getWritten st' i = true) ∧
      (∀ i, getWritten st' i = true → getWritten st i = true ∨ i = bid) ∧
      st'.queue = st.queue ∧ st'.consolidated = st.consolidated ∧
      (∀ q k, ¬ (q = pp ∧ k = "zarr_link") →
        attrAt st'.root q k = attrAt st.root q k) ∧
      (∀ q, existsAt st'.root q = existsAt st.root q) := by
  by_cases hw : getWritten st bid = true
  · rw [writeLink_noop hw] at h
    obtain rfl := Option.some.inj h
    exact ⟨hw, fun i hi => hi, fun i hi => Or.inl hi, rfl, rfl,
      fun q k _ => rfl, fun q => rfl⟩
  · unfold writeLink at h
    rw [if_neg hw] at h
    split at h
    · exact absurd h (by simp)
    · next b hb =>
      split at h
      case h_2 => exact absurd h (by simp)
      case h_1 tbid hkind =>
        split at h
        · exact absurd h (by simp)
        · next tb htb =>
          split at h
          · exact absurd h (by simp)
          · next zr0 hzr =>
            split at h <;> exact writeLinkFinish_state h

/-! ## Claim C7: dtype inference from data (`get_type`) -/

/-- C7: when a dataset's dtype is unset, `get_type` infers from the data:
strings yield the text type, bytes the bytes type, scalars their native
Python type, non-empty sequences recurse on their first element, and the
empty sequence raises `ValueError` because no type is determinable. -/
theorem c7_get_type_inference :
    (∀ v, getType (.s v) = .ok (some .strT)) ∧
    (∀ v, getType (.bs v) = .ok (some .bytesT)) ∧
    (∀ n, getType (.i n) = .ok (some .pyInt)) ∧
    (∀ bv, getType (.b bv) = .ok (some .pyBool)) ∧
    (∀ x rest, getType (.seq (x :: rest)) = getType x) ∧
    getType (.seq []) = .error "cannot determine type for empty data" :=
  ⟨fun _ => rfl, fun _ => rfl, fun _ => rfl, fun _ => rfl,
   fun _ _ => rfl, rfl⟩

/-! ## Claim C5: `export_source` forces `source = "."` -/

/-- C5: every reference record `__get_ref` creates while `export_source` is
supplied (non-`None`) carries `source = "."`, regardless of the target
builder's origin file. -/
theorem c5_export_source_dot :
    ∀ (env : BEnv) (sess : Session) (fuel : Nat) (tgt : RefTarget)
      (s : String) (r : ZarrRef),
      getRef env sess fuel tgt (some s) = some r → r.source = some "." := by
  intro env sess fuel tgt s r h
  unfold getRef at h
  dsimp only [] at h
  repeat' split at h
  all_goals
    first
      | exact Option.noConfusion h
      | (obtain rfl := Option.some.inj h; rfl)

/-- Witness for C5 at a concrete input. -/
theorem c5_export_source_dot_witness :
    (⟨some ".", some "/d", some "oid1", some "rootid"⟩ : ZarrRef).source
      = some "." :=
  c5_export_source_dot wEnv wSess 3 (.builder 1) "exp"
    ⟨some ".", some "/d", some "oid1", some "rootid"⟩ rfl

/-! ## Claim C10: `write_dataset` on a written builder returns `None` -/

/-- C10: for every `DatasetBuilder` already marked written in the session,
`write_dataset` returns `None` and leaves the entire state (hence every
store node) unchanged. -/
theorem c10_written_dataset_write_is_noop :
    ∀ (env : BEnv) (sess : Session) (fuel : Nat) (st : WState)
      (pp : List String) (bid : Nat) (ld ex : Bool) (es : Option String)
      (fd : Option BData),
      getWritten st bid = true →
      writeDataset env sess fuel st pp bid ld ex es fd = some (none, st) := by
  intro env sess fuel st pp bid ld ex es fd h
  unfold writeDataset
  rw [if_pos h]

/-- Witness for C10 at a concrete input. -/
theorem c10_written_dataset_write_is_noop_witness :
    getWritten wStW 9 = true ∧
      writeDataset wEnv wSess 3 wStW [] 9 true true none none
        = some (none, wStW) :=
  ⟨rfl, c10_written_dataset_write_is_noop wEnv wSess 3 wStW [] 9 true true
    none none rfl⟩

/-! ## Claim C4 (corrected): reference attributes carry the tag "object" -/

/-- Counterexample to C4 as stated: writing a reference-valued attribute
stores `{'zarr_dtype': 'object', 'value': ref}` — the tag paired with the
type-tag key is `"object"`, not `"reference"` (see `write_attributes`,
`type_str = 'object'`). -/
theorem c4_counterexample :
    ((writeAttributes wEnv wSess 3 none wSt0 [] [("a", BAttr.rf 1)]).map
      (fun st => attrAt st.root [] "a"))
      = some (some (AVal.refObj "object" wRef1)) ∧
    ((writeAttributes wEnv wSess 3 none wSt0 [] [("a", BAttr.rf 1)]).map
      (fun st => attrAt st.root [] "a"))
      ≠ some (some (AVal.refObj "reference" wRef1)) := by
  constructor
  · rfl
  · decide

/-- C4 as amended: for every attribute whose value is a reference, a
successful `write_attributes` stores, under the attribute's key, the dict
pairing the type-tag key with the tag string `"object"` and a `value` key
holding the reference record of the target. -/
theorem c4_reference_attr_stored_with_object_tag :
    ∀ (env : BEnv) (sess : Session) (fuel : Nat) (es : Option String)
      (st st' : WState) (p : List String) (attrs : List (String × BAttr))
      (k : String) (bid : Nat),
      (attrs.map Prod.fst).Nodup →
      writeAttributes env sess fuel es st p attrs = some st' →
      (k, BAttr.rf bid) ∈ attrs →
      ∃ r, getRef env sess fuel (.builder bid) es = some r ∧
        attrAt st'.root p k = some (.refObj "object" r) := by
  intro env sess fuel es st st' p attrs k bid hnd h hmem
  obtain ⟨v, hv, hattr⟩ := wa_post h hnd k _ hmem
  simp only [attrAssignVal, Option.map_eq_some'] at hv
  obtain ⟨r, hr, rfl⟩ := hv
  exact ⟨r, hr, hattr⟩

/-- Witness for the amended C4 at a concrete input. -/
theorem c4_reference_attr_stored_with_object_tag_witness :
    attrAt wStC4.root [] "a" = some (AVal.refObj "object" wRef1) := by
  obtain ⟨r, hr, ha⟩ := c4_reference_attr_stored_with_object_tag wEnv wSess 3
    none wSt0 wStC4 [] [("a", BAttr.rf 1)] "a" 1 (by simp) rfl (by simp)
  have h2 : getRef wEnv wSess 3 (.builder 1) none = some wRef1 := rfl
  obtain rfl := Option.some.inj (hr.symm.trans h2)
  exact ha

/-! ## Claim C6: `resolve_ref` path descent -/

/-- C6: for every reference record with a non-empty `path`, `resolve_ref`
descends to that path in the opened store, failing with the bad-link error
when the path does not exist, and on success returns the pair of the path's
basename and the resolved node; when the path is absent the root sentinel
name is returned with the store root. -/
theorem c6_resolve_ref_descends :
    (∀ (sess : Session) (files : Files) (r : ZarrRef) (p : String)
        (root : ZNode), r.path = some p → p ≠ "" →
        files (sourceFileOf sess r) = some root →
        ((∀ node, descend root (splitPath p) = some node →
            resolveRef sess files r =
              .ok (basename p, sourceFileOf sess r, splitPath p) ∧
            nodeOfKey files (sourceFileOf sess r, splitPath p) = some node) ∧
         (descend root (splitPath p) = none →
            resolveRef sess files r =
              .error (.badLink p (sourceFileOf sess r))))) ∧
    (∀ (sess : Session) (files : Files) (r : ZarrRef) (root : ZNode),
        r.path = none →
        files (sourceFileOf sess r) = some root →
        resolveRef sess files r = .ok (rootName, sourceFileOf sess r, []) ∧
        nodeOfKey files (sourceFileOf sess r, []) = some root) := by
  constructor
  · intro sess files r p root hp hne hf
    constructor
    · intro node hd
      constructor
      · simp only [resolveRef, hp, hf, hd]
        simp [hne]
      · simp [nodeOfKey, hf, hd]
    · intro hd
      simp only [resolveRef, hp, hf, hd]
  · intro sess files r root hp hf
    constructor
    · simp only [resolveRef, hp, hf]
    · simp [nodeOfKey, hf, descend]

/-- Witness for C6 at a concrete input: resolving `/a` inside `wStore`. -/
theorem c6_resolve_ref_descends_witness :
    resolveRef wSessF wSessF.files wRefC6 = .ok ("a", "FILE", ["a"]) ∧
      nodeOfKey wSessF.files ("FILE", ["a"]) = some (ZNode.group [] []) :=
  ((c6_resolve_ref_descends.1 wSessF wSessF.files wRefC6 "/a" wStore rfl
      (by decide) rfl).1 (ZNode.group [] []) rfl)

/-! ### `write_dataset` state lemmas -/

theorem ne_of_not_pref {p q : List String} (h : ¬ p <+: q) : q ≠ p := by
  intro he
  subst he
  exact h (List.prefix_refl _)

theorem wa_exi {env : BEnv} {sess : Session} {fuel : Nat}
    {es : Option String} {st st' : WState} {p : List String}
    {attrs : List (String × BAttr)}
    (h : writeAttributes env sess fuel es st p attrs = some st') :
    ∀ q, existsAt st'.root q = existsAt st.root q := by
  induction attrs generalizing st with
  | nil =>
    simp only [writeAttributes, Option.some_inj] at h
    simp [← h]
  | cons ka rest ih =>
    obtain ⟨k0, a0⟩ := ka
    obtain ⟨v, root', hv, hr, h'⟩ := wa_cons_inv h
    intro q
    rw [ih h' q]
    exact setAttrP_exi hr q

/-- Frame of the require/attr/data chain used by several `write_dataset`
branches. -/
theorem chainRAD_frame {r0 r1 r2 r3 : ZNode} {pp : List String}
    {name dt : String} {init : ArrData} {k1 : String} {v1 : AVal}
    {d : ArrData}
    (h1 : requireArrayP r0 pp name dt init = some r1)
    (h2 : setAttrP r1 (pp ++ [name]) k1 v1 = some r2)
    (h3 : setDataP r2 (pp ++ [name]) d = some r3) :
    (∀ q k, q ≠ pp ++ [name] → attrAt r3 q k = attrAt r0 q k) ∧
    (∀ q, q ≠ pp ++ [name] → existsAt r3 q = existsAt r0 q) := by
  constructor
  · intro q k hq
    rw [setDataP_attr h3, setAttrP_attr_other h2 q hq, requireArrayP_attr h1]
  · intro q hq
    rw [setDataP_exi h3, setAttrP_exi h2, requireArrayP_exi h1 q hq]

theorem listFill_state {st st' : WState} {pp dp : List String}
    {name : String} {data : BData} {dtype : BDtype}
    (h : listFill st pp name data dtype = some (dp, st')) :
    dp = pp ++ [name] ∧ st'.written = st.written ∧ st'.queue = st.queue ∧
      st'.consolidated = st.consolidated ∧
      (∀ q k, q ≠ pp ++ [name] → attrAt st'.root q k = attrAt st.root q k) ∧
      (∀ q, q ≠ pp ++ [name] → existsAt st'.root q = existsAt st.root q) := by
  unfold listFill at h
  split at h
  · exact absurd h (by simp)
  · split at h
    · exact absurd h (by simp)
    · next rows hrows =>
      split at h
      · exact absurd h (by simp)
      · next root1 h1 =>
        split at h
        · exact absurd h (by simp)
        · next root2 h2 =>
          split at h
          · exact absurd h (by simp)
          · next root3 h3 =>
            simp only [Option.some_inj, Prod.mk.injEq] at h
            obtain ⟨rfl, rfl⟩ := h
            obtain ⟨ha, he⟩ := chainRAD_frame h1 h2 h3
            exact ⟨rfl, rfl, rfl, rfl, ha, he⟩

theorem scalarFill_state {st st' : WState} {pp dp : List String}
    {name : String} {data : BData} {dtype : BDtype}
    (h : scalarFill st pp name data dtype = some (dp, st')) :
    dp = pp ++ [name] ∧ st'.written = st.written ∧ st'.queue = st.queue ∧
      st'.consolidated = st.consolidated ∧
      (∀ q k, q ≠ pp ++ [name] → attrAt st'.root q k = attrAt st.root q k) ∧
      (∀ q, q ≠ pp ++ [name] → existsAt st'.root q = existsAt st.root q) := by
  unfold scalarFill at h
  split at h
  · exact absurd h (by simp)
  · split at h
    · exact absurd h (by simp)
    · next cell hcell =>
      split at h
      · exact absurd h (by simp)
      · next root1 h1 =>
        split at h
        · exact absurd h (by simp)
        · next root2 h2 =>
          split at h
          · exact absurd h (by simp)
          · next root3 h3 =>
            simp only [Option.some_inj, Prod.mk.injEq] at h
            obtain ⟨rfl, rfl⟩ := h
            refine ⟨rfl, rfl, rfl, rfl, ?_, ?_⟩
            · intro q k hq
              rw [setAttrP_attr_other h3 q hq, setDataP_attr h2,
                requireArrayP_attr h1]
            · intro q hq
              rw [setAttrP_exi h3, setDataP_exi h2,
                requireArrayP_exi h1 q hq]

theorem wdd_state {env : BEnv} {sess : Session} {fuel : Nat} {st : WState}
    {pp : List String} {name : String} {data : BData} {dtype : BDtype}
    {linkData : Bool} {es : Option String} {bid : Nat}
    {dset : Option (List String)} {linked : Bool} {st1 : WState}
    (h : writeDatasetDispatch env sess fuel st pp name data dtype linkData es
      bid = some (dset, linked, st1)) :
    (∀ i, getWritten st i = true → getWritten st1 i = true) ∧
    (∀ i, getWritten st1 i = true → getWritten st i = true ∨ i = bid) ∧
    (∀ q k, ¬ ((pp ++ [name]) <+: q) → ¬ (q = pp ∧ k = "zarr_link") →
      attrAt st1.root q k = attrAt st.root q k) ∧
    (∀ q, q ≠ pp ++ [name] → ¬ ((pp ++ [name]) <+: q) →
      existsAt st1.root q = existsAt st.root q) ∧
    (linked = false → dset = some (pp ++ [name])) ∧
    st1.consolidated = st.consolidated := by
  unfold writeDatasetDispatch at h
  split at h
  case h_1 f ap =>
    split at h
    · -- link to an existing array: only the link list changes
      split at h
      · exact absurd h (by simp)
      · next st2 hal =>
        simp only [Option.some_inj, Prod.mk.injEq] at h
        obtain ⟨rfl, rfl, rfl⟩ := h
        obtain ⟨hw, hq, hc, hattr, hexi⟩ := addLink_state hal
        refine ⟨?_, ?_, ?_, ?_, by simp, hc⟩
        · intro i hi
          unfold getWritten at hi ⊢
          rw [hw]
          exact hi
        · intro i hi
          left
          unfold getWritten at hi ⊢
          rw [hw] at hi
          exact hi
        · intro q k _ hqk
          exact hattr q k hqk
        · intro q _ _
          exact hexi q
    · -- copy of an existing array
      split at h
      · exact absurd h (by simp)
      · next hnode => exact absurd h (by simp)
      · next a dt d hnode =>
        split at h
        · exact absurd h (by simp)
        · next root' hins =>
          simp only [Option.some_inj, Prod.mk.injEq] at h
          obtain ⟨rfl, rfl, rfl⟩ := h
          refine ⟨fun i hi => hi, fun i hi => Or.inl hi, ?_, ?_, by simp, rfl⟩
          · intro q k hq _
            exact insertChildP_attr hins q k hq
          · intro q hq _
            exact insertChildP_exi hins q hq
  case h_2 fs =>
    split at h
    case h_1 rs =>
      split at h
      · exact absurd h (by simp)
      · next typeStr refs hinfo =>
        cases refs with
        | cons r0 rtl =>
          -- compound with reference fields
          rw [if_pos (by simp)] at h
          dsimp only [] at h
          rw [setWritten_root st bid] at h
          split at h
          · exact absurd h (by simp)
          · next newRows hrows =>
            split at h
            · exact absurd h (by simp)
            · next root1 h1 =>
              split at h
              · exact absurd h (by simp)
              · next root2 h2 =>
                split at h
                · exact absurd h (by simp)
                · next root3 h3 =>
                  simp only [Option.some_inj, Prod.mk.injEq] at h
                  obtain ⟨rfl, rfl, rfl⟩ := h
                  obtain ⟨ha, he⟩ := chainRAD_frame h1 h2 h3
                  refine ⟨?_, ?_, ?_, ?_, by simp, ?_⟩
                  · intro i hi
                    have h' : getWritten (setWritten st bid) i = true := by
                      rw [getWritten_setWritten, hi]
                      rfl
                    exact h'
                  · intro i hi
                    have h' : getWritten (setWritten st bid) i = true := hi
                    rw [getWritten_setWritten] at h'
                    simp only [Bool.or_eq_true, decide_eq_true_eq] at h'
                    rcases h' with h' | h'
                    · exact Or.inl h'
                    · exact Or.inr h' 
                  · intro q k hq _
                    exact ha q k (ne_of_not_pref hq)
                  · intro q hq _
                    exact he q hq
                  · exact setWritten_consolidated st bid
        | nil =>
          -- compound without reference fields: generic list fill
          rw [if_neg (by simp)] at h
          split at h
          · exact absurd h (by simp)
          · next dp st2 hlf =>
            simp only [Option.some_inj, Prod.mk.injEq] at h
            obtain ⟨rfl, rfl, rfl⟩ := h
            obtain ⟨rfl, hw, hq, hc, ha, he⟩ := listFill_state hlf
            refine ⟨?_, ?_, ?_, ?_, by simp, hc⟩
            · intro i hi
              unfold getWritten at hi ⊢
              rw [hw]
              exact hi
            · intro i hi
              left
              unfold getWritten at hi ⊢
              rw [hw] at hi
              exact hi
            · intro q k hq' _
              exact ha q k (ne_of_not_pref hq')
            · intro q hq' _
              exact he q hq'
    case h_2 hne => exact absurd h (by simp)
  case h_3 hv1 hv2 =>
    split at h
    · -- dtype is a reference type
      split at h
      · exact absurd h (by simp)
      · next rows hrows =>
        split at h
        · exact absurd h (by simp)
        · next root1 h1 =>
          dsimp only [] at h
          have hsr : (setWritten { st with root := root1 } bid).root = root1 :=
            setWritten_root _ _
          rw [hsr] at h
          split at h
          · exact absurd h (by simp)
          · next root2 h2 =>
            split at h
            · exact absurd h (by simp)
            · next root3 h3 =>
              simp only [Option.some_inj, Prod.mk.injEq] at h
              obtain ⟨rfl, rfl, rfl⟩ := h
              refine ⟨?_, ?_, ?_, ?_, by simp, ?_⟩
              · intro i hi
                have hi2 : getWritten { st with root := root1 } i = true := hi
                have h' : getWritten (setWritten { st with root := root1 } bid)
                    i = true := by
                  rw [getWritten_setWritten, hi2]
                  rfl
                exact h'
              · intro i hi
                have h' : getWritten (setWritten { st with root := root1 } bid)
                    i = true := hi
                rw [getWritten_setWritten] at h'
                simp only [Bool.or_eq_true, decide_eq_true_eq] at h'
                rcases h' with h' | h'
                · exact Or.inl h'
                · exact Or.inr h' 
              · intro q k hq _
                have hne := ne_of_not_pref hq
                have e1 : attrAt root3 q k = attrAt st.root q k := by
                  rw [setDataP_attr h3, setAttrP_attr_other h2 q hne,
                    requireArrayP_attr h1]
                exact e1
              · intro q hq _
                have e1 : existsAt root3 q = existsAt st.root q := by
                  rw [setDataP_exi h3, setAttrP_exi h2,
                    requireArrayP_exi h1 q hq]
                exact e1
              · exact setWritten_consolidated { st with root := root1 } bid
    · -- generic scalar / iterator / sequence dispatch
      split at h
      case h_1 v =>
        cases hsf : scalarFill st pp name (.sv (.s v)) dtype with
        | none => rw [hsf] at h; exact absurd h (by simp)
        | some r =>
          rw [hsf] at h
          obtain ⟨dp, st2⟩ := r
          simp only [Option.map_some', Option.some_inj, Prod.mk.injEq] at h
          obtain ⟨rfl, rfl, rfl⟩ := h
          obtain ⟨rfl, hw, hq, hc, ha, he⟩ := scalarFill_state hsf
          refine ⟨?_, ?_, ?_, ?_, by simp, hc⟩
          · intro i hi
            unfold getWritten at hi ⊢
            rw [hw]
            exact hi
          · intro i hi
            left
            unfold getWritten at hi ⊢
            rw [hw] at hi
            exact hi
          · intro q k hq' _
            exact ha q k (ne_of_not_pref hq')
          · intro q hq' _
            exact he q hq'
      case h_2 v =>
        cases hsf : scalarFill st pp name (.sv (.bs v)) dtype with
        | none => rw [hsf] at h; exact absurd h (by simp)
        | some r =>
          rw [hsf] at h
          obtain ⟨dp, st2⟩ := r
          simp only [Option.map_some', Option.some_inj, Prod.mk.injEq] at h
          obtain ⟨rfl, rfl, rfl⟩ := h
          obtain ⟨rfl, hw, hq, hc, ha, he⟩ := scalarFill_state hsf
          refine ⟨?_, ?_, ?_, ?_, by simp, hc⟩
          · intro i hi
            unfold getWritten at hi ⊢
            rw [hw]
            exact hi
          · intro i hi
            left
            unfold getWritten at hi ⊢
            rw [hw] at hi
            exact hi
          · intro q k hq' _
            exact ha q k (ne_of_not_pref hq')
          · intro q hq' _
            exact he q hq'
      case h_3 pid shape dt =>
        split at h
        · exact absurd h (by simp)
        · next root1 h1 =>
          split at h
          · exact absurd h (by simp)
          · next root2 h2 =>
            simp only [Option.some_inj, Prod.mk.injEq] at h
            obtain ⟨rfl, rfl, rfl⟩ := h
            refine ⟨fun i hi => hi, fun i hi => Or.inl hi, ?_, ?_,
              by simp, rfl⟩
            · intro q k hq _
              have hne := ne_of_not_pref hq
              rw [setAttrP_attr_other h2 q hne, createArrayP_attr h1]
            · intro q hq _
              rw [setAttrP_exi h2, createArrayP_exi h1 q hq]
      case h_4 xs =>
        cases hlf : listFill st pp name (.lst xs) dtype with
        | none => rw [hlf] at h; exact absurd h (by simp)
        | some r =>
          rw [hlf] at h
          obtain ⟨dp, st2⟩ := r
          simp only [Option.map_some', Option.some_inj, Prod.mk.injEq] at h
          obtain ⟨rfl, rfl, rfl⟩ := h
          obtain ⟨rfl, hw, hq, hc, ha, he⟩ := listFill_state hlf
          refine ⟨?_, ?_, ?_, ?_, by simp, hc⟩
          · intro i hi
            unfold getWritten at hi ⊢
            rw [hw]
            exact hi
          · intro i hi
            left
            unfold getWritten at hi ⊢
            rw [hw] at hi
            exact hi
          · intro q k hq' _
            exact ha q k (ne_of_not_pref hq')
          · intro q hq' _
            exact he q hq'
      case h_5 rs =>
        cases hlf : listFill st pp name (.rows rs) dtype with
        | none => rw [hlf] at h; exact absurd h (by simp)
        | some r =>
          rw [hlf] at h
          obtain ⟨dp, st2⟩ := r
          simp only [Option.map_some', Option.some_inj, Prod.mk.injEq] at h
          obtain ⟨rfl, rfl, rfl⟩ := h
          obtain ⟨rfl, hw, hq, hc, ha, he⟩ := listFill_state hlf
          refine ⟨?_, ?_, ?_, ?_, by simp, hc⟩
          · intro i hi
            unfold getWritten at hi ⊢
            rw [hw]
            exact hi
          · intro i hi
            left
            unfold getWritten at hi ⊢
            rw [hw] at hi
            exact hi
          · intro q k hq' _
            exact ha q k (ne_of_not_pref hq')
          · intro q hq' _
            exact he q hq'
      case h_6 x hx1 hx2 =>
        cases hsf : scalarFill st pp name (.sv x) dtype with
        | none => rw [hsf] at h; exact absurd h (by simp)
        | some r =>
          rw [hsf] at h
          obtain ⟨dp, st2⟩ := r
          simp only [Option.map_some', Option.some_inj, Prod.mk.injEq] at h
          obtain ⟨rfl, rfl, rfl⟩ := h
          obtain ⟨rfl, hw, hq, hc, ha, he⟩ := scalarFill_state hsf
          refine ⟨?_, ?_, ?_, ?_, by simp, hc⟩
          · intro i hi
            unfold getWritten at hi ⊢
            rw [hw]
            exact hi
          · intro i hi
            left
            unfold getWritten at hi ⊢
            rw [hw] at hi
            exact hi
          · intro q k hq' _
            exact ha q k (ne_of_not_pref hq')
          · intro q hq' _
            exact he q hq'
      case h_7 => exact absurd h (by simp)


theorem drainQueue_consolidated (sess : Session) (st : WState) :
    (drainQueue sess st).consolidated = st.consolidated := rfl

theorem condDrain_written (sess : Session) (c : Bool) (s : WState) :
    (if c then drainQueue sess s else s).written = s.written := by
  cases c <;> simp [drainQueue_written]

theorem condDrain_attr (sess : Session) (c : Bool) (s : WState)
    (q : List String) (k : String) :
    attrAt (if c then drainQueue sess s else s).root q k =
      attrAt s.root q k := by
  cases c <;> simp [drainQueue_attr]

theorem condDrain_exi (sess : Session) (c : Bool) (s : WState)
    (q : List String) :
    existsAt (if c then drainQueue sess s else s).root q =
      existsAt s.root q := by
  cases c <;> simp [drainQueue_exi]

theorem condDrain_consolidated (sess : Session) (c : Bool) (s : WState) :
    (if c then drainQueue sess s else s).consolidated = s.consolidated := by
  cases c <;> simp [drainQueue_consolidated]

/-- State frame of a full `write_dataset` call: the builder is the only one
that can newly become written, and the store is untouched outside the
dataset's own subtree (and the parent's `zarr_link` attribute). -/
theorem wd_state {env : BEnv} {sess : Session} {fuel : Nat} {st : WState}
    {pp : List String} {bid : Nat} {linkData exhaustDci : Bool}
    {es : Option String} {forceData : Option BData}
    {dset : Option (List String)} {st' : WState}
    (h : writeDataset env sess fuel st pp bid linkData exhaustDci es
      forceData = some (dset, st')) :
    (∀ i, getWritten st i = true → getWritten st' i = true) ∧
    (∀ i, getWritten st' i = true → getWritten st i = true ∨ i = bid) ∧
    (∀ b, env bid = some b →
      (∀ q k, ¬ ((pp ++ [b.name]) <+: q) → ¬ (q = pp ∧ k = "zarr_link") →
        attrAt st'.root q k = attrAt st.root q k) ∧
      (∀ q, ¬ ((pp ++ [b.name]) <+: q) →
        existsAt st'.root q = existsAt st.root q)) ∧
    st'.consolidated = st.consolidated ∧
    (env bid = none → st' = st) := by
  unfold writeDataset at h
  split at h
  · -- already written: no-op
    simp only [Option.some_inj, Prod.mk.injEq] at h
    obtain ⟨rfl, rfl⟩ := h
    exact ⟨fun i hi => hi, fun i hi => Or.inl hi,
      fun b _ => ⟨fun _ _ _ _ => rfl, fun _ _ => rfl⟩, rfl, fun _ => rfl⟩
  · split at h
    · exact Option.noConfusion h
    · next b hb =>
      split at h
      · next data0 dtype =>
        split at h
        · exact Option.noConfusion h
        · next dset0 linked st1 hdd =>
          split at h
          · exact Option.noConfusion h
          · next st2 h2 =>
            dsimp only [] at h
            simp only [Option.some_inj, Prod.mk.injEq] at h
            obtain ⟨rfl, rfl⟩ := h
            obtain ⟨mono1, sub1, attr1, exi1, hlnk, hcons1⟩ := wdd_state hdd
            have hst2 : st2.written = st1.written ∧
                st2.consolidated = st1.consolidated ∧
                (∀ q k, ¬ ((pp ++ [b.name]) <+: q) →
                  attrAt st2.root q k = attrAt st1.root q k) ∧
                (∀ q, existsAt st2.root q = existsAt st1.root q) := by
              split at h2
              · -- linked: attributes are skipped
                obtain rfl := Option.some.inj h2
                exact ⟨rfl, rfl, fun _ _ _ => rfl, fun _ => rfl⟩
              · -- not linked: write the attributes at the dataset path
                next hl =>
                  split at h2
                  · next dpo dp =>
                    have hdp' : some dp = some (pp ++ [b.name]) :=
                      hlnk (by revert hl; cases linked <;> simp)
                    obtain rfl := Option.some.inj hdp'
                    obtain ⟨hw, _, hc⟩ := wa_state h2
                    refine ⟨hw, hc, ?_, wa_exi h2⟩
                    intro q k hq
                    exact wa_frame_path h2 q k (ne_of_not_pref hq)
                  · exact Option.noConfusion h2
            obtain ⟨hw2, hc2, ha2, he2⟩ := hst2
            refine ⟨?_, ?_, ?_, ?_⟩
            · intro i hi
              have h1 : getWritten st1 i = true := mono1 i hi
              have h2' : getWritten st2 i = true := by
                unfold getWritten at h1 ⊢
                rw [hw2]
                exact h1
              have h3 : getWritten (setWritten st2 bid) i = true := by
                rw [getWritten_setWritten, h2']
                rfl
              unfold getWritten at h3 ⊢
              rw [condDrain_written]
              exact h3
            · intro i hi
              have h3 : getWritten (setWritten st2 bid) i = true := by
                unfold getWritten at hi ⊢
                rw [condDrain_written] at hi
                exact hi
              rw [getWritten_setWritten] at h3
              simp only [Bool.or_eq_true, decide_eq_true_eq] at h3
              rcases h3 with h3 | h3
              · have h1 : getWritten st1 i = true := by
                  unfold getWritten at h3 ⊢
                  rw [hw2] at h3
                  exact h3
                exact sub1 i h1
              · exact Or.inr h3
            · intro b' hb'
              rw [hb] at hb'
              obtain rfl := Option.some.inj hb'
              constructor
              · intro q k hq hqk
                rw [condDrain_attr, setWritten_root, ha2 q k hq,
                  attr1 q k hq hqk]
              · intro q hq
                rw [condDrain_exi, setWritten_root, he2 q,
                  exi1 q (ne_of_not_pref hq) hq]
            · constructor
              · rw [condDrain_consolidated, setWritten_consolidated, hc2,
                  hcons1]
              · intro hn
                rw [hn] at hb
                exact Option.noConfusion hb
      · exact Option.noConfusion h


/-! ### Prefix helpers -/

theorem prefix_same_head {gp : List String} {a c : String} {q : List String}
    (h1 : (gp ++ [a]) <+: q) (h2 : (gp ++ [c]) <+: q) : a = c := by
  obtain ⟨r1, hr1⟩ := h1
  obtain ⟨r2, hr2⟩ := h2
  have he : gp ++ (a :: r1) = gp ++ (c :: r2) := by
    simpa [List.append_assoc] using hr1.trans hr2.symm
  exact (List.cons.inj (List.append_cancel_left he)).1

theorem not_prefix_self_append {l : List String} {a : String} :
    ¬ ((l ++ [a]) <+: l) := by
  intro h
  have := h.length_le
  simp at this

theorem ne_parent_of_prefix {gp : List String} {g : String} {q : List String}
    (h : (gp ++ [g]) <+: q) : q ≠ gp := by
  intro he
  subst he
  exact not_prefix_self_append h

/-! ### Replay: already-written builders are not rewritten -/

theorem wd_noop {env : BEnv} {sess : Session} {fuel : Nat} {st : WState}
    {pp : List String} {bid : Nat} {linkData exhaustDci : Bool}
    {es : Option String} {forceData : Option BData}
    (h : getWritten st bid = true) :
    writeDataset env sess fuel st pp bid linkData exhaustDci es forceData =
      some (none, st) := by
  unfold writeDataset
  rw [if_pos h]

theorem wdl_noop {env : BEnv} {sess : Session} {fuel : Nat} {st : WState}
    {gp : List String} {ds : List Nat} {linkData exhaustDci : Bool}
    {es : Option String} (h : ∀ d ∈ ds, getWritten st d = true) :
    writeDatasetList env sess fuel st gp ds linkData exhaustDci es =
      some st := by
  induction ds with
  | nil => rfl
  | cons d rest ih =>
    unfold writeDatasetList
    rw [wd_noop (h d (by simp))]
    exact ih (fun x hx => h x (by simp [hx]))

theorem wll_noop {env : BEnv} {sess : Session} {fuel : Nat} {st : WState}
    {gp : List String} {ls : List Nat}
    (h : ∀ l ∈ ls, getWritten st l = true) :
    writeLinkList env sess fuel st gp ls = some st := by
  induction ls with
  | nil => rfl
  | cons l rest ih =>
    unfold writeLinkList
    rw [writeLink_noop (h l (by simp))]
    exact ih (fun x hx => h x (by simp [hx]))

/-- Replaying `write_group` on a fully-written subtree (captured by `DoneG`)
is the identity. -/
theorem wg_replay {env : BEnv} {sess : Session} {ld ed : Bool} :
    ∀ (fuel : Nat) (st : WState) (pp : List String) (bid : Nat)
      (es : Option String),
      DoneG env sess fuel st pp bid → WFB env fuel bid = true →
      writeGroup env sess fuel st pp bid ld ed es = some st := by
  intro fuel
  induction fuel with
  | zero => intro st pp bid es hd _; exact hd.elim
  | succ f ih =>
    have ihl : ∀ (sgs : List Nat) (st : WState) (gp : List String),
        (∀ g ∈ sgs, DoneG env sess f st gp g) →
        (∀ g ∈ sgs, WFB env f g = true) →
        writeGroupList env sess f st gp sgs ld ed = some st := by
      intro sgs
      induction sgs with
      | nil => intro st gp _ _; simp [writeGroupList]
      | cons g rest ihr =>
        intro st gp hd hw
        unfold writeGroupList
        rw [ih st gp g none (hd g (by simp)) (hw g (by simp))]
        exact ihr st gp (fun x hx => hd x (by simp [hx]))
          (fun x hx => hw x (by simp [hx]))
    intro st pp bid es hd hw
    obtain ⟨b, sg, ds, ls, hb, hk, hwr, hex, hds, hls, hsub, hattr⟩ := hd
    have hwsg : ∀ g ∈ sg, WFB env f g = true := by
      simp only [WFB, hb, hk, Bool.and_eq_true, List.all_eq_true] at hw
      exact fun g hg => hw.2 g hg
    have hde : ∃ n, descend st.root (pp ++ [b.name]) = some n := by
      unfold existsAt at hex
      cases hdd : descend st.root (pp ++ [b.name]) with
      | none => rw [hdd] at hex; simp at hex
      | some n => exact ⟨n, rfl⟩
    obtain ⟨n, hde⟩ := hde
    have heta : ({ st with root := st.root } : WState) = st := rfl
    have h1 : writeGroupList env sess f st (pp ++ [b.name]) sg ld ed =
        some st := ihl sg st (pp ++ [b.name]) hsub hwsg
    have h2 : writeDatasetList env sess f st (pp ++ [b.name]) ds ld ed es =
        some st := wdl_noop hds
    have h3 : writeLinkList env sess f st (pp ++ [b.name]) ls = some st :=
      wll_noop hls
    have h4 : writeAttributes env sess f none st (pp ++ [b.name])
        b.attributes = some st := wa_noop hattr
    simp only [writeGroup, hb, hk, hwr, if_true, hde, heta, h1, h2, h3, h4]
    rw [setWritten_of_written hwr]


/-- `DoneG` is stable under any state change that keeps written builders
written and does not touch the group's store subtree. -/
theorem DoneG_pres {env : BEnv} {sess : Session} :
    ∀ (fuel : Nat) {st st' : WState} {pp : List String} {bid : Nat} {b : BRec},
      env bid = some b →
      DoneG env sess fuel st pp bid →
      (∀ i, getWritten st i = true → getWritten st' i = true) →
      (∀ q k, (pp ++ [b.name]) <+: q →
        attrAt st'.root q k = attrAt st.root q k) →
      (∀ q, (pp ++ [b.name]) <+: q →
        existsAt st'.root q = existsAt st.root q) →
      DoneG env sess fuel st' pp bid := by
  intro fuel
  induction fuel with
  | zero => intro st st' pp bid b _ hd _ _ _; exact hd.elim
  | succ f ihf =>
    intro st st' pp bid b henv hd hmono hattr hexi
    obtain ⟨b', sg, ds, ls, hb, hk, hwr, hex, hds, hls, hsub, hat⟩ := hd
    rw [henv] at hb
    obtain rfl := Option.some.inj hb
    refine ⟨b, sg, ds, ls, henv, hk, hmono _ hwr, ?_,
      fun d hdm => hmono _ (hds d hdm), fun l hlm => hmono _ (hls l hlm),
      ?_, ?_⟩
    · rw [hexi _ (List.prefix_refl _)]
      exact hex
    · intro g hg
      have hdg := hsub g hg
      cases f with
      | zero => exact hdg.elim
      | succ f2 =>
        obtain ⟨c, csg, cds, cls, hc, hck, hcw, hcex, hcds, hcls, hcsub,
          hcat⟩ := hdg
        have hdg' : DoneG env sess (f2 + 1) st (pp ++ [b.name]) g :=
          ⟨c, csg, cds, cls, hc, hck, hcw, hcex, hcds, hcls, hcsub, hcat⟩
        exact ihf hc hdg' hmono
          (fun q k hq => hattr q k
            ((List.prefix_append (pp ++ [b.name]) [c.name]).trans hq))
          (fun q hq => hexi q
            ((List.prefix_append (pp ++ [b.name]) [c.name]).trans hq))
    · intro k a hka
      obtain ⟨v, hv, hav⟩ := hat k a hka
      refine ⟨v, hv, ?_⟩
      rw [hattr _ _ (List.prefix_refl _)]
      exact hav


/-- State frame of the link loop. -/
theorem wll_state {env : BEnv} {sess : Session} {fuel : Nat}
    {st st' : WState} {gp : List String} {ls : List Nat}
    (h : writeLinkList env sess fuel st gp ls = some st') :
    (∀ i, getWritten st i = true → getWritten st' i = true) ∧
    (∀ l ∈ ls, getWritten st' l = true) ∧
    (∀ i, getWritten st' i = true → getWritten st i = true ∨ i ∈ ls) ∧
    (∀ q k, ¬ (q = gp ∧ k = "zarr_link") →
      attrAt st'.root q k = attrAt st.root q k) ∧
    (∀ q, existsAt st'.root q = existsAt st.root q) ∧
    st'.consolidated = st.consolidated := by
  induction ls generalizing st with
  | nil =>
    obtain rfl := Option.some.inj h
    exact ⟨fun i hi => hi, by simp, fun i hi => Or.inl hi, fun q k _ => rfl,
      fun q => rfl, rfl⟩
  | cons l rest ih =>
    unfold writeLinkList at h
    cases hwl : writeLink env sess fuel st gp l with
    | none => rw [hwl] at h; exact Option.noConfusion h
    | some st1 =>
      rw [hwl] at h
      obtain ⟨post1, mono1, sub1, _, hcons1, fa1, fe1⟩ := writeLink_state hwl
      obtain ⟨monoR, postR, subR, faR, feR, hconsR⟩ := ih h
      refine ⟨fun i hi => monoR i (mono1 i hi), ?_, ?_, ?_,
        fun q => (feR q).trans (fe1 q), hconsR.trans hcons1⟩
      · intro x hx
        rcases List.mem_cons.mp hx with rfl | hmem
        · exact monoR x post1
        · exact postR x hmem
      · intro i hi
        rcases subR i hi with hi1 | hmem
        · rcases sub1 i hi1 with h0 | rfl
          · exact Or.inl h0
          · exact Or.inr (by simp)
        · exact Or.inr (by simp [hmem])
      · intro q k hqk
        rw [faR q k hqk, fa1 q k hqk]

/-- State frame of the dataset loop. -/
theorem wdl_state {env : BEnv} {sess : Session} {fuel : Nat}
    {st st' : WState} {gp : List String} {ds : List Nat}
    {linkData exhaustDci : Bool} {es : Option String}
    (h : writeDatasetList env sess fuel st gp ds linkData exhaustDci es =
      some st') :
    (∀ i, getWritten st i = true → getWritten st' i = true) ∧
    (∀ d ∈ ds, getWritten st' d = true) ∧
    (∀ i, getWritten st' i = true → getWritten st i = true ∨ i ∈ ds) ∧
    (∀ q k, (∀ d ∈ ds, ∀ c, env d = some c → ¬ ((gp ++ [c.name]) <+: q)) →
      ¬ (q = gp ∧ k = "zarr_link") →
      attrAt st'.root q k = attrAt st.root q k) ∧
    (∀ q, (∀ d ∈ ds, ∀ c, env d = some c → ¬ ((gp ++ [c.name]) <+: q)) →
      existsAt st'.root q = existsAt st.root q) ∧
    st'.consolidated = st.consolidated := by
  induction ds generalizing st with
  | nil =>
    obtain rfl := Option.some.inj h
    exact ⟨fun i hi => hi, by simp, fun i hi => Or.inl hi, fun q k _ _ => rfl,
      fun q _ => rfl, rfl⟩
  | cons d rest ih =>
    unfold writeDatasetList at h
    cases hwd : writeDataset env sess fuel st gp d linkData exhaustDci es
        none with
    | none => rw [hwd] at h; exact Option.noConfusion h
    | some r =>
      obtain ⟨dp, st1⟩ := r
      rw [hwd] at h
      obtain ⟨mono1, sub1, hfr1, hcons1, hnone1⟩ := wd_state hwd
      obtain ⟨monoR, postR, subR, faR, feR, hconsR⟩ := ih h
      have post1 : getWritten st1 d = true := by
        revert hwd
        unfold writeDataset
        split
        · next hw => intro he; obtain ⟨_, rfl⟩ :=
            Prod.mk.injEq _ _ _ _ ▸ Option.some.inj he; exact hw
        · split
          · intro he; exact Option.noConfusion he
          · split
            · next d0 dt =>
              split
              · intro he; exact Option.noConfusion he
              · next ds0 lk stx hdd =>
                split
                · intro he; exact Option.noConfusion he
                · next st2 h2 =>
                  dsimp only []
                  intro he
                  simp only [Option.some_inj, Prod.mk.injEq] at he
                  obtain ⟨rfl, rfl⟩ := he
                  have h3 : getWritten (setWritten st2 d) d = true :=
                    getWritten_setWritten_self st2 d
                  unfold getWritten at h3 ⊢
                  rw [condDrain_written]
                  exact h3
            · intro he; exact Option.noConfusion he
      refine ⟨fun i hi => monoR i (mono1 i hi), ?_, ?_, ?_, ?_,
        hconsR.trans hcons1⟩
      · intro x hx
        rcases List.mem_cons.mp hx with rfl | hmem
        · exact monoR x post1
        · exact postR x hmem
      · intro i hi
        rcases subR i hi with hi1 | hmem
        · rcases sub1 i hi1 with h0 | rfl
          · exact Or.inl h0
          · exact Or.inr (by simp)
        · exact Or.inr (by simp [hmem])
      · intro q k hreg hqk
        rw [faR q k (fun x hx c hc => hreg x (by simp [hx]) c hc) hqk]
        cases hc0 : env d with
        | none => rw [hnone1 hc0]
        | some c =>
          exact (hfr1 c hc0).1 q k (hreg d (by simp) c hc0) hqk
      · intro q hreg
        rw [feR q (fun x hx c hc => hreg x (by simp [hx]) c hc)]
        cases hc0 : env d with
        | none => rw [hnone1 hc0]
        | some c =>
          exact (hfr1 c hc0).2 q (hreg d (by simp) c hc0)


/-- State frame of `write_group`: only builders in its `touchedW` cone can
newly become written, and the store outside the group's subtree is
untouched. -/
theorem wg_state {env : BEnv} {sess : Session} {ld ed : Bool} :
    ∀ (fuel : Nat) (st st' : WState) (pp : List String) (bid : Nat)
      (es : Option String),
      writeGroup env sess fuel st pp bid ld ed es = some st' →
      (∀ i, getWritten st i = true → getWritten st' i = true) ∧
      getWritten st' bid = true ∧
      (∀ i, getWritten st' i = true → getWritten st i = true ∨
        i ∈ touchedW env fuel bid) ∧
      (∃ b, env bid = some b ∧
        (∀ q k, ¬ ((pp ++ [b.name]) <+: q) →
          attrAt st'.root q k = attrAt st.root q k) ∧
        (∀ q, ¬ ((pp ++ [b.name]) <+: q) →
          existsAt st'.root q = existsAt st.root q)) ∧
      st'.consolidated = st.consolidated := by
  intro fuel
  induction fuel with
  | zero =>
    intro st st' pp bid es h
    simp [writeGroup] at h
  | succ f ih =>
    have ihl : ∀ (sgs : List Nat) (st st' : WState) (gp : List String),
        writeGroupList env sess f st gp sgs ld ed = some st' →
        (∀ i, getWritten st i = true → getWritten st' i = true) ∧
        (∀ g ∈ sgs, getWritten st' g = true) ∧
        (∀ i, getWritten st' i = true → getWritten st i = true ∨
          ∃ g ∈ sgs, i ∈ touchedW env f g) ∧
        (∀ q k, (∀ g ∈ sgs, ∀ c, env g = some c →
            ¬ ((gp ++ [c.name]) <+: q)) →
          attrAt st'.root q k = attrAt st.root q k) ∧
        (∀ q, (∀ g ∈ sgs, ∀ c, env g = some c →
            ¬ ((gp ++ [c.name]) <+: q)) →
          existsAt st'.root q = existsAt st.root q) ∧
        st'.consolidated = st.consolidated := by
      intro sgs
      induction sgs with
      | nil =>
        intro st st' gp h
        simp only [writeGroupList, Option.some_inj] at h
        subst h
        exact ⟨fun i hi => hi, by simp, fun i hi => Or.inl hi,
          fun q k _ => rfl, fun q _ => rfl, rfl⟩
      | cons g rest ihr =>
        intro st st' gp h
        unfold writeGroupList at h
        cases hwg : writeGroup env sess f st gp g ld ed none with
        | none => rw [hwg] at h; exact Option.noConfusion h
        | some st1 =>
          rw [hwg] at h
          obtain ⟨mono1, post1, sub1, ⟨c, hc, fa1, fe1⟩, hcons1⟩ :=
            ih st st1 gp g none hwg
          obtain ⟨monoR, postR, subR, faR, feR, hconsR⟩ := ihr st1 st' gp h
          refine ⟨fun i hi => monoR i (mono1 i hi), ?_, ?_, ?_, ?_,
            hconsR.trans hcons1⟩
          · intro x hx
            rcases List.mem_cons.mp hx with rfl | hmem
            · exact monoR x post1
            · exact postR x hmem
          · intro i hi
            rcases subR i hi with hi1 | ⟨g2, hg2, ht⟩
            · rcases sub1 i hi1 with h0 | ht
              · exact Or.inl h0
              · exact Or.inr ⟨g, by simp, ht⟩
            · exact Or.inr ⟨g2, by simp [hg2], ht⟩
          · intro q k hreg
            rw [faR q k (fun x hx c2 hc2 => hreg x (by simp [hx]) c2 hc2),
              fa1 q k (hreg g (by simp) c hc)]
          · intro q hreg
            rw [feR q (fun x hx c2 hc2 => hreg x (by simp [hx]) c2 hc2),
              fe1 q (hreg g (by simp) c hc)]
    intro st st' pp bid es h
    unfold writeGroup at h
    split at h
    · exact Option.noConfusion h
    · next b hb =>
      split at h
      · next sg ds ls hk =>
        split at h
        · exact Option.noConfusion h
        · next root0 hroot0 =>
          split at h
          · exact Option.noConfusion h
          · next st1 h1 =>
            split at h
            · exact Option.noConfusion h
            · next st2 h2 =>
              split at h
              · exact Option.noConfusion h
              · next st3 h3 =>
                split at h
                · exact Option.noConfusion h
                · next st4 h4 =>
                  obtain rfl := Option.some.inj h
                  have hro : (∀ q k, attrAt root0 q k = attrAt st.root q k) ∧
                      (∀ q, q ≠ pp ++ [b.name] →
                        existsAt root0 q = existsAt st.root q) := by
                    split at hroot0
                    · split at hroot0
                      · obtain rfl := Option.some.inj hroot0
                        exact ⟨fun q k => rfl, fun q _ => rfl⟩
                      · exact Option.noConfusion hroot0
                    · exact ⟨requireGroupP_attr hroot0,
                        requireGroupP_exi hroot0⟩
                  obtain ⟨monoG, postG, subG, faG, feG, hconsG⟩ :=
                    ihl sg { st with root := root0 } st1 (pp ++ [b.name]) h1
                  obtain ⟨monoD, postD, subD, faD, feD, hconsD⟩ := wdl_state h2
                  obtain ⟨monoL, postL, subL, faL, feL, hconsL⟩ := wll_state h3
                  obtain ⟨hwA, _, hconsA⟩ := wa_state h4
                  refine ⟨?_, ?_, ?_, ⟨b, hb, ?_, ?_⟩, ?_⟩
                  · intro i hi
                    have h0 : getWritten { st with root := root0 } i = true :=
                      hi
                    have hi4 : getWritten st4 i = true := by
                      unfold getWritten
                      rw [hwA]
                      exact monoL i (monoD i (monoG i h0))
                    have h5 : getWritten (setWritten st4 bid) i = true := by
                      rw [getWritten_setWritten, hi4]
                      rfl
                    exact h5
                  · exact getWritten_setWritten_self st4 bid
                  · intro i hi
                    have h5 : getWritten (setWritten st4 bid) i = true := hi
                    rw [getWritten_setWritten] at h5
                    simp only [Bool.or_eq_true, decide_eq_true_eq] at h5
                    rcases h5 with h5 | rfl
                    · have hi3 : getWritten st3 i = true := by
                        unfold getWritten at h5 ⊢
                        rw [hwA] at h5
                        exact h5
                      rcases subL i hi3 with hi2 | hmem
                      · rcases subD i hi2 with hi1 | hmem
                        · rcases subG i hi1 with hi0 | ⟨g2, hg2, ht⟩
                          · exact Or.inl hi0
                          · refine Or.inr ?_
                            simp only [touchedW, hb, hk, List.mem_cons,
                              List.mem_append, List.mem_flatMap]
                            exact Or.inr (Or.inl (Or.inl ⟨g2, hg2, ht⟩))
                        · refine Or.inr ?_
                          simp only [touchedW, hb, hk, List.mem_cons,
                            List.mem_append, List.mem_flatMap]
                          exact Or.inr (Or.inl (Or.inr hmem))
                      · refine Or.inr ?_
                        simp only [touchedW, hb, hk, List.mem_cons,
                          List.mem_append, List.mem_flatMap]
                        exact Or.inr (Or.inr hmem)
                    · refine Or.inr ?_
                      simp [touchedW, hb, hk]
                  · intro q k hq
                    have hne : q ≠ pp ++ [b.name] := ne_of_not_pref hq
                    have hnz : ¬ (q = pp ++ [b.name] ∧ k = "zarr_link") :=
                      fun hc => hne hc.1
                    have hsub : ∀ s : String,
                        ¬ (((pp ++ [b.name]) ++ [s]) <+: q) :=
                      fun s hpre =>
                        hq ((List.prefix_append (pp ++ [b.name]) [s]).trans
                          hpre)
                    rw [setWritten_root,
                      wa_frame_path h4 q k hne,
                      faL q k hnz,
                      faD q k (fun d _ c2 hc2 => hsub c2.name) hnz,
                      faG q k (fun g2 _ c2 hc2 => hsub c2.name),
                      hro.1 q k]
                  · intro q hq
                    have hne : q ≠ pp ++ [b.name] := ne_of_not_pref hq
                    have hsub : ∀ s : String,
                        ¬ (((pp ++ [b.name]) ++ [s]) <+: q) :=
                      fun s hpre =>
                        hq ((List.prefix_append (pp ++ [b.name]) [s]).trans
                          hpre)
                    rw [setWritten_root,
                      wa_exi h4 q,
                      feL q,
                      feD q (fun d _ c2 hc2 => hsub c2.name),
                      feG q (fun g2 _ c2 hc2 => hsub c2.name),
                      hro.2 q hne]
                  · rw [setWritten_consolidated, hconsA, hconsL, hconsD,
                      hconsG]
      · exact Option.noConfusion h


/-! ### Toward establishing `DoneG` after a successful `write_group` -/

theorem distinctB_nodup : ∀ {l : List String}, distinctB l = true → l.Nodup
  | [], _ => List.nodup_nil
  | x :: xs, h => by
    simp only [distinctB, Bool.and_eq_true, Bool.not_eq_true'] at h
    refine List.nodup_cons.mpr ⟨?_, distinctB_nodup h.2⟩
    intro hmem
    rw [List.contains_eq_any_beq] at h
    simp only [List.any_eq_false] at h
    exact absurd (by simp) (h.1 x hmem)

/-- Standalone list version of `wg_state`. -/
theorem wgl_state {env : BEnv} {sess : Session} {ld ed : Bool} {fuel : Nat}
    {st st' : WState} {gp : List String} {sgs : List Nat}
    (h : writeGroupList env sess fuel st gp sgs ld ed = some st') :
    (∀ i, getWritten st i = true → getWritten st' i = true) ∧
    (∀ g ∈ sgs, getWritten st' g = true) ∧
    (∀ i, getWritten st' i = true → getWritten st i = true ∨
      ∃ g ∈ sgs, i ∈ touchedW env fuel g) ∧
    (∀ q k, (∀ g ∈ sgs, ∀ c, env g = some c →
        ¬ ((gp ++ [c.name]) <+: q)) →
      attrAt st'.root q k = attrAt st.root q k) ∧
    (∀ q, (∀ g ∈ sgs, ∀ c, env g = some c →
        ¬ ((gp ++ [c.name]) <+: q)) →
      existsAt st'.root q = existsAt st.root q) ∧
    st'.consolidated = st.consolidated := by
  induction sgs generalizing st with
  | nil =>
    simp only [writeGroupList, Option.some_inj] at h
    subst h
    exact ⟨fun i hi => hi, by simp, fun i hi => Or.inl hi,
      fun q k _ => rfl, fun q _ => rfl, rfl⟩
  | cons g rest ih =>
    unfold writeGroupList at h
    cases hwg : writeGroup env sess fuel st gp g ld ed none with
    | none => rw [hwg] at h; exact Option.noConfusion h
    | some st1 =>
      rw [hwg] at h
      obtain ⟨mono1, post1, sub1, ⟨c, hc, fa1, fe1⟩, hcons1⟩ :=
        wg_state fuel st st1 gp g none hwg
      obtain ⟨monoR, postR, subR, faR, feR, hconsR⟩ := ih h
      refine ⟨fun i hi => monoR i (mono1 i hi), ?_, ?_, ?_, ?_,
        hconsR.trans hcons1⟩
      · intro x hx
        rcases List.mem_cons.mp hx with rfl | hmem
        · exact monoR x post1
        · exact postR x hmem
      · intro i hi
        rcases subR i hi with hi1 | ⟨g2, hg2, ht⟩
        · rcases sub1 i hi1 with h0 | ht
          · exact Or.inl h0
          · exact Or.inr ⟨g, by simp, ht⟩
        · exact Or.inr ⟨g2, by simp [hg2], ht⟩
      · intro q k hreg
        rw [faR q k (fun x hx c2 hc2 => hreg x (by simp [hx]) c2 hc2),
          fa1 q k (hreg g (by simp) c hc)]
      · intro q hreg
        rw [feR q (fun x hx c2 hc2 => hreg x (by simp [hx]) c2 hc2),
          fe1 q (hreg g (by simp) c hc)]


/-- A successful `write_group` on a well-formed builder establishes the
replay invariant `DoneG` on its output state. -/
theorem wg_establish {env : BEnv} {sess : Session} {ld ed : Bool} :
    ∀ (fuel : Nat) (st st' : WState) (pp : List String) (bid : Nat)
      (es : Option String),
      writeGroup env sess fuel st pp bid ld ed es = some st' →
      WFB env fuel bid = true →
      DoneG env sess fuel st' pp bid := by
  intro fuel
  induction fuel with
  | zero => intro st st' pp bid es h _; simp [writeGroup] at h
  | succ f ihE =>
    intro st st' pp bid es h hwf
    unfold writeGroup at h
    split at h
    · exact Option.noConfusion h
    · next b hb =>
      split at h
      · next sg ds ls hk =>
        split at h
        · exact Option.noConfusion h
        · next root0 hroot0 =>
          split at h
          · exact Option.noConfusion h
          · next st1 h1 =>
            split at h
            · exact Option.noConfusion h
            · next st2 h2 =>
              split at h
              · exact Option.noConfusion h
              · next st3 h3 =>
                split at h
                · exact Option.noConfusion h
                · next st4 h4 =>
                  obtain rfl := Option.some.inj h
                  simp only [WFB, hb, hk, Bool.and_eq_true,
                    List.all_eq_true] at hwf
                  have hnames : ((sg ++ ds ++ ls).map (nameOf env)).Nodup :=
                    distinctB_nodup hwf.1.1
                  have hattrnd : (b.attributes.map Prod.fst).Nodup :=
                    distinctB_nodup hwf.1.2
                  have hwfs : ∀ g ∈ sg, WFB env f g = true := hwf.2
                  have hmap : ((sg.map (nameOf env)) ++
                      (ds.map (nameOf env) ++ ls.map (nameOf env))).Nodup := by
                    simpa [List.map_append, List.append_assoc] using hnames
                  obtain ⟨hnod_sg, _, hdisj⟩ := List.nodup_append.mp hmap
                  have hsg_ds : ∀ x ∈ sg, ∀ y ∈ ds,
                      nameOf env x ≠ nameOf env y := by
                    intro x hx y hy he
                    exact hdisj (List.mem_map_of_mem _ hx)
                      (by rw [he]
                          exact List.mem_append_left _
                            (List.mem_map_of_mem _ hy))
                  obtain ⟨monoG, postG, subG, faG, feG, hconsG⟩ :=
                    wgl_state h1
                  obtain ⟨monoD, postD, subD, faD, feD, hconsD⟩ := wdl_state h2
                  obtain ⟨monoL, postL, subL, faL, feL, hconsL⟩ := wll_state h3
                  obtain ⟨hwA, _, hconsA⟩ := wa_state h4
                  have wup : ∀ i, getWritten st3 i = true →
                      getWritten (setWritten st4 bid) i = true := by
                    intro i hi
                    have hi4 : getWritten st4 i = true := by
                      unfold getWritten at hi ⊢
                      rw [hwA]
                      exact hi
                    rw [getWritten_setWritten, hi4]
                    rfl
                  have hex0 : existsAt root0 (pp ++ [b.name]) = true := by
                    split at hroot0
                    · split at hroot0
                      · next n hdesc =>
                        obtain rfl := Option.some.inj hroot0
                        unfold existsAt
                        rw [hdesc]
                        rfl
                      · exact Option.noConfusion hroot0
                    · exact requireGroupP_exi_self hroot0
                  -- children: first established along the subgroup loop
                  have hEL : ∀ (sgs : List Nat) (stA stB : WState),
                      (sgs.map (nameOf env)).Nodup →
                      (∀ g ∈ sgs, WFB env f g = true) →
                      writeGroupList env sess f stA (pp ++ [b.name]) sgs ld
                        ed = some stB →
                      ∀ g ∈ sgs, DoneG env sess f stB (pp ++ [b.name]) g := by
                    intro sgs
                    induction sgs with
                    | nil => intro stA stB _ _ _ g hg; simp at hg
                    | cons g rest ihr =>
                      intro stA stB hnod hwfs2 hL
                      unfold writeGroupList at hL
                      cases hwg : writeGroup env sess f stA (pp ++ [b.name])
                          g ld ed none with
                      | none => rw [hwg] at hL; exact Option.noConfusion hL
                      | some stM =>
                        rw [hwg] at hL
                        obtain ⟨hgnotin, hnodr⟩ := List.nodup_cons.mp hnod
                        have hdM : DoneG env sess f stM (pp ++ [b.name]) g :=
                          ihE stA stM (pp ++ [b.name]) g none hwg
                            (hwfs2 g (by simp))
                        obtain ⟨_, _, _, ⟨c, hc, _, _⟩, _⟩ :=
                          wg_state f stA stM (pp ++ [b.name]) g none hwg
                        obtain ⟨monoR, _, _, faR, feR, _⟩ := wgl_state hL
                        have hregion : ∀ q,
                            ((pp ++ [b.name]) ++ [c.name]) <+: q →
                            ∀ g2 ∈ rest, ∀ c2, env g2 = some c2 →
                            ¬ (((pp ++ [b.name]) ++ [c2.name]) <+: q) := by
                          intro q hq g2 hg2 c2 hc2 hpre2
                          apply hgnotin
                          have he : c.name = c2.name :=
                            prefix_same_head hq hpre2
                          have h1' : nameOf env g = c2.name := by
                            simp [nameOf, hc, he]
                          rw [h1']
                          have : nameOf env g2 = c2.name := by
                            simp [nameOf, hc2]
                          rw [← this]
                          exact List.mem_map_of_mem _ hg2
                        have hdB : DoneG env sess f stB (pp ++ [b.name]) g :=
                          DoneG_pres f hc hdM monoR
                            (fun q k hq => faR q k
                              (fun g2 hg2 c2 hc2 => hregion q hq g2 hg2 c2
                                hc2))
                            (fun q hq => feR q
                              (fun g2 hg2 c2 hc2 => hregion q hq g2 hg2 c2
                                hc2))
                        intro x hx
                        rcases List.mem_cons.mp hx with rfl | hmem
                        · exact hdB
                        · exact ihr stM stB hnodr
                            (fun y hy => hwfs2 y (by simp [hy])) hL x hmem
                  have hchild1 : ∀ g ∈ sg,
                      DoneG env sess f st1 (pp ++ [b.name]) g :=
                    hEL sg { st with root := root0 } st1 hnod_sg hwfs h1
                  refine ⟨b, sg, ds, ls, hb, hk,
                    getWritten_setWritten_self st4 bid, ?_, ?_, ?_, ?_, ?_⟩
                  · -- the group node exists
                    have hcond : ∀ g ∈ sg, ∀ c, env g = some c →
                        ¬ (((pp ++ [b.name]) ++ [c.name]) <+:
                          (pp ++ [b.name])) :=
                      fun _ _ _ _ => not_prefix_self_append
                    have hcondD : ∀ d ∈ ds, ∀ c, env d = some c →
                        ¬ (((pp ++ [b.name]) ++ [c.name]) <+:
                          (pp ++ [b.name])) :=
                      fun _ _ _ _ => not_prefix_self_append
                    rw [setWritten_root, wa_exi h4, feL, feD _ hcondD,
                      feG _ hcond]
                    exact hex0
                  · intro d hd
                    exact wup d (monoL d (postD d hd))
                  · intro l hl
                    exact wup l (postL l hl)
                  · -- children survive the later dataset/link/attribute writes
                    intro g hg
                    have hdg := hchild1 g hg
                    cases f with
                    | zero => exact hdg.elim
                    | succ f2 =>
                      obtain ⟨c, csg, cds, cls, hc, hck, hcw, hcex, hcds,
                        hcls, hcsub, hcat⟩ := hdg
                      have hdg' : DoneG env sess (f2 + 1) st1
                          (pp ++ [b.name]) g :=
                        ⟨c, csg, cds, cls, hc, hck, hcw, hcex, hcds, hcls,
                          hcsub, hcat⟩
                      refine DoneG_pres (f2 + 1) hc hdg'
                        (fun i hi => wup i (monoL i (monoD i hi))) ?_ ?_
                      · intro q k hq
                        have hqgp : q ≠ pp ++ [b.name] :=
                          ne_parent_of_prefix hq
                        rw [setWritten_root, wa_frame_path h4 q k hqgp,
                          faL q k (fun hcl => hqgp hcl.1),
                          faD q k ?_ (fun hcl => hqgp hcl.1)]
                        intro d hd cd hcd hpre
                        apply hsg_ds g hg d hd
                        have he : c.name = cd.name := prefix_same_head hq hpre
                        simp [nameOf, hc, hcd, he]
                      · intro q hq
                        rw [setWritten_root, wa_exi h4, feL, feD q ?_]
                        intro d hd cd hcd hpre
                        apply hsg_ds g hg d hd
                        have he : c.name = cd.name := prefix_same_head hq hpre
                        simp [nameOf, hc, hcd, he]
                  · intro k a hka
                    obtain ⟨v, hv, hav⟩ := wa_post h4 hattrnd k a hka
                    refine ⟨v, hv, ?_⟩
                    rw [setWritten_root]
                    exact hav
      · exact Option.noConfusion h


/-- C1: writing a builder that is already marked written in the current
session a second time is a no-op.  A written link is skipped outright (no
second entry is appended to the parent's `zarr_link` list), a written
dataset returns immediately without touching the store, and replaying
`write_group` on the state left by a successful (well-formed) group write
returns that state unchanged — no node creations, no duplicate link
entries, and no duplicate attribute writes. -/
theorem c1_second_write_is_noop {env : BEnv} {sess : Session} {fuel : Nat}
    {st : WState} {pp : List String} {bid : Nat}
    {linkData exhaustDci : Bool} {es : Option String}
    {forceData : Option BData} {st0 : WState} :
    (getWritten st bid = true →
      writeLink env sess fuel st pp bid = some st) ∧
    (getWritten st bid = true →
      writeDataset env sess fuel st pp bid linkData exhaustDci es forceData =
        some (none, st)) ∧
    (writeGroup env sess fuel st0 pp bid linkData exhaustDci es = some st →
      WFB env fuel bid = true →
      writeGroup env sess fuel st pp bid linkData exhaustDci es = some st) :=
  ⟨fun h => writeLink_noop h, fun h => wd_noop h,
   fun h hw => wg_replay fuel st pp bid es
     (wg_establish fuel st0 st pp bid es h hw) hw⟩

theorem c1_second_write_is_noop_witness :
    writeLink wEnv wSess 1 wStG [] 3 = some wStG ∧
    writeDataset wEnv wSess 1 wStG [] 3 false false none none =
      some (none, wStG) ∧
    writeGroup wEnv wSess 1 wStG [] 3 false false none = some wStG := by
  have h := @c1_second_write_is_noop wEnv wSess 1 wStG [] 3 false false none
    none wSt0
  refine ⟨h.1 rfl, h.2.1 rfl, h.2.2 ?_ rfl⟩
  simp [writeGroup, writeGroupList, wEnv, wSess, wSt0]
  rfl


/-- Standalone frame lemma for the root-group loop of `write_builder`. -/
theorem wbg_state {env : BEnv} {sess : Session} {ld ed : Bool} {fuel : Nat}
    {st st' : WState} {sgs : List Nat} {es : Option String}
    (h : writeBuilderGroups env sess fuel st sgs ld ed es = some st') :
    (∀ i, getWritten st i = true → getWritten st' i = true) ∧
    (∀ g ∈ sgs, getWritten st' g = true) ∧
    (∀ i, getWritten st' i = true → getWritten st i = true ∨
      ∃ g ∈ sgs, i ∈ touchedW env fuel g) ∧
    (∀ q k, (∀ g ∈ sgs, ∀ c, env g = some c →
        ¬ (([] ++ [c.name]) <+: q)) →
      attrAt st'.root q k = attrAt st.root q k) ∧
    (∀ q, (∀ g ∈ sgs, ∀ c, env g = some c →
        ¬ (([] ++ [c.name]) <+: q)) →
      existsAt st'.root q = existsAt st.root q) ∧
    st'.consolidated = st.consolidated := by
  induction sgs generalizing st with
  | nil =>
    obtain rfl := Option.some.inj h
    exact ⟨fun i hi => hi, by simp, fun i hi => Or.inl hi,
      fun q k _ => rfl, fun q _ => rfl, rfl⟩
  | cons g rest ih =>
    unfold writeBuilderGroups at h
    cases hwg : writeGroup env sess fuel st [] g ld ed es with
    | none => rw [hwg] at h; exact Option.noConfusion h
    | some st1 =>
      rw [hwg] at h
      obtain ⟨mono1, post1, sub1, ⟨c, hc, fa1, fe1⟩, hcons1⟩ :=
        wg_state fuel st st1 [] g es hwg
      obtain ⟨monoR, postR, subR, faR, feR, hconsR⟩ := ih h
      refine ⟨fun i hi => monoR i (mono1 i hi), ?_, ?_, ?_, ?_,
        hconsR.trans hcons1⟩
      · intro x hx
        rcases List.mem_cons.mp hx with rfl | hmem
        · exact monoR x post1
        · exact postR x hmem
      · intro i hi
        rcases subR i hi with hi1 | ⟨g2, hg2, ht⟩
        · rcases sub1 i hi1 with h0 | ht
          · exact Or.inl h0
          · exact Or.inr ⟨g, by simp, ht⟩
        · exact Or.inr ⟨g2, by simp [hg2], ht⟩
      · intro q k hreg
        rw [faR q k (fun x hx c2 hc2 => hreg x (by simp [hx]) c2 hc2),
          fa1 q k (hreg g (by simp) c hc)]
      · intro q hreg
        rw [feR q (fun x hx c2 hc2 => hreg x (by simp [hx]) c2 hc2),
          fe1 q (hreg g (by simp) c hc)]

/-- Each top-level group is fully established by the root-group loop. -/
theorem wbg_establish {env : BEnv} {sess : Session} {ld ed : Bool}
    {fuel : Nat} :
    ∀ (sgs : List Nat) (stA stB : WState) (es : Option String),
      (sgs.map (nameOf env)).Nodup →
      (∀ g ∈ sgs, WFB env fuel g = true) →
      writeBuilderGroups env sess fuel stA sgs ld ed es = some stB →
      ∀ g ∈ sgs, DoneG env sess fuel stB [] g := by
  intro sgs
  induction sgs with
  | nil => intro stA stB es _ _ _ g hg; simp at hg
  | cons g rest ihr =>
    intro stA stB es hnod hwfs hL
    unfold writeBuilderGroups at hL
    cases hwg : writeGroup env sess fuel stA [] g ld ed es with
    | none => rw [hwg] at hL; exact Option.noConfusion hL
    | some stM =>
      rw [hwg] at hL
      obtain ⟨hgnotin, hnodr⟩ := List.nodup_cons.mp hnod
      have hdM : DoneG env sess fuel stM [] g :=
        wg_establish fuel stA stM [] g es hwg (hwfs g (by simp))
      obtain ⟨_, _, _, ⟨c, hc, _, _⟩, _⟩ :=
        wg_state fuel stA stM [] g es hwg
      obtain ⟨monoR, _, _, faR, feR, _⟩ := wbg_state hL
      have hregion : ∀ q, (([] : List String) ++ [c.name]) <+: q →
          ∀ g2 ∈ rest, ∀ c2, env g2 = some c2 →
          ¬ ((([] : List String) ++ [c2.name]) <+: q) := by
        intro q hq g2 hg2 c2 hc2 hpre2
        apply hgnotin
        have he : c.name = c2.name := prefix_same_head hq hpre2
        have h1' : nameOf env g = c2.name := by
          simp [nameOf, hc, he]
        rw [h1']
        have h2' : nameOf env g2 = c2.name := by
          simp [nameOf, hc2]
        rw [← h2']
        exact List.mem_map_of_mem _ hg2
      have hdB : DoneG env sess fuel stB [] g :=
        DoneG_pres fuel hc hdM monoR
          (fun q k hq => faR q k
            (fun g2 hg2 c2 hc2 => hregion q hq g2 hg2 c2 hc2))
          (fun q hq => feR q
            (fun g2 hg2 c2 hc2 => hregion q hq g2 hg2 c2 hc2))
      intro x hx
      rcases List.mem_cons.mp hx with rfl | hmem
      · exact hdB
      · exact ihr stM stB es hnodr (fun y hy => hwfs y (by simp [hy])) hL
          x hmem


/-- C3 (amended): a successful `write_builder` writes the top-level groups
depth-first (each fully established, including the links *inside* every
group), then the root's datasets, then the root attributes, drains the
chunk-iterator queue, marks the root written, and consolidates when
requested.  Links attached directly to the root builder are *not* written:
a root link that was unwritten and is not reachable through the other
loops stays unwritten. -/
theorem c3_write_builder_effects {env : BEnv} {sess : Session} {fuel : Nat}
    {st st' : WState} {rootBid : Nat} {ld ed : Bool} {es : Option String}
    {cons : Bool}
    (h : writeBuilder env sess fuel st rootBid ld ed es cons = some st')
    (hwf : WFB env (fuel + 1) rootBid = true) :
    ∃ b sg ds ls, env rootBid = some b ∧ b.kind = .group sg ds ls ∧
      (∀ g ∈ sg, DoneG env sess fuel st' [] g) ∧
      (∀ d ∈ ds, getWritten st' d = true) ∧
      (∀ k a, (k, a) ∈ b.attributes →
        ∃ v, attrAssignVal env sess fuel none a = some v ∧
          attrAt st'.root [] k = some v) ∧
      st'.queue = [] ∧
      getWritten st' rootBid = true ∧
      (cons = true → st'.consolidated = true) ∧
      (∀ l ∈ ls, getWritten st l = false →
        (∀ g ∈ sg, l ∉ touchedW env fuel g) → l ∉ ds → l ≠ rootBid →
        getWritten st' l = false) := by
  unfold writeBuilder at h
  split at h
  · exact Option.noConfusion h
  · next b hb =>
    split at h
    · next sg ds ls hk =>
      split at h
      · exact Option.noConfusion h
      · next st1 h1 =>
        split at h
        · exact Option.noConfusion h
        · next st2 h2 =>
          split at h
          · exact Option.noConfusion h
          · next st3 h3 =>
            dsimp only [] at h
            have hstF := (Option.some.inj h).symm
            simp only [WFB, hb, hk, Bool.and_eq_true,
              List.all_eq_true] at hwf
            have hnames : ((sg ++ ds ++ ls).map (nameOf env)).Nodup :=
              distinctB_nodup hwf.1.1
            have hattrnd : (b.attributes.map Prod.fst).Nodup :=
              distinctB_nodup hwf.1.2
            have hwfs : ∀ g ∈ sg, WFB env fuel g = true := hwf.2
            have hmap : ((sg.map (nameOf env)) ++
                (ds.map (nameOf env) ++ ls.map (nameOf env))).Nodup := by
              simpa [List.map_append, List.append_assoc] using hnames
            obtain ⟨hnod_sg, _, hdisj⟩ := List.nodup_append.mp hmap
            have hsg_ds : ∀ x ∈ sg, ∀ y ∈ ds,
                nameOf env x ≠ nameOf env y := by
              intro x hx y hy he
              exact hdisj (List.mem_map_of_mem _ hx)
                (by rw [he]
                    exact List.mem_append_left _
                      (List.mem_map_of_mem _ hy))
            obtain ⟨monoG, postG, subG, faG, feG, _⟩ := wbg_state h1
            obtain ⟨monoD, postD, subD, faD, feD, _⟩ := wdl_state h2
            obtain ⟨hwA, _, _⟩ := wa_state h3
            -- basic facts about the final state
            have hFw : st'.written =
                (setWritten (drainQueue sess st3) rootBid).written := by
              rw [hstF]
              cases cons <;> rfl
            have hFroot : st'.root = (drainQueue sess st3).root := by
              rw [hstF]
              cases cons <;> simp [setWritten_root]
            have hFattr : ∀ q k, attrAt st'.root q k = attrAt st3.root q k :=
              by
              intro q k
              rw [hFroot]
              exact drainQueue_attr sess st3 q k
            have hFexi : ∀ q, existsAt st'.root q = existsAt st3.root q := by
              intro q
              rw [hFroot]
              exact drainQueue_exi sess st3 q
            have hmono3F : ∀ i, getWritten st3 i = true →
                getWritten st' i = true := by
              intro i hi
              unfold getWritten
              rw [hFw]
              have : getWritten (setWritten (drainQueue sess st3) rootBid)
                  i = true := by
                rw [getWritten_setWritten]
                have hD : getWritten (drainQueue sess st3) i = true := hi
                rw [hD]
                rfl
              exact this
            have hmono1F : ∀ i, getWritten st1 i = true →
                getWritten st' i = true := by
              intro i hi
              refine hmono3F i ?_
              unfold getWritten
              rw [hwA]
              exact monoD i hi
            refine ⟨b, sg, ds, ls, hb, hk, ?_, ?_, ?_, ?_, ?_, ?_, ?_⟩
            · -- top-level groups remain established in the final state
              intro g hg
              have hdg := wbg_establish sg st st1 es hnod_sg hwfs h1 g hg
              cases fuel with
              | zero => exact hdg.elim
              | succ f2 =>
                obtain ⟨c, csg, cds, cls, hc, hck, hcw, hcex, hcds, hcls,
                  hcsub, hcat⟩ := hdg
                have hdg' : DoneG env sess (f2 + 1) st1 [] g :=
                  ⟨c, csg, cds, cls, hc, hck, hcw, hcex, hcds, hcls,
                    hcsub, hcat⟩
                refine DoneG_pres (f2 + 1) hc hdg' hmono1F ?_ ?_
                · intro q k hq
                  have hqne : q ≠ ([] : List String) :=
                    ne_parent_of_prefix hq
                  rw [hFattr q k, wa_frame_path h3 q k hqne,
                    faD q k ?_ (fun hcl => hqne hcl.1)]
                  intro d hd cd hcd hpre
                  apply hsg_ds g hg d hd
                  have he : c.name = cd.name := prefix_same_head hq hpre
                  simp [nameOf, hc, hcd, he]
                · intro q hq
                  rw [hFexi q, wa_exi h3, feD q ?_]
                  intro d hd cd hcd hpre
                  apply hsg_ds g hg d hd
                  have he : c.name = cd.name := prefix_same_head hq hpre
                  simp [nameOf, hc, hcd, he]
            · intro d hd
              refine hmono3F d ?_
              unfold getWritten
              rw [hwA]
              exact postD d hd
            · intro k a hka
              obtain ⟨v, hv, hav⟩ := wa_post h3 hattrnd k a hka
              refine ⟨v, hv, ?_⟩
              rw [hFattr]
              exact hav
            · rw [hstF]
              cases cons <;> simp [setWritten_queue, drainQueue]
            · unfold getWritten
              rw [hFw]
              exact getWritten_setWritten_self (drainQueue sess st3) rootBid
            · intro hcons
              rw [hstF]
              rw [hcons]
              rfl
            · intro l hl hlw hnt hnds hnrt
              by_contra hc
              have hc' : getWritten st' l = true := by
                cases hcl : getWritten st' l
                · exact absurd hcl hc
                · rfl
              have hS : getWritten (setWritten (drainQueue sess st3)
                  rootBid) l = true := by
                unfold getWritten at hc' ⊢
                rw [hFw] at hc'
                exact hc'
              rw [getWritten_setWritten] at hS
              simp only [Bool.or_eq_true, decide_eq_true_eq] at hS
              rcases hS with hS | rfl
              · have h3w : getWritten st3 l = true := hS
                have h2w : getWritten st2 l = true := by
                  unfold getWritten at h3w ⊢
                  rw [hwA] at h3w
                  exact h3w
                rcases subD l h2w with h1w | hmem
                · rcases subG l h1w with h0w | ⟨g, hg, ht⟩
                  · rw [h0w] at hlw
                    exact Bool.noConfusion hlw
                  · exact hnt g hg ht
                · exact hnds hmem
              · exact hnrt rfl
    · exact Option.noConfusion h


/-- C3 counterexample to the original wording: the root builder of `wEnv`
carries the link builder 2 as a direct child, `write_builder` succeeds, yet
builder 2 is never marked written and no `zarr_link` attribute appears at
the root — links attached directly to the root builder are skipped. -/
theorem c3_counterexample :
    writeBuilder wEnv wSess 1 wSt0 0 false false none true = some wStB ∧
    getWritten wStB 2 = false ∧
    attrAt wStB.root [] "zarr_link" = none ∧
    (∃ b sg ds ls, wEnv 0 = some b ∧ b.kind = .group sg ds ls ∧ 2 ∈ ls) := by
  refine ⟨?_, rfl, rfl, ⟨_, [3], [1], [2], rfl, rfl, by simp⟩⟩
  simp [writeBuilder, writeBuilderGroups, writeGroup, writeGroupList, wEnv,
    wSess, wSt0]
  rfl

theorem c3_write_builder_effects_witness :
    WFB wEnv 2 0 = true ∧
    (∃ b sg ds ls, wEnv 0 = some b ∧ b.kind = .group sg ds ls ∧
      (∀ g ∈ sg, DoneG wEnv wSess 1 wStB [] g) ∧
      (∀ d ∈ ds, getWritten wStB d = true) ∧
      (∀ k a, (k, a) ∈ b.attributes →
        ∃ v, attrAssignVal wEnv wSess 1 none a = some v ∧
          attrAt wStB.root [] k = some v) ∧
      wStB.queue = [] ∧
      getWritten wStB 0 = true ∧
      (true = true → wStB.consolidated = true) ∧
      (∀ l ∈ ls, getWritten wSt0 l = false →
        (∀ g ∈ sg, l ∉ touchedW wEnv 1 g) → l ∉ ds → l ≠ 0 →
        getWritten wStB l = false)) := by
  refine ⟨rfl, @c3_write_builder_effects wEnv wSess 1 wSt0 wStB 0 false false
    none true ?_ rfl⟩
  simp [writeBuilder, writeBuilderGroups, writeGroup, writeGroupList, wEnv,
    wSess, wSt0]
  rfl


/-! ### C8: missing `zarr_dtype` tag falls back to the storage dtype -/

theorem markWrittenR_warn (s : RState) (n : Nat) :
    (markWrittenR s n).warningsLog = s.warningsLog := by
  unfold markWrittenR
  split <;> rfl

theorem setBuilt_warn (s : RState) (k : String × List String)
    (b : RBuilder) : (setBuilt s k b).warningsLog = s.warningsLog := rfl

/-- Reading a reference-free attribute list succeeds and leaves the state
unchanged. -/
theorem readAttrList_pure {sess : Session} :
    ∀ (attrs : List (String × AVal)) (fuel : Nat) (st : RState),
      attrs.length < fuel →
      (∀ kv ∈ attrs, ∀ tag r, kv.2 ≠ AVal.refObj tag r) →
      ∃ out, readAttrList sess fuel st attrs = some (out, st) := by
  intro attrs
  induction attrs with
  | nil =>
    intro fuel st hf _
    cases fuel with
    | zero => simp at hf
    | succ f => exact ⟨[], rfl⟩
  | cons kv rest ih =>
    intro fuel st hf hno
    obtain ⟨k, v⟩ := kv
    cases fuel with
    | zero => simp at hf
    | succ f =>
      have hf' : rest.length < f := by
        simpa using Nat.lt_of_succ_lt_succ hf
      obtain ⟨out, hout⟩ := ih f st hf' (fun x hx => hno x (by simp [hx]))
      by_cases hres : k ∈ reservedAttrs
      · refine ⟨out, ?_⟩
        unfold readAttrList
        rw [if_pos hres]
        exact hout
      · refine ⟨(k, .v v) :: out, ?_⟩
        unfold readAttrList
        rw [if_neg hres]
        cases v with
        | refObj tag r =>
          exact absurd rfl (hno (k, .refObj tag r) (by simp) tag r)
        | s x => rw [hout]
        | i x => rw [hout]
        | b x => rw [hout]
        | tup x => rw [hout]
        | links x => rw [hout]
        | fields x => rw [hout]

/-- C8: a dataset node lacking the reserved `zarr_dtype` tag still reads
successfully — the dtype falls back to the underlying storage dtype and a
warning message is appended to the warning log instead of an error being
raised. -/
theorem c8_missing_dtype_tag_warns {sess : Session} {st : RState}
    {k : String × List String} {nm : Option String} {fuel : Nat}
    {aattrs : List (String × AVal)} {dt : String} {adata : ArrData}
    (hnode : nodeOfKey sess.files k = some (.array aattrs dt adata))
    (hmiss : lookupA aattrs "zarr_dtype" = none)
    (hcache : getBuilt st k = none)
    (hno : ∀ kv ∈ aattrs, ∀ tag r, kv.2 ≠ AVal.refObj tag r)
    (hfuel : aattrs.length < fuel) :
    ∃ b st', readDatasetK sess (fuel + 1) st k nm = some (b, st') ∧
      b.rdtype = some (RDtype.str dt) ∧
      st'.warningsLog = st.warningsLog ++
        ["Inferred dtype from zarr type. Dataset missing zarr_dtype: "
          ++ nm.getD (basenameKey k)] := by
  obtain ⟨out, hout⟩ := readAttrList_pure aattrs fuel
    { st with warningsLog := st.warningsLog ++
        ["Inferred dtype from zarr type. Dataset missing zarr_dtype: "
          ++ nm.getD (basenameKey k)] } hfuel hno
  unfold readDatasetK
  simp only [hcache, hnode, hmiss]
  rw [hout]
  refine ⟨_, _, rfl, rfl, ?_⟩
  rw [setBuilt_warn, markWrittenR_warn]

theorem c8_missing_dtype_tag_warns_witness :
    ∃ b st',
      readDatasetK wSessF 2 wRSt0 ("FILE", ["d"]) none = some (b, st') ∧
      b.rdtype = some (RDtype.str "int32") ∧
      st'.warningsLog = wRSt0.warningsLog ++
        ["Inferred dtype from zarr type. Dataset missing zarr_dtype: "
          ++ (none : Option String).getD (basenameKey ("FILE", ["d"]))] :=
  c8_missing_dtype_tag_warns (by rfl) (by rfl) (by rfl)
    (by intro kv hkv; simp at hkv) (by decide)


/-! ### C9: reserved bookkeeping keys never reach a builder -/

theorem lookupK_mem :
    ∀ {l : List ((String × List String) × RBuilder)}
      {k : String × List String} {b : RBuilder},
      lookupK l k = some b → (k, b) ∈ l := by
  intro l
  induction l with
  | nil => intro k b h; simp [lookupK] at h
  | cons e rest ih =>
    intro k b h
    obtain ⟨k2, b2⟩ := e
    simp only [lookupK] at h
    split at h
    · next heq =>
      obtain rfl := Option.some.inj h
      subst heq
      exact List.mem_cons_self _ _
    · exact List.mem_cons_of_mem _ (ih h)

theorem CS_setBuilt {st : RState} {k : String × List String} {b : RBuilder}
    (hs : CS st) (hb : CB b) : CS (setBuilt st k b) := by
  intro e he
  unfold setBuilt at he
  dsimp only [] at he
  split at he
  · exact hs e he
  · rcases List.mem_append.mp he with he | he
    · exact hs e he
    · obtain rfl := List.mem_singleton.mp he
      exact hb

theorem CS_markWrittenR {st : RState} {n : Nat} (hs : CS st) :
    CS (markWrittenR st n) := by
  intro e he
  unfold markWrittenR at he
  split at he
  · exact hs e he
  · exact hs e he

/-- The read engine never lets a reserved key (`zarr_dtype`/`zarr_link`)
into a builder's attribute dict, and keeps the cache clean. -/
theorem readClean {sess : Session} : ∀ fuel : Nat,
    (∀ st k nm b st', CS st →
      readGroupK sess fuel st k nm = some (b, st') → CB b ∧ CS st') ∧
    (∀ st k nm b st', CS st →
      readDatasetK sess fuel st k nm = some (b, st') → CB b ∧ CS st') ∧
    (∀ st attrs out st', CS st →
      readAttrList sess fuel st attrs = some (out, st') →
      CA out ∧ CS st') ∧
    (∀ st k ns bs st', CS st →
      readGroupChildren sess fuel st k ns = some (bs, st') →
      (∀ b ∈ bs, CB b) ∧ CS st') ∧
    (∀ st k ns bs st', CS st →
      readArrayChildren sess fuel st k ns = some (bs, st') →
      (∀ b ∈ bs, CB b) ∧ CS st') ∧
    (∀ st es lloc ls st', CS st →
      readLinkList sess fuel st es lloc = some (ls, st') → CS st') := by
  intro fuel
  induction fuel with
  | zero =>
    refine ⟨?_, ?_, ?_, ?_, ?_, ?_⟩
    · intro st k nm b st' _ h; simp [readGroupK] at h
    · intro st k nm b st' _ h; simp [readDatasetK] at h
    · intro st attrs out st' _ h; simp [readAttrList] at h
    · intro st k ns bs st' _ h; simp [readGroupChildren] at h
    · intro st k ns bs st' _ h; simp [readArrayChildren] at h
    · intro st es lloc ls st' _ h; simp [readLinkList] at h
  | succ f ih =>
    obtain ⟨ihG, ihD, ihA, ihGC, ihAC, ihL⟩ := ih
    refine ⟨?_, ?_, ?_, ?_, ?_, ?_⟩
    · -- readGroupK
      intro st k nm b st' hcs h
      unfold readGroupK at h
      split at h
      · next b0 hb0 =>
        simp only [Option.some_inj, Prod.mk.injEq] at h
        obtain ⟨rfl, rfl⟩ := h
        exact ⟨hcs _ (lookupK_mem hb0), hcs⟩
      · split at h
        · exact Option.noConfusion h
        · exact Option.noConfusion h
        · next gattrs ch hnode =>
          split at h
          · exact Option.noConfusion h
          · next rattrs st1 ha =>
            split at h
            · exact Option.noConfusion h
            · next subs st2 hgc =>
              split at h
              · exact Option.noConfusion h
              · next dsets st3 hac =>
                split at h
                · exact Option.noConfusion h
                · next lnks st4 hll =>
                  dsimp only [] at h
                  simp only [Option.some_inj, Prod.mk.injEq] at h
                  obtain ⟨rfl, rfl⟩ := h
                  obtain ⟨hca, hcs1⟩ := ihA st gattrs rattrs st1 hcs ha
                  obtain ⟨_, hcs2⟩ :=
                    ihGC st1 k (groupsOf ch) subs st2 hcs1 hgc
                  obtain ⟨_, hcs3⟩ :=
                    ihAC st2 k (arraysOf ch) dsets st3 hcs2 hac
                  have hcs4 :=
                    ihL st3 (linkEntriesOf gattrs)
                      (joinPath (parentLoc k) (nm.getD (basenameKey k)))
                      lnks st4 hcs3 hll
                  have hcs5 : CS { st4 with counter := st4.counter + 1 } :=
                    fun e he => hcs4 e he
                  exact ⟨hca, CS_setBuilt (CS_markWrittenR hcs5) hca⟩
    · -- readDatasetK
      intro st k nm b st' hcs h
      unfold readDatasetK at h
      split at h
      · next b0 hb0 =>
        simp only [Option.some_inj, Prod.mk.injEq] at h
        obtain ⟨rfl, rfl⟩ := h
        exact ⟨hcs _ (lookupK_mem hb0), hcs⟩
      · split at h
        · exact Option.noConfusion h
        · exact Option.noConfusion h
        · next aattrs dt adata hnode =>
          split at h
          · exact Option.noConfusion h
          · next zdt st0 hzdt =>
            have hcs0 : CS st0 := by
              split at hzdt
              · next v hv =>
                cases hav : avalToRDtype v with
                | none => rw [hav] at hzdt; exact Option.noConfusion hzdt
                | some d =>
                  rw [hav] at hzdt
                  simp only [Option.map_some', Option.some_inj,
                    Prod.mk.injEq] at hzdt
                  obtain ⟨rfl, rfl⟩ := hzdt
                  exact hcs
              · simp only [Option.some_inj, Prod.mk.injEq] at hzdt
                obtain ⟨rfl, rfl⟩ := hzdt
                exact fun e he => hcs e he
            split at h
            · exact Option.noConfusion h
            · next rattrs st1 ha =>
              dsimp only [] at h
              simp only [Option.some_inj, Prod.mk.injEq] at h
              obtain ⟨rfl, rfl⟩ := h
              obtain ⟨hca, hcs1⟩ := ihA st0 aattrs rattrs st1 hcs0 ha
              have hcs2 : CS { st1 with counter := st1.counter + 1 } :=
                fun e he => hcs1 e he
              exact ⟨hca, CS_setBuilt (CS_markWrittenR hcs2) hca⟩
    · -- readAttrList
      intro st attrs out st' hcs h
      cases attrs with
      | nil =>
        unfold readAttrList at h
        simp only [Option.some_inj, Prod.mk.injEq] at h
        obtain ⟨rfl, rfl⟩ := h
        exact ⟨fun kv hkv => absurd hkv (List.not_mem_nil kv), hcs⟩
      | cons kv rest =>
        obtain ⟨k, v⟩ := kv
        unfold readAttrList at h
        split at h
        · next hres =>
          obtain ⟨hout, hcs'⟩ := ihA st rest out st' hcs h
          exact ⟨hout, hcs'⟩
        · next hres =>
          split at h
          · next tag r =>
            split at h
            · next htag =>
              split at h
              · exact Option.noConfusion h
              · next tname sf tpath hres2 =>
                split at h
                · exact Option.noConfusion h
                · next node hnode =>
                  split at h
                  · exact Option.noConfusion h
                  · next tb st1 htb =>
                    split at h
                    · exact Option.noConfusion h
                    · next restR st2 hrest =>
                      simp only [Option.some_inj, Prod.mk.injEq] at h
                      obtain ⟨rfl, rfl⟩ := h
                      have hcs1 : CS st1 := by
                        cases node with
                        | group a c =>
                          exact (ihG st (sf, tpath) (some tname) tb st1 hcs
                            htb).2
                        | array a d dd =>
                          exact (ihD st (sf, tpath) (some tname) tb st1 hcs
                            htb).2
                      obtain ⟨hcr, hcs2⟩ :=
                        ihA st1 rest restR st2 hcs1 hrest
                      refine ⟨?_, hcs2⟩
                      intro kv2 hkv2
                      rcases List.mem_cons.mp hkv2 with rfl | hm
                      · exact hres
                      · exact hcr kv2 hm
            · exact Option.noConfusion h
          · next hneq =>
            split at h
            · exact Option.noConfusion h
            · next restR st2 hrest =>
              simp only [Option.some_inj, Prod.mk.injEq] at h
              obtain ⟨rfl, rfl⟩ := h
              obtain ⟨hcr, hcs2⟩ := ihA st rest restR st2 hcs hrest
              refine ⟨?_, hcs2⟩
              intro kv2 hkv2
              rcases List.mem_cons.mp hkv2 with rfl | hm
              · exact hres
              · exact hcr kv2 hm
    · -- readGroupChildren
      intro st k ns bs st' hcs h
      cases ns with
      | nil =>
        unfold readGroupChildren at h
        simp only [Option.some_inj, Prod.mk.injEq] at h
        obtain ⟨rfl, rfl⟩ := h
        exact ⟨fun b hb => absurd hb (List.not_mem_nil b), hcs⟩
      | cons n rest =>
        unfold readGroupChildren at h
        split at h
        · exact Option.noConfusion h
        · next b1 st1 hb1 =>
          split at h
          · exact Option.noConfusion h
          · next bs1 st2 hbs1 =>
            simp only [Option.some_inj, Prod.mk.injEq] at h
            obtain ⟨rfl, rfl⟩ := h
            obtain ⟨hcb1, hcs1⟩ :=
              ihG st (childKey k n) (some n) b1 st1 hcs hb1
            obtain ⟨hcbs, hcs2⟩ := ihGC st1 k rest bs1 st2 hcs1 hbs1
            refine ⟨?_, hcs2⟩
            intro b2 hb2
            rcases List.mem_cons.mp hb2 with rfl | hm
            · exact hcb1
            · exact hcbs b2 hm
    · -- readArrayChildren
      intro st k ns bs st' hcs h
      cases ns with
      | nil =>
        unfold readArrayChildren at h
        simp only [Option.some_inj, Prod.mk.injEq] at h
        obtain ⟨rfl, rfl⟩ := h
        exact ⟨fun b hb => absurd hb (List.not_mem_nil b), hcs⟩
      | cons n rest =>
        unfold readArrayChildren at h
        split at h
        · exact Option.noConfusion h
        · next b1 st1 hb1 =>
          split at h
          · exact Option.noConfusion h
          · next bs1 st2 hbs1 =>
            simp only [Option.some_inj, Prod.mk.injEq] at h
            obtain ⟨rfl, rfl⟩ := h
            obtain ⟨hcb1, hcs1⟩ :=
              ihD st (childKey k n) (some n) b1 st1 hcs hb1
            obtain ⟨hcbs, hcs2⟩ := ihAC st1 k rest bs1 st2 hcs1 hbs1
            refine ⟨?_, hcs2⟩
            intro b2 hb2
            rcases List.mem_cons.mp hb2 with rfl | hm
            · exact hcb1
            · exact hcbs b2 hm
    · -- readLinkList
      intro st es lloc ls st' hcs h
      cases es with
      | nil =>
        unfold readLinkList at h
        simp only [Option.some_inj, Prod.mk.injEq] at h
        obtain ⟨rfl, rfl⟩ := h
        exact hcs
      | cons e rest =>
        unfold readLinkList at h
        split at h
        · exact Option.noConfusion h
        · next tname sf tpath hres2 =>
          split at h
          · exact Option.noConfusion h
          · next node hnode =>
            split at h
            · exact Option.noConfusion h
            · next tb st1 htb =>
              split at h
              · exact Option.noConfusion h
              · next restL st3 hrest =>
                simp only [Option.some_inj, Prod.mk.injEq] at h
                obtain ⟨rfl, rfl⟩ := h
                have hcs1 : CS st1 := by
                  cases node with
                  | group a c =>
                    exact (ihG st (sf, tpath) (some tname) tb st1 hcs htb).2
                  | array a d dd =>
                    exact (ihD st (sf, tpath) (some tname) tb st1 hcs htb).2
                have hcs2 : CS (markWrittenR
                    { st1 with counter := st1.counter + 1 } st1.counter) :=
                  CS_markWrittenR (fun e2 he2 => hcs1 e2 he2)
                exact ihL (markWrittenR
                  { st1 with counter := st1.counter + 1 } st1.counter)
                  rest lloc restL st3 hcs2 hrest


/-! ### C2: the built cache yields one builder per store node -/

theorem linkTargets_eq (sess : Session) (a : List (String × AVal)) :
    linkTargets sess a = entryTargets sess (linkEntriesOf a) := rfl

theorem self_mem_reachableL (sess : Session) (fuel : Nat)
    (k : String × List String) : k ∈ reachableL sess fuel k := by
  cases fuel <;> simp [reachableL]

theorem reachable_mono (sess : Session) :
    ∀ (fuel : Nat) (k : String × List String),
      reachableL sess fuel k ⊆ reachableL sess (fuel + 1) k := by
  intro fuel
  induction fuel with
  | zero =>
    intro k x hx
    simp only [reachableL, List.mem_singleton] at hx
    subst hx
    exact self_mem_reachableL sess 1 x
  | succ f ih =>
    intro k x hx
    simp only [reachableL, List.mem_cons, List.mem_flatMap] at hx
    have he : reachableL sess (f + 1 + 1) k =
        k :: (succs sess k).flatMap (reachableL sess (f + 1)) := rfl
    rw [he, List.mem_cons, List.mem_flatMap]
    rcases hx with rfl | ⟨t, ht, hxt⟩
    · exact Or.inl rfl
    · exact Or.inr ⟨t, ht, ih t hxt⟩

theorem lookupK_none_append {l : List ((String × List String) × RBuilder)}
    {k : String × List String} {b : RBuilder} (h : lookupK l k = none) :
    lookupK (l ++ [(k, b)]) k = some b := by
  induction l with
  | nil => simp [lookupK]
  | cons e rest ih =>
    obtain ⟨k2, b2⟩ := e
    simp only [lookupK] at h
    split at h
    · exact Option.noConfusion h
    · next hne =>
      show (if k2 = k then some b2 else lookupK (rest ++ [(k, b)]) k) =
        some b
      rw [if_neg hne]
      exact ih h

theorem lookupK_append_isSome
    {l1 l2 : List ((String × List String) × RBuilder)}
    {k : String × List String}
    (h : (lookupK (l1 ++ l2) k).isSome = true) :
    (lookupK l1 k).isSome = true ∨ (lookupK l2 k).isSome = true := by
  induction l1 with
  | nil => exact Or.inr h
  | cons e rest ih =>
    obtain ⟨k2, b2⟩ := e
    rw [List.cons_append] at h
    simp only [lookupK] at h ⊢
    split at h
    · next heq =>
      left
      rw [if_pos heq]
      simp
    · next hne =>
      rcases ih h with h | h
      · left
        rw [if_neg hne]
        exact h
      · exact Or.inr h

theorem setBuilt_isSome {st : RState} {k k2 : String × List String}
    {b : RBuilder}
    (h : (lookupK (setBuilt st k b).built k2).isSome = true) :
    (lookupK st.built k2).isSome = true ∨ k2 = k := by
  unfold setBuilt at h
  dsimp only [] at h
  split at h
  · exact Or.inl h
  · rcases lookupK_append_isSome h with h | h
    · exact Or.inl h
    · right
      simp only [lookupK] at h
      by_cases he : k = k2
      · exact he.symm
      · rw [if_neg he] at h
        simp [lookupK] at h

theorem markWrittenR_built (s : RState) (n : Nat) :
    (markWrittenR s n).built = s.built := by
  unfold markWrittenR
  split <;> rfl


theorem succs_of_group {sess : Session} {k : String × List String}
    {a : List (String × AVal)} {ch : List (String × ZNode)}
    (h : nodeOfKey sess.files k = some (.group a ch)) :
    succs sess k = (ch.map (fun c => (k.1, k.2 ++ [c.1]))) ++
      attrRefTargets sess a ++ linkTargets sess a := by
  unfold succs
  rw [h]

theorem succs_of_array {sess : Session} {k : String × List String}
    {a : List (String × AVal)} {d : String} {dd : ArrData}
    (h : nodeOfKey sess.files k = some (.array a d dd)) :
    succs sess k = attrRefTargets sess a := by
  unfold succs
  rw [h]

theorem childKey_mem_succs_g {sess : Session} {k : String × List String}
    {a : List (String × AVal)} {ch : List (String × ZNode)} {n : String}
    (hnode : nodeOfKey sess.files k = some (.group a ch))
    (h : n ∈ groupsOf ch) : childKey k n ∈ succs sess k := by
  rw [succs_of_group hnode]
  obtain ⟨c, hc, rfl⟩ := List.mem_map.mp h
  refine List.mem_append_left _ (List.mem_append_left _ ?_)
  exact List.mem_map_of_mem _ (List.mem_of_mem_filter hc)

theorem childKey_mem_succs_a {sess : Session} {k : String × List String}
    {a : List (String × AVal)} {ch : List (String × ZNode)} {n : String}
    (hnode : nodeOfKey sess.files k = some (.group a ch))
    (h : n ∈ arraysOf ch) : childKey k n ∈ succs sess k := by
  rw [succs_of_group hnode]
  obtain ⟨c, hc, rfl⟩ := List.mem_map.mp h
  refine List.mem_append_left _ (List.mem_append_left _ ?_)
  exact List.mem_map_of_mem _ (List.mem_of_mem_filter hc)

theorem attrRefTargets_cons_sub {sess : Session} {kv : String × AVal}
    {rest : List (String × AVal)} {t : String × List String}
    (h : t ∈ attrRefTargets sess rest) :
    t ∈ attrRefTargets sess (kv :: rest) := by
  obtain ⟨kv2, hm, he⟩ := List.mem_filterMap.mp h
  exact List.mem_filterMap.mpr ⟨kv2, List.mem_cons_of_mem _ hm, he⟩

theorem entryTargets_cons_sub {sess : Session} {e : LinkEntry}
    {rest : List LinkEntry} {t : String × List String}
    (h : t ∈ entryTargets sess rest) :
    t ∈ entryTargets sess (e :: rest) := by
  obtain ⟨e2, hm, he⟩ := List.mem_filterMap.mp h
  exact List.mem_filterMap.mpr ⟨e2, List.mem_cons_of_mem _ hm, he⟩

/-- Every cache key inserted by a read is reachable from the read's root
key (or was already cached). -/
theorem readInserts {sess : Session} : ∀ fuel : Nat,
    (∀ st k nm b st', readGroupK sess fuel st k nm = some (b, st') →
      ∀ k2, (lookupK st'.built k2).isSome = true →
        (lookupK st.built k2).isSome = true ∨
          k2 ∈ reachableL sess fuel k) ∧
    (∀ st k nm b st', readDatasetK sess fuel st k nm = some (b, st') →
      ∀ k2, (lookupK st'.built k2).isSome = true →
        (lookupK st.built k2).isSome = true ∨
          k2 ∈ reachableL sess fuel k) ∧
    (∀ st attrs out st', readAttrList sess fuel st attrs = some (out, st') →
      ∀ k2, (lookupK st'.built k2).isSome = true →
        (lookupK st.built k2).isSome = true ∨
          ∃ t ∈ attrRefTargets sess attrs, k2 ∈ reachableL sess fuel t) ∧
    (∀ st k ns bs st', readGroupChildren sess fuel st k ns =
        some (bs, st') →
      ∀ k2, (lookupK st'.built k2).isSome = true →
        (lookupK st.built k2).isSome = true ∨
          ∃ n ∈ ns, k2 ∈ reachableL sess fuel (childKey k n)) ∧
    (∀ st k ns bs st', readArrayChildren sess fuel st k ns =
        some (bs, st') →
      ∀ k2, (lookupK st'.built k2).isSome = true →
        (lookupK st.built k2).isSome = true ∨
          ∃ n ∈ ns, k2 ∈ reachableL sess fuel (childKey k n)) ∧
    (∀ st es lloc ls st', readLinkList sess fuel st es lloc =
        some (ls, st') →
      ∀ k2, (lookupK st'.built k2).isSome = true →
        (lookupK st.built k2).isSome = true ∨
          ∃ t ∈ entryTargets sess es, k2 ∈ reachableL sess fuel t) := by
  intro fuel
  induction fuel with
  | zero =>
    refine ⟨?_, ?_, ?_, ?_, ?_, ?_⟩
    · intro st k nm b st' h; simp [readGroupK] at h
    · intro st k nm b st' h; simp [readDatasetK] at h
    · intro st attrs out st' h; simp [readAttrList] at h
    · intro st k ns bs st' h; simp [readGroupChildren] at h
    · intro st k ns bs st' h; simp [readArrayChildren] at h
    · intro st es lloc ls st' h; simp [readLinkList] at h
  | succ f ih =>
    obtain ⟨ihG, ihD, ihA, ihGC, ihAC, ihL⟩ := ih
    refine ⟨?_, ?_, ?_, ?_, ?_, ?_⟩
    · -- readGroupK
      intro st k nm b st' h k2 h2
      unfold readGroupK at h
      split at h
      · next b0 hb0 =>
        simp only [Option.some_inj, Prod.mk.injEq] at h
        obtain ⟨rfl, rfl⟩ := h
        exact Or.inl h2
      · split at h
        · exact Option.noConfusion h
        · exact Option.noConfusion h
        · next gattrs ch hnode =>
          split at h
          · exact Option.noConfusion h
          · next rattrs st1 ha =>
            split at h
            · exact Option.noConfusion h
            · next subs st2 hgc =>
              split at h
              · exact Option.noConfusion h
              · next dsets st3 hac =>
                split at h
                · exact Option.noConfusion h
                · next lnks st4 hll =>
                  dsimp only [] at h
                  simp only [Option.some_inj, Prod.mk.injEq] at h
                  obtain ⟨rfl, rfl⟩ := h
                  have hstep : ∀ t ∈ succs sess k,
                      k2 ∈ reachableL sess f t →
                      k2 ∈ reachableL sess (f + 1) k := by
                    intro t ht hr
                    have he : reachableL sess (f + 1) k =
                        k :: (succs sess k).flatMap (reachableL sess f) :=
                      rfl
                    rw [he, List.mem_cons, List.mem_flatMap]
                    exact Or.inr ⟨t, ht, hr⟩
                  rcases setBuilt_isSome h2 with h2 | rfl
                  · rw [markWrittenR_built] at h2
                    have h2 : (lookupK st4.built k2).isSome = true := h2
                    rcases ihL st3 (linkEntriesOf gattrs) _ lnks st4 hll k2
                        h2 with h2 | ⟨t, ht, hr⟩
                    · rcases ihAC st2 k (arraysOf ch) dsets st3 hac k2
                          h2 with h2 | ⟨n, hn, hr⟩
                      · rcases ihGC st1 k (groupsOf ch) subs st2 hgc k2
                            h2 with h2 | ⟨n, hn, hr⟩
                        · rcases ihA st gattrs rattrs st1 ha k2 h2 with
                            h2 | ⟨t, ht, hr⟩
                          · exact Or.inl h2
                          · refine Or.inr (hstep t ?_ hr)
                            rw [succs_of_group hnode]
                            exact List.mem_append_left _
                              (List.mem_append_right _ ht)
                        · exact Or.inr
                            (hstep _ (childKey_mem_succs_g hnode hn) hr)
                      · exact Or.inr
                          (hstep _ (childKey_mem_succs_a hnode hn) hr)
                    · refine Or.inr (hstep t ?_ hr)
                      rw [succs_of_group hnode, linkTargets_eq]
                      exact List.mem_append_right _ ht
                  · exact Or.inr (self_mem_reachableL sess (f + 1) k2)
    · -- readDatasetK
      intro st k nm b st' h k2 h2
      unfold readDatasetK at h
      split at h
      · next b0 hb0 =>
        simp only [Option.some_inj, Prod.mk.injEq] at h
        obtain ⟨rfl, rfl⟩ := h
        exact Or.inl h2
      · split at h
        · exact Option.noConfusion h
        · exact Option.noConfusion h
        · next aattrs dt adata hnode =>
          split at h
          · exact Option.noConfusion h
          · next zdt st0 hzdt =>
            have hb0 : st0.built = st.built := by
              split at hzdt
              · next v hv =>
                cases hav : avalToRDtype v with
                | none => rw [hav] at hzdt; exact Option.noConfusion hzdt
                | some d =>
                  rw [hav] at hzdt
                  simp only [Option.map_some', Option.some_inj,
                    Prod.mk.injEq] at hzdt
                  obtain ⟨rfl, rfl⟩ := hzdt
                  rfl
              · simp only [Option.some_inj, Prod.mk.injEq] at hzdt
                obtain ⟨rfl, rfl⟩ := hzdt
                rfl
            split at h
            · exact Option.noConfusion h
            · next rattrs st1 ha =>
              dsimp only [] at h
              simp only [Option.some_inj, Prod.mk.injEq] at h
              obtain ⟨rfl, rfl⟩ := h
              rcases setBuilt_isSome h2 with h2 | rfl
              · rw [markWrittenR_built] at h2
                have h2 : (lookupK st1.built k2).isSome = true := h2
                rcases ihA st0 aattrs rattrs st1 ha k2 h2 with
                  h2 | ⟨t, ht, hr⟩
                · rw [hb0] at h2
                  exact Or.inl h2
                · refine Or.inr ?_
                  have he : reachableL sess (f + 1) k =
                      k :: (succs sess k).flatMap (reachableL sess f) := rfl
                  rw [he, List.mem_cons, List.mem_flatMap]
                  refine Or.inr ⟨t, ?_, hr⟩
                  rw [succs_of_array hnode]
                  exact ht
              · exact Or.inr (self_mem_reachableL sess (f + 1) k2)
    · -- readAttrList
      intro st attrs out st' h k2 h2
      cases attrs with
      | nil =>
        unfold readAttrList at h
        simp only [Option.some_inj, Prod.mk.injEq] at h
        obtain ⟨rfl, rfl⟩ := h
        exact Or.inl h2
      | cons kv rest =>
        obtain ⟨k1, v⟩ := kv
        unfold readAttrList at h
        split at h
        · next hres =>
          rcases ihA st rest out st' h k2 h2 with h2 | ⟨t, ht, hr⟩
          · exact Or.inl h2
          · exact Or.inr ⟨t, attrRefTargets_cons_sub ht,
              reachable_mono sess f t hr⟩
        · next hres =>
          split at h
          · next tag r =>
            split at h
            · next htag =>
              split at h
              · exact Option.noConfusion h
              · next tname sf tpath hres2 =>
                split at h
                · exact Option.noConfusion h
                · next node hnode =>
                  split at h
                  · exact Option.noConfusion h
                  · next tb st1 htb =>
                    split at h
                    · exact Option.noConfusion h
                    · next restR st2 hrest =>
                      simp only [Option.some_inj, Prod.mk.injEq] at h
                      obtain ⟨rfl, rfl⟩ := h
                      have hmem : (sf, tpath) ∈
                          attrRefTargets sess ((k1, .refObj tag r) :: rest)
                          := by
                        refine List.mem_filterMap.mpr
                          ⟨(k1, .refObj tag r), List.mem_cons_self _ _, ?_⟩
                        simp [hres2]
                      rcases ihA st1 rest restR st2 hrest k2 h2 with
                        h2 | ⟨t, ht, hr⟩
                      · have h1 : (lookupK st1.built k2).isSome = true := h2
                        have hT : (lookupK st.built k2).isSome = true ∨
                            k2 ∈ reachableL sess f (sf, tpath) := by
                          cases node with
                          | group a c =>
                            exact ihG st (sf, tpath) (some tname) tb st1
                              htb k2 h1
                          | array a d dd =>
                            exact ihD st (sf, tpath) (some tname) tb st1
                              htb k2 h1
                        rcases hT with hT | hT
                        · exact Or.inl hT
                        · exact Or.inr ⟨(sf, tpath), hmem,
                            reachable_mono sess f _ hT⟩
                      · exact Or.inr ⟨t, attrRefTargets_cons_sub ht,
                          reachable_mono sess f t hr⟩
            · exact Option.noConfusion h
          · next hneq =>
            split at h
            · exact Option.noConfusion h
            · next restR st2 hrest =>
              simp only [Option.some_inj, Prod.mk.injEq] at h
              obtain ⟨rfl, rfl⟩ := h
              rcases ihA st rest restR st2 hrest k2 h2 with
                h2 | ⟨t, ht, hr⟩
              · exact Or.inl h2
              · exact Or.inr ⟨t, attrRefTargets_cons_sub ht,
                  reachable_mono sess f t hr⟩
    · -- readGroupChildren
      intro st k ns bs st' h k2 h2
      cases ns with
      | nil =>
        unfold readGroupChildren at h
        simp only [Option.some_inj, Prod.mk.injEq] at h
        obtain ⟨rfl, rfl⟩ := h
        exact Or.inl h2
      | cons n rest =>
        unfold readGroupChildren at h
        split at h
        · exact Option.noConfusion h
        · next b1 st1 hb1 =>
          split at h
          · exact Option.noConfusion h
          · next bs1 st2 hbs1 =>
            simp only [Option.some_inj, Prod.mk.injEq] at h
            obtain ⟨rfl, rfl⟩ := h
            rcases ihGC st1 k rest bs1 st2 hbs1 k2 h2 with h2 | ⟨n2, hn2, hr⟩
            · rcases ihG st (childKey k n) (some n) b1 st1 hb1 k2 h2 with
                h2 | hr
              · exact Or.inl h2
              · exact Or.inr ⟨n, List.mem_cons_self _ _,
                  reachable_mono sess f _ hr⟩
            · exact Or.inr ⟨n2, List.mem_cons_of_mem _ hn2,
                reachable_mono sess f _ hr⟩
    · -- readArrayChildren
      intro st k ns bs st' h k2 h2
      cases ns with
      | nil =>
        unfold readArrayChildren at h
        simp only [Option.some_inj, Prod.mk.injEq] at h
        obtain ⟨rfl, rfl⟩ := h
        exact Or.inl h2
      | cons n rest =>
        unfold readArrayChildren at h
        split at h
        · exact Option.noConfusion h
        · next b1 st1 hb1 =>
          split at h
          · exact Option.noConfusion h
          · next bs1 st2 hbs1 =>
            simp only [Option.some_inj, Prod.mk.injEq] at h
            obtain ⟨rfl, rfl⟩ := h
            rcases ihAC st1 k rest bs1 st2 hbs1 k2 h2 with h2 | ⟨n2, hn2, hr⟩
            · rcases ihD st (childKey k n) (some n) b1 st1 hb1 k2 h2 with
                h2 | hr
              · exact Or.inl h2
              · exact Or.inr ⟨n, List.mem_cons_self _ _,
                  reachable_mono sess f _ hr⟩
            · exact Or.inr ⟨n2, List.mem_cons_of_mem _ hn2,
                reachable_mono sess f _ hr⟩
    · -- readLinkList
      intro st es lloc ls st' h k2 h2
      cases es with
      | nil =>
        unfold readLinkList at h
        simp only [Option.some_inj, Prod.mk.injEq] at h
        obtain ⟨rfl, rfl⟩ := h
        exact Or.inl h2
      | cons e rest =>
        unfold readLinkList at h
        split at h
        · exact Option.noConfusion h
        · next tname sf tpath hres2 =>
          split at h
          · exact Option.noConfusion h
          · next node hnode =>
            split at h
            · exact Option.noConfusion h
            · next tb st1 htb =>
              split at h
              · exact Option.noConfusion h
              · next restL st3 hrest =>
                simp only [Option.some_inj, Prod.mk.injEq] at h
                obtain ⟨rfl, rfl⟩ := h
                have hmem : (sf, tpath) ∈ entryTargets sess (e :: rest) := by
                  refine List.mem_filterMap.mpr
                    ⟨e, List.mem_cons_self _ _, ?_⟩
                  simp [hres2]
                rcases ihL (markWrittenR
                    { st1 with counter := st1.counter + 1 } st1.counter)
                    rest lloc restL st3 hrest k2 h2 with h2 | ⟨t, ht, hr⟩
                · rw [markWrittenR_built] at h2
                  have h1 : (lookupK st1.built k2).isSome = true := h2
                  have hT : (lookupK st.built k2).isSome = true ∨
                      k2 ∈ reachableL sess f (sf, tpath) := by
                    cases node with
                    | group a c =>
                      exact ihG st (sf, tpath) (some tname) tb st1 htb k2 h1
                    | array a d dd =>
                      exact ihD st (sf, tpath) (some tname) tb st1 htb k2 h1
                  rcases hT with hT | hT
                  · exact Or.inl hT
                  · exact Or.inr ⟨(sf, tpath), hmem,
                      reachable_mono sess f _ hT⟩
                · exact Or.inr ⟨t, entryTargets_cons_sub ht,
                    reachable_mono sess f t hr⟩


theorem readGroupK_hit {sess : Session} {fuel : Nat} {st : RState}
    {k : String × List String} {nm : Option String} {b : RBuilder}
    (h : getBuilt st k = some b) :
    readGroupK sess (fuel + 1) st k nm = some (b, st) := by
  unfold readGroupK
  rw [h]

theorem readDatasetK_hit {sess : Session} {fuel : Nat} {st : RState}
    {k : String × List String} {nm : Option String} {b : RBuilder}
    (h : getBuilt st k = some b) :
    readDatasetK sess (fuel + 1) st k nm = some (b, st) := by
  unfold readDatasetK
  rw [h]

/-- A cache-missing group read registers the very builder it returns. -/
theorem readGroupK_registers {sess : Session} {fuel : Nat} {st : RState}
    {k : String × List String} {nm : Option String} {b : RBuilder}
    {st' : RState}
    (hmiss : getBuilt st k = none)
    (hacyc : k ∉ (succs sess k).flatMap (reachableL sess fuel))
    (h : readGroupK sess (fuel + 1) st k nm = some (b, st')) :
    getBuilt st' k = some b := by
  have hnone : lookupK st.built k = none := hmiss
  unfold readGroupK at h
  split at h
  · next b0 hb0 =>
    rw [hmiss] at hb0
    exact Option.noConfusion hb0
  · split at h
    · exact Option.noConfusion h
    · exact Option.noConfusion h
    · next gattrs ch hnode =>
      split at h
      · exact Option.noConfusion h
      · next rattrs st1 ha =>
        split at h
        · exact Option.noConfusion h
        · next subs st2 hgc =>
          split at h
          · exact Option.noConfusion h
          · next dsets st3 hac =>
            split at h
            · exact Option.noConfusion h
            · next lnks st4 hll =>
              dsimp only [] at h
              simp only [Option.some_inj, Prod.mk.injEq] at h
              obtain ⟨rfl, rfl⟩ := h
              have hflat : ∀ t ∈ succs sess k,
                  k ∈ reachableL sess fuel t → False := by
                intro t ht hr
                exact hacyc (List.mem_flatMap.mpr ⟨t, ht, hr⟩)
              have hni : ¬ (lookupK st4.built k).isSome = true := by
                intro hins
                rcases (readInserts fuel).2.2.2.2.2 st3
                    (linkEntriesOf gattrs) _ lnks st4 hll k hins with
                  hc | ⟨t, ht, hr⟩
                · rcases (readInserts fuel).2.2.2.2.1 st2 k (arraysOf ch)
                      dsets st3 hac k hc with hc | ⟨n, hn, hr⟩
                  · rcases (readInserts fuel).2.2.2.1 st1 k (groupsOf ch)
                        subs st2 hgc k hc with hc | ⟨n, hn, hr⟩
                    · rcases (readInserts fuel).2.2.1 st gattrs rattrs st1
                          ha k hc with hc | ⟨t, ht, hr⟩
                      · rw [hnone] at hc
                        simp at hc
                      · refine hflat t ?_ hr
                        rw [succs_of_group hnode]
                        exact List.mem_append_left _
                          (List.mem_append_right _ ht)
                    · exact hflat _ (childKey_mem_succs_g hnode hn) hr
                  · exact hflat _ (childKey_mem_succs_a hnode hn) hr
                · refine hflat t ?_ hr
                  rw [succs_of_group hnode, linkTargets_eq]
                  exact List.mem_append_right _ ht
              have hn4 : lookupK st4.built k = none := by
                cases hx : lookupK st4.built k with
                | none => rfl
                | some y => rw [hx] at hni; simp at hni
              show lookupK (setBuilt (markWrittenR
                { st4 with counter := st4.counter + 1 } st4.counter) k
                _).built k = _
              unfold setBuilt
              dsimp only []
              rw [markWrittenR_built]
              have hn4' : (lookupK st4.built k).isSome = false := by
                rw [hn4]
                rfl
              rw [if_neg (by rw [hn4']; exact Bool.false_ne_true)]
              exact lookupK_none_append hn4

/-- A cache-missing dataset read registers the very builder it returns. -/
theorem readDatasetK_registers {sess : Session} {fuel : Nat} {st : RState}
    {k : String × List String} {nm : Option String} {b : RBuilder}
    {st' : RState}
    (hmiss : getBuilt st k = none)
    (hacyc : k ∉ (succs sess k).flatMap (reachableL sess fuel))
    (h : readDatasetK sess (fuel + 1) st k nm = some (b, st')) :
    getBuilt st' k = some b := by
  have hnone : lookupK st.built k = none := hmiss
  unfold readDatasetK at h
  split at h
  · next b0 hb0 =>
    rw [hmiss] at hb0
    exact Option.noConfusion hb0
  · split at h
    · exact Option.noConfusion h
    · exact Option.noConfusion h
    · next aattrs dt adata hnode =>
      split at h
      · exact Option.noConfusion h
      · next zdt st0 hzdt =>
        have hb0 : st0.built = st.built := by
          split at hzdt
          · next v hv =>
            cases hav : avalToRDtype v with
            | none => rw [hav] at hzdt; exact Option.noConfusion hzdt
            | some d =>
              rw [hav] at hzdt
              simp only [Option.map_some', Option.some_inj,
                Prod.mk.injEq] at hzdt
              obtain ⟨rfl, rfl⟩ := hzdt
              rfl
          · simp only [Option.some_inj, Prod.mk.injEq] at hzdt
            obtain ⟨rfl, rfl⟩ := hzdt
            rfl
        split at h
        · exact Option.noConfusion h
        · next rattrs st1 ha =>
          dsimp only [] at h
          simp only [Option.some_inj, Prod.mk.injEq] at h
          obtain ⟨rfl, rfl⟩ := h
          have hni : ¬ (lookupK st1.built k).isSome = true := by
            intro hins
            rcases (readInserts fuel).2.2.1 st0 aattrs rattrs st1 ha k
                hins with hc | ⟨t, ht, hr⟩
            · rw [hb0, hnone] at hc
              simp at hc
            · refine hacyc (List.mem_flatMap.mpr ⟨t, ?_, hr⟩)
              rw [succs_of_array hnode]
              exact ht
          have hn1 : lookupK st1.built k = none := by
            cases hx : lookupK st1.built k with
            | none => rfl
            | some y => rw [hx] at hni; simp at hni
          show lookupK (setBuilt (markWrittenR
            { st1 with counter := st1.counter + 1 } st1.counter) k
            _).built k = _
          unfold setBuilt
          dsimp only []
          rw [markWrittenR_built]
          have hn1' : (lookupK st1.built k).isSome = false := by
            rw [hn1]
            rfl
          rw [if_neg (by rw [hn1']; exact Bool.false_ne_true)]
          exact lookupK_none_append hn1

/-- C2: after a group or dataset node has been read once, reading the same
(store, path) key again — under any name, e.g. when reached a second time
through a link — returns the identical cached builder and leaves the read
state untouched (no second builder is constructed), provided the store
region visible from the key is acyclic (a cyclic link chain would make the
first read fail instead). -/
theorem c2_second_read_returns_cached {sess : Session} {fuel : Nat}
    {st stG stD : RState} {kG kD : String × List String}
    {nmG nmD nmG2 nmD2 : Option String} {bG bD : RBuilder}
    (hcycG : NoCycle sess fuel kG) (hcycD : NoCycle sess fuel kD) :
    (getBuilt st kG = none →
      readGroupK sess (fuel + 1) st kG nmG = some (bG, stG) →
      readGroupK sess (fuel + 1) stG kG nmG2 = some (bG, stG)) ∧
    (getBuilt st kD = none →
      readDatasetK sess (fuel + 1) st kD nmD = some (bD, stD) →
      readDatasetK sess (fuel + 1) stD kD nmD2 = some (bD, stD)) := by
  constructor
  · intro hm h
    exact readGroupK_hit (readGroupK_registers hm
      (hcycG kG (self_mem_reachableL sess fuel kG)) h)
  · intro hm h
    exact readDatasetK_hit (readDatasetK_registers hm
      (hcycD kD (self_mem_reachableL sess fuel kD)) h)


theorem c2_second_read_returns_cached_witness :
    readGroupK wSessF 4 wRStRoot ("FILE", []) (some "other") =
      some (wBRoot, wRStRoot) ∧
    readDatasetK wSessF 4 wRStD ("FILE", ["d"]) (some "other") =
      some (wBD, wRStD) := by
  obtain ⟨h1, h2⟩ := @c2_second_read_returns_cached wSessF 3 wRSt0 wRStRoot
    wRStD ("FILE", []) ("FILE", ["d"]) none none (some "other")
    (some "other") wBRoot wBD (by unfold NoCycle; decide)
    (by unfold NoCycle; decide)
  exact ⟨h1 rfl rfl, h2 rfl rfl⟩

/-- C9: builders reconstructed from the store never expose the reserved
bookkeeping attributes: the attribute dict of any builder returned by a
group or dataset read contains neither `zarr_dtype` nor `zarr_link`, and
every builder in the resulting cache is equally clean. -/
theorem c9_reserved_attrs_filtered {sess : Session} {fuel : Nat}
    {st stG stD : RState} {kG kD : String × List String}
    {nmG nmD : Option String} {bG bD : RBuilder}
    (hcs : CS st) :
    (readGroupK sess fuel st kG nmG = some (bG, stG) →
      (∀ kv ∈ bG.rattrs, kv.1 ≠ "zarr_dtype" ∧ kv.1 ≠ "zarr_link") ∧
        CS stG) ∧
    (readDatasetK sess fuel st kD nmD = some (bD, stD) →
      (∀ kv ∈ bD.rattrs, kv.1 ≠ "zarr_dtype" ∧ kv.1 ≠ "zarr_link") ∧
        CS stD) := by
  constructor
  · intro h
    obtain ⟨hcb, hcs'⟩ := (readClean fuel).1 st kG nmG bG stG hcs h
    refine ⟨?_, hcs'⟩
    intro kv hkv
    have hm : kv.1 ∉ reservedAttrs := hcb kv hkv
    simp [reservedAttrs] at hm
    exact hm
  · intro h
    obtain ⟨hcb, hcs'⟩ := (readClean fuel).2.1 st kD nmD bD stD hcs h
    refine ⟨?_, hcs'⟩
    intro kv hkv
    have hm : kv.1 ∉ reservedAttrs := hcb kv hkv
    simp [reservedAttrs] at hm
    exact hm

theorem c9_reserved_attrs_filtered_witness :
    ((∀ kv ∈ wBRoot.rattrs, kv.1 ≠ "zarr_dtype" ∧ kv.1 ≠ "zarr_link") ∧
      CS wRStRoot) ∧
    ((∀ kv ∈ wBD.rattrs, kv.1 ≠ "zarr_dtype" ∧ kv.1 ≠ "zarr_link") ∧
      CS wRStD) := by
  obtain ⟨h1, h2⟩ := @c9_reserved_attrs_filtered wSessF 4 wRSt0 wRStRoot
    wRStD ("FILE", []) ("FILE", ["d"]) none none wBRoot wBD
    (fun e he => absurd he (List.not_mem_nil e))
  exact ⟨h1 (by rfl), h2 (by rfl)⟩


end HZ
